import Mathlib

/-!
Shallow embedding of the poker_calculator repository (src/src/lib.rs) in Lean 4,
together with theorems settling the frozen claims about its specification.

Machine integers of the source (u8, u16, i32, u64) are modelled as Nat; every
bitset built by the code stays below 2 to the 16, so the 16-bit complement used
by the source is modelled as xor with 65535.
-/

/-- Suit enumeration, from lib.rs lines 4-11 (repr u8: Hearts=0, Diamonds=1,
Clubs=2, Spades=3). -/
inductive Suit where
  | hearts
  | diamonds
  | clubs
  | spades
deriving DecidableEq, Repr

/-- Numeric discriminant of a suit (the repr u8 value). -/
def Suit.toNat : Suit → Nat
  | .hearts => 0
  | .diamonds => 1
  | .clubs => 2
  | .spades => 3

/-- Rank enumeration, from lib.rs lines 37-53 (repr u8: Two=2 .. Ace=14). -/
inductive Number where
  | two
  | three
  | four
  | five
  | six
  | seven
  | eight
  | nine
  | ten
  | jack
  | queen
  | king
  | ace
deriving DecidableEq, Repr

/-- Numeric discriminant of a rank (the repr u8 value, 2..14). -/
def Number.toNat : Number → Nat
  | .two => 2
  | .three => 3
  | .four => 4
  | .five => 5
  | .six => 6
  | .seven => 7
  | .eight => 8
  | .nine => 9
  | .ten => 10
  | .jack => 11
  | .queen => 12
  | .king => 13
  | .ace => 14

/-- Checked conversion from a numeric code, models Number::from_u8
(lib.rs lines 60-77): values outside 2..14 panic, modelled as none. -/
def Number.fromNat? : Nat → Option Number
  | 2 => some .two
  | 3 => some .three
  | 4 => some .four
  | 5 => some .five
  | 6 => some .six
  | 7 => some .seven
  | 8 => some .eight
  | 9 => some .nine
  | 10 => some .ten
  | 11 => some .jack
  | 12 => some .queen
  | 13 => some .king
  | 14 => some .ace
  | _ => none

/-- Total conversion modelling Number::from_u8_unchecked (lib.rs lines 83-85):
agrees with the checked conversion on 2..14; outside that range the source has
undefined behaviour and this model returns an arbitrary rank. -/
def Number.fromNatD (v : Nat) : Number := (Number.fromNat? v).getD .two

/-- Single-bit mask of a rank, models Number::as_bit (lib.rs lines 88-90). -/
def Number.asBit (n : Number) : Nat := 1 <<< n.toNat

/-- A playing card: an immutable (suit, rank) pair. The source packs the pair
into one byte (lib.rs lines 93-114); the packing is injective and the accessors
recover exactly these two fields, so the record is an equivalent model. -/
structure Card where
  suit : Suit
  number : Number
deriving DecidableEq, Repr

/-- Hand category, from lib.rs lines 125-137 (repr u8 values below). -/
inductive HandKind where
  | straightFlush
  | fourOfAKind
  | fullHouse
  | flush
  | straight
  | threeOfAKind
  | twoPair
  | pair
  | highCard
deriving DecidableEq, Repr

/-- Numeric discriminant of a hand kind (the repr u8 value); the derived Rust
Ord on HandKind compares these discriminants. -/
def HandKind.toNat : HandKind → Nat
  | .straightFlush => 8
  | .fourOfAKind => 7
  | .fullHouse => 6
  | .flush => 5
  | .straight => 4
  | .threeOfAKind => 3
  | .twoPair => 2
  | .pair => 1
  | .highCard => 0

/-- Evaluation of a 7-card hand, from lib.rs lines 139-143: a kind plus a
3-byte tiebreak array values, here the fields v0, v1, v2. -/
structure HandEvaluation where
  kind : HandKind
  v0 : Nat
  v1 : Nat
  v2 : Nat
deriving DecidableEq, Repr

/-- Derived Rust Ord on HandEvaluation: compare the kind discriminants first,
then the tiebreak bytes lexicographically (lib.rs line 139 derives Ord, field
order kind then values). -/
def HandEvaluation.cmp (a b : HandEvaluation) : Ordering :=
  (compare a.kind.toNat b.kind.toNat).then
    ((compare a.v0 b.v0).then ((compare a.v1 b.v1).then (compare a.v2 b.v2)))

/-- Constructor from lib.rs lines 147-152. -/
def HandEvaluation.new_straight_flush (high_card : Number) : HandEvaluation :=
  { kind := .straightFlush, v0 := high_card.toNat, v1 := 0, v2 := 0 }

/-- Constructor from lib.rs lines 155-160. -/
def HandEvaluation.new_four_of_a_kind (high_card kicker : Number) : HandEvaluation :=
  { kind := .fourOfAKind, v0 := high_card.toNat, v1 := kicker.toNat, v2 := 0 }

/-- Constructor from lib.rs lines 163-168. -/
def HandEvaluation.new_full_house (high_card low_card : Number) : HandEvaluation :=
  { kind := .fullHouse, v0 := high_card.toNat, v1 := low_card.toNat, v2 := 0 }

/-- Constructor from lib.rs lines 171-176: the 16-bit rank bitset is split
into its high and low bytes. -/
def HandEvaluation.new_flush (cards : Nat) : HandEvaluation :=
  { kind := .flush, v0 := cards >>> 8, v1 := cards &&& 255, v2 := 0 }

/-- Constructor from lib.rs lines 179-184. -/
def HandEvaluation.new_straight (high_card : Number) : HandEvaluation :=
  { kind := .straight, v0 := high_card.toNat, v1 := 0, v2 := 0 }

/-- Constructor from lib.rs lines 187-196. -/
def HandEvaluation.new_three_of_a_kind (high_card : Number) (kickers : Nat) : HandEvaluation :=
  { kind := .threeOfAKind, v0 := high_card.toNat, v1 := kickers >>> 8, v2 := kickers &&& 255 }

/-- Constructor from lib.rs lines 199-204. -/
def HandEvaluation.new_two_pair (high_card low_card kicker : Number) : HandEvaluation :=
  { kind := .twoPair, v0 := high_card.toNat, v1 := low_card.toNat, v2 := kicker.toNat }

/-- Constructor from lib.rs lines 207-216. -/
def HandEvaluation.new_pair (high_card : Number) (kickers : Nat) : HandEvaluation :=
  { kind := .pair, v0 := high_card.toNat, v1 := kickers >>> 8, v2 := kickers &&& 255 }

/-- Constructor from lib.rs lines 219-224. -/
def HandEvaluation.new_high_card (cards : Nat) : HandEvaluation :=
  { kind := .highCard, v0 := cards >>> 8, v1 := cards &&& 255, v2 := 0 }

/-- Descending loop of check_for_straight (lib.rs lines 237-243): tests the
5-bit windows at shifts s down to 1, returning the first full window. -/
def checkForStraightGo (b : Nat) : Nat → Option Number
  | 0 => none
  | s + 1 =>
    if (b >>> (s + 1)) &&& 31 = 31 then some (Number.fromNatD (s + 1 + 4))
    else checkForStraightGo b s

/-- Ace duplication of check_for_straight (lib.rs lines 230-232): when the ace
bit is present, also set bit 1 so the wheel reads as a consecutive run. -/
def dupAce (cardBitset : Nat) : Nat :=
  if cardBitset &&& Number.ace.asBit ≠ 0 then cardBitset ||| 2 else cardBitset

/-- Straight detection on a rank bitset, from lib.rs lines 227-245: duplicate
the ace at bit 1 when present, then scan 5-bit windows at shifts 10 down to 1. -/
def checkForStraight (cardBitset : Nat) : Option Number :=
  checkForStraightGo (dupAce cardBitset) 10

/-- Ranks Ace down to Two, the iteration order of the descending scans
(Number::Two as u8 ..= Number::Ace as u8).rev() in the source. -/
def ranksDesc : List Nat := [14, 13, 12, 11, 10, 9, 8, 7, 6, 5, 4, 3, 2]

/-- Suit indices 0..3, the iteration order over suits in the source. -/
def suitIdxs : List Nat := [0, 1, 2, 3]

/-- Descending scan for the highest rank with exactly m occurrences, the loop
shape shared by the quad, triple and pair checks of the source. -/
def findRankWithCount (countByNumber : Nat → Nat) (m : Nat) : Option Nat :=
  ranksDesc.findSome? fun n => if countByNumber n = m then some n else none

/-- Highest rank with exactly 3 occurrences, from lib.rs lines 248-255. -/
def checkForThreeOfAKind (countByNumber : Nat → Nat) : Option Number :=
  (findRankWithCount countByNumber 3).map Number.fromNatD

/-- Highest rank with exactly 2 occurrences, from lib.rs lines 258-265. -/
def checkForPair (countByNumber : Nat → Nat) : Option Number :=
  (findRankWithCount countByNumber 2).map Number.fromNatD

/-- Position of the highest set bit among bits 0..15 (0 when none is set). -/
def highestBit16 (b : Nat) : Nat :=
  (List.range 16).foldl (fun acc i => if b.testBit i then i else acc) 0

/-- Leading zero count of a 16-bit value, as u16::leading_zeros. -/
def leadingZeros16 (b : Nat) : Nat := if b = 0 then 16 else 15 - highestBit16 b

/-- Position of the highest set bit converted to a rank, from lib.rs lines
268-273: computes 15 - leading_zeros and converts unchecked. -/
def highestCardInSet (cards : Nat) : Number :=
  Number.fromNatD (15 - leadingZeros16 cards)

/-- Clear the lowest set bit, the x &= x - 1 idiom of the source. -/
def clearLowest (b : Nat) : Nat := b &&& (b - 1)

/-- Bitwise complement on 16 bits, models the u16 not operator; every bitset
of the source is below 2 to the 16, where and-with-not16 agrees with Rust. -/
def not16 (b : Nat) : Nat := 65535 ^^^ b

/-- Per-suit card count of a hand, from the tally loop of evaluate_hand
(lib.rs lines 282-288). -/
def countBySuit (cards : List Card) (s : Nat) : Nat :=
  cards.countP fun c => decide (c.suit.toNat = s)

/-- Per-rank card count of a hand, from the tally loop of evaluate_hand. -/
def countByNumber (cards : List Card) (n : Nat) : Nat :=
  cards.countP fun c => decide (c.number.toNat = n)

/-- Bitset of ranks present in the hand, from the tally loop of evaluate_hand. -/
def numberBitsetOf (cards : List Card) : Nat :=
  cards.foldl (fun acc c => acc ||| c.number.asBit) 0

/-- Bitset of ranks present per suit, from the tally loop of evaluate_hand. -/
def suitBitsetOf (cards : List Card) (s : Nat) : Nat :=
  cards.foldl (fun acc c => if c.suit.toNat = s then acc ||| c.number.asBit else acc) 0

/-- Flush tiebreak stripping (lib.rs lines 324-328): while more than 5 suited
cards remain, clear the lowest set bit; with count suited cards this clears
the lowest count - 5 bits. -/
def flushStrip (count bits : Nat) : Nat := clearLowest^[count - 5] bits

/-- Tail of the decision chain of evaluate_hand after the full house check
(lib.rs lines 321-377): flush, straight, three of a kind (reusing the triple
found earlier), two pair, pair, high card. -/
def evaluateAfterFullHouse (countS countN : Nat → Nat) (nbits : Nat) (sbits : Nat → Nat)
    (threeOfAKind : Option Number) : HandEvaluation :=
  match suitIdxs.findSome?
      (fun s => if 5 ≤ countS s then some (flushStrip (countS s) (sbits s)) else none) with
  | some suited => HandEvaluation.new_flush suited
  | none =>
    match checkForStraight nbits with
    | some high_card => HandEvaluation.new_straight high_card
    | none =>
      match threeOfAKind with
      | some high_card =>
        let kickers := clearLowest (clearLowest (nbits &&& not16 high_card.asBit))
        HandEvaluation.new_three_of_a_kind high_card kickers
      | none =>
        match checkForPair countN with
        | some high_card =>
          match (ranksDesc.filter (fun n => decide (n < high_card.toNat))).findSome?
              (fun n => if countN n = 2 then some n else none) with
          | some lo =>
            let low_card := Number.fromNatD lo
            let bitset := nbits &&& not16 high_card.asBit &&& not16 low_card.asBit
            HandEvaluation.new_two_pair high_card low_card (highestCardInSet bitset)
          | none =>
            let kickers := clearLowest (clearLowest (nbits &&& not16 high_card.asBit))
            HandEvaluation.new_pair high_card kickers
        | none =>
          HandEvaluation.new_high_card (clearLowest (clearLowest nbits))

/-- Decision chain of evaluate_hand (lib.rs lines 290-377) as a function of
the four tallies built by its first loop. -/
def evaluateCore (countS countN : Nat → Nat) (nbits : Nat) (sbits : Nat → Nat) :
    HandEvaluation :=
  match suitIdxs.findSome? (fun s => checkForStraight (sbits s)) with
  | some high_card => HandEvaluation.new_straight_flush high_card
  | none =>
    match findRankWithCount countN 4 with
    | some q =>
      let high_card := Number.fromNatD q
      let kicker := highestCardInSet (nbits &&& not16 high_card.asBit)
      HandEvaluation.new_four_of_a_kind high_card kicker
    | none =>
      match checkForThreeOfAKind countN with
      | some t =>
        match ranksDesc.findSome? (fun n => if n ≠ t.toNat ∧ 2 ≤ countN n then some n else none) with
        | some p => HandEvaluation.new_full_house t (Number.fromNatD p)
        | none => evaluateAfterFullHouse countS countN nbits sbits (some t)
      | none => evaluateAfterFullHouse countS countN nbits sbits none

/-- Evaluation of a 7-card hand, from lib.rs lines 276-377: build the four
tallies in one pass, then run the decision chain. The source takes a fixed
array of 7 cards; the model takes the corresponding list. -/
def evaluateHand (cards : List Card) : HandEvaluation :=
  evaluateCore (countBySuit cards) (countByNumber cards) (numberBitsetOf cards)
    (suitBitsetOf cards)

/-- Aggregate result of the two-hand equity enumeration, lib.rs lines 379-384. -/
structure ComputeResult where
  win_count : Nat
  loss_count : Nat
  tie_count : Nat
  count : Nat
deriving DecidableEq, Repr

/-- Suits in ascending discriminant order, the deck-building iteration order. -/
def suitsAsc : List Suit := [.hearts, .diamonds, .clubs, .spades]

/-- Ranks Two up to Ace, the deck-building iteration order. -/
def numbersAsc : List Number :=
  [.two, .three, .four, .five, .six, .seven, .eight, .nine, .ten, .jack, .queen, .king, .ace]

/-- All 52 cards in the order the deck loop of compute_result visits them
(lib.rs lines 388-396: suits 0..3 outer, ranks 2..14 inner). -/
def allCards : List Card :=
  suitsAsc.flatMap fun s => numbersAsc.map fun n => { suit := s, number := n }

/-- Per-board accumulation step of compute_result (lib.rs lines 403-415). -/
def computeStep (hand1 hand2 : Card × Card) (acc : ComputeResult) (board : List Card) :
    ComputeResult :=
  let handA := board ++ [hand1.1, hand1.2]
  let handB := board ++ [hand2.1, hand2.2]
  match (evaluateHand handA).cmp (evaluateHand handB) with
  | .eq => { acc with tie_count := acc.tie_count + 1, count := acc.count + 1 }
  | .gt => { acc with win_count := acc.win_count + 1, count := acc.count + 1 }
  | .lt => { acc with loss_count := acc.loss_count + 1, count := acc.count + 1 }

/-- Two-hand equity enumeration, from lib.rs lines 387-423: build the working
deck of all cards distinct from the four hole cards, then tally the comparison
over every 5-card combination of the deck. The itertools tuple_combinations
visits each 5-card combination exactly once; the model enumerates the same
combinations via sublistsLen (the aggregate tallies do not depend on the
visit order, which the fold makes explicit). -/
def compute_result (hand1 hand2 : Card × Card) : ComputeResult :=
  let deck := allCards.filter fun c =>
    c != hand1.1 && c != hand1.2 && c != hand2.1 && c != hand2.2
  (deck.sublistsLen 5).foldl (computeStep hand1 hand2)
    { win_count := 0, loss_count := 0, tie_count := 0, count := 0 }

/-! Checked variant of the evaluator: identical control flow, but every
conversion the source performs with Number::from_u8_unchecked, and every
highest_card_in_set call (whose 15 - leading_zeros subtraction underflows on
an empty bitset), is guarded; a guard failure yields none. The source relies
on these conversions being in range, so the evaluator is total on valid hands
exactly when the checked variant returns some. -/

/-- Checked model of highest_card_in_set: fails on an empty bitset (where the
u32 subtraction 15 - leading_zeros underflows) or when the computed position
is outside the rank range 2..14. -/
def highestCardInSetChecked (cards : Nat) : Option Number :=
  if 15 < leadingZeros16 cards then none
  else Number.fromNat? (15 - leadingZeros16 cards)

/-- Checked model of the straight-scan loop: the unchecked rank conversion at
lib.rs line 240 becomes a checked one. -/
def checkForStraightGoChecked (b : Nat) : Nat → Option (Option Number)
  | 0 => some none
  | s + 1 =>
    if (b >>> (s + 1)) &&& 31 = 31 then (Number.fromNat? (s + 1 + 4)).map some
    else checkForStraightGoChecked b s

/-- Checked model of check_for_straight. -/
def checkForStraightChecked (cardBitset : Nat) : Option (Option Number) :=
  checkForStraightGoChecked (dupAce cardBitset) 10

/-- Checked straight flush loop of evaluate_hand over the per-suit bitsets. -/
def sfScanChecked (sbits : Nat → Nat) : List Nat → Option (Option Number)
  | [] => some none
  | s :: rest =>
    match checkForStraightChecked (sbits s) with
    | none => none
    | some (some hc) => some (some hc)
    | some none => sfScanChecked sbits rest

/-- Checked tail of the decision chain after the full house check. -/
def evaluateAfterFullHouseChecked (countS countN : Nat → Nat) (nbits : Nat)
    (sbits : Nat → Nat) (threeOfAKind : Option Number) : Option HandEvaluation :=
  match suitIdxs.findSome?
      (fun s => if 5 ≤ countS s then some (flushStrip (countS s) (sbits s)) else none) with
  | some suited => some (HandEvaluation.new_flush suited)
  | none =>
    match checkForStraightChecked nbits with
    | none => none
    | some (some high_card) => some (HandEvaluation.new_straight high_card)
    | some none =>
      match threeOfAKind with
      | some high_card =>
        let kickers := clearLowest (clearLowest (nbits &&& not16 high_card.asBit))
        some (HandEvaluation.new_three_of_a_kind high_card kickers)
      | none =>
        match findRankWithCount countN 2 with
        | some praw =>
          match Number.fromNat? praw with
          | none => none
          | some high_card =>
            match (ranksDesc.filter (fun n => decide (n < high_card.toNat))).findSome?
                (fun n => if countN n = 2 then some n else none) with
            | some lo =>
              match Number.fromNat? lo with
              | none => none
              | some low_card =>
                let bitset := nbits &&& not16 high_card.asBit &&& not16 low_card.asBit
                (highestCardInSetChecked bitset).map fun kicker =>
                  HandEvaluation.new_two_pair high_card low_card kicker
            | none =>
              let kickers := clearLowest (clearLowest (nbits &&& not16 high_card.asBit))
              some (HandEvaluation.new_pair high_card kickers)
        | none =>
          some (HandEvaluation.new_high_card (clearLowest (clearLowest nbits)))

/-- Checked model of the full decision chain of evaluate_hand. -/
def evaluateCoreChecked (countS countN : Nat → Nat) (nbits : Nat) (sbits : Nat → Nat) :
    Option HandEvaluation :=
  match sfScanChecked sbits suitIdxs with
  | none => none
  | some (some high_card) => some (HandEvaluation.new_straight_flush high_card)
  | some none =>
    match findRankWithCount countN 4 with
    | some q =>
      match Number.fromNat? q with
      | none => none
      | some high_card =>
        (highestCardInSetChecked (nbits &&& not16 high_card.asBit)).map fun kicker =>
          HandEvaluation.new_four_of_a_kind high_card kicker
    | none =>
      match findRankWithCount countN 3 with
      | some traw =>
        match Number.fromNat? traw with
        | none => none
        | some t =>
          match ranksDesc.findSome?
              (fun n => if n ≠ t.toNat ∧ 2 ≤ countN n then some n else none) with
          | some p =>
            match Number.fromNat? p with
            | none => none
            | some pl => some (HandEvaluation.new_full_house t pl)
          | none => evaluateAfterFullHouseChecked countS countN nbits sbits (some t)
      | none => evaluateAfterFullHouseChecked countS countN nbits sbits none

/-- Checked model of evaluate_hand on a list of cards. -/
def evaluateHandChecked (cards : List Card) : Option HandEvaluation :=
  evaluateCoreChecked (countBySuit cards) (countByNumber cards) (numberBitsetOf cards)
    (suitBitsetOf cards)

/-- Failure condition of the generalized equity computation. -/
inductive EquityError where
  | invalidInput
deriving DecidableEq, Repr

/-- Per-hand aggregate of the generalized equity computation (spec section 3,
generalizing the two-hand ComputeResult). -/
structure EquityResult where
  win_count : Nat
  loss_count : Nat
  tie_count : Nat
  count : Nat
deriving DecidableEq, Repr

/-- Largest evaluation of a list under the derived HandEvaluation order. -/
def bestEvaluation (start : HandEvaluation) (evals : List HandEvaluation) : HandEvaluation :=
  evals.foldl (fun a e => if a.cmp e = .lt then e else a) start

/-- Modelled from the spec: compute_equity, the generalized equity engine of
spec section 4.3. It is called by src/main.rs but its definition is not among
the sources (src/src/lib.rs only holds the two-hand compute_result), so this
model follows the spec text: build the working deck from all 52 cards minus
hole cards and dead cards, failing with InvalidInput when any card appears
more than once across hands and dead_cards; enumerate every 5-card board; a
hand wins a board when it holds the unique best evaluation, ties when at
least two hands share the best evaluation, loses otherwise. -/
def compute_equity (hands : List (Card × Card)) (dead_cards : List Card) :
    Except EquityError (List EquityResult) :=
  let known := (hands.flatMap fun h => [h.1, h.2]) ++ dead_cards
  if ¬ known.Nodup then .error .invalidInput
  else
    let deck := allCards.filter fun c => !(known.contains c)
    let boards := deck.sublistsLen 5
    .ok ((List.range hands.length).map fun i =>
      boards.foldl
        (fun acc board =>
          let evals := hands.map fun h => evaluateHand (board ++ [h.1, h.2])
          let mine := evals.getD i (HandEvaluation.new_high_card 0)
          let othersBest := bestEvaluation (HandEvaluation.new_high_card 0) (evals.eraseIdx i)
          match mine.cmp othersBest with
          | .gt => { acc with win_count := acc.win_count + 1, count := acc.count + 1 }
          | .eq => { acc with tie_count := acc.tie_count + 1, count := acc.count + 1 }
          | .lt => { acc with loss_count := acc.loss_count + 1, count := acc.count + 1 })
        { win_count := 0, loss_count := 0, tie_count := 0, count := 0 })

/-! Canonical poker semantics, written from the standard rules (spec side):
a 5-card hand is ranked by its category and tiebreak ranks, and a 7-card hand
by the best of its 21 five-card subsets. Values are descending lists of
naturals compared lexicographically. -/

/-- Lexicographic comparison of natural-number lists, shorter lists first. -/
def lexCmp : List Nat → List Nat → Ordering
  | [], [] => .eq
  | [], _ :: _ => .lt
  | _ :: _, [] => .gt
  | a :: as, b :: bs => (compare a b).then (lexCmp as bs)

/-- All cards of a hand share one suit. -/
def sameSuit : List Card → Bool
  | [] => true
  | c :: t => t.all fun d => d.suit == c.suit

/-- High card of a 5-rank descending run, the wheel included. -/
def runHigh : List Nat → Option Nat
  | [a, b, c, d, e] =>
    if a = b + 1 ∧ b = c + 1 ∧ c = d + 1 ∧ d = e + 1 then some a
    else if a = 14 ∧ b = 5 ∧ c = 4 ∧ d = 3 ∧ e = 2 then some 5
    else none
  | _ => none

/-- Canonical value of a 5-card hand under standard poker rules: category
first (straight flush 8 down to high card 0), then the tiebreak ranks in
descending order. Rank groups are read off the per-rank counts; present
ranks are listed in descending order. -/
def value5 (s : List Card) : List Nat :=
  let cnt := countByNumber s
  let pres := ranksDesc.filter fun r => decide (0 < cnt r)
  let quads := pres.filter fun r => decide (cnt r = 4)
  let trips := pres.filter fun r => decide (cnt r = 3)
  let pairs := pres.filter fun r => decide (cnt r = 2)
  if sameSuit s ∧ (runHigh pres).isSome then [8, (runHigh pres).getD 0]
  else
    match quads with
    | q :: _ => 7 :: q :: (pres.filter fun r => decide (r ≠ q))
    | [] =>
      match trips, pairs with
      | t :: _, p :: _ => [6, t, p]
      | _, _ =>
        if sameSuit s then 5 :: pres
        else
          match runHigh pres with
          | some m => [4, m]
          | none =>
            match trips with
            | t :: _ => 3 :: t :: (pres.filter fun r => decide (r ≠ t))
            | [] =>
              match pairs with
              | p1 :: p2 :: _ =>
                2 :: p1 :: p2 ::
                  (pres.filter fun r => decide (r ≠ p1 ∧ r ≠ p2)).take 1
              | [p] => 1 :: p :: (pres.filter fun r => decide (r ≠ p))
              | [] => 0 :: pres

/-- Canonical value of a 7-card hand: the lexicographically largest value of
its 5-card subsets. -/
def value7 (h : List Card) : List Nat :=
  ((h.sublistsLen 5).map value5).foldl (fun acc v => if lexCmp acc v = .lt then v else acc) []

/-- Ranks present in a hand, in descending order. -/
def presList (s : List Card) : List Nat :=
  ranksDesc.filter fun r => decide (0 < countByNumber s r)

/-- Ranks whose bits are set in a 16-bit mask, in descending order. -/
def decodeMask (m : Nat) : List Nat := ranksDesc.filter fun r => m.testBit r

/-- Canonical reading of a HandEvaluation: the category discriminant followed
by the tiebreak ranks it encodes, masks decoded into descending rank lists. -/
def toKey (e : HandEvaluation) : List Nat :=
  e.kind.toNat ::
    match e.kind with
    | .straightFlush => [e.v0]
    | .straight => [e.v0]
    | .fourOfAKind => [e.v0, e.v1]
    | .fullHouse => [e.v0, e.v1]
    | .twoPair => [e.v0, e.v1, e.v2]
    | .flush => decodeMask (e.v0 * 256 + e.v1)
    | .highCard => decodeMask (e.v0 * 256 + e.v1)
    | .threeOfAKind => e.v0 :: decodeMask (e.v1 * 256 + e.v2)
    | .pair => e.v0 :: decodeMask (e.v1 * 256 + e.v2)

/-- Well-formedness of an evaluation as produced by the evaluator: unused
tiebreak bytes are zero, and byte pairs that carry a rank bitset split a mask
whose bits are rank positions. -/
def evalShape (e : HandEvaluation) : Prop :=
  match e.kind with
  | .straightFlush => e.v1 = 0 ∧ e.v2 = 0
  | .straight => e.v1 = 0 ∧ e.v2 = 0
  | .fourOfAKind => e.v2 = 0
  | .fullHouse => e.v2 = 0
  | .twoPair => True
  | .flush => ∃ m, (∀ i, m.testBit i = true → 2 ≤ i ∧ i ≤ 14) ∧
      e.v0 = m >>> 8 ∧ e.v1 = m &&& 255 ∧ e.v2 = 0
  | .highCard => ∃ m, (∀ i, m.testBit i = true → 2 ≤ i ∧ i ≤ 14) ∧
      e.v0 = m >>> 8 ∧ e.v1 = m &&& 255 ∧ e.v2 = 0
  | .threeOfAKind => ∃ m, (∀ i, m.testBit i = true → 2 ≤ i ∧ i ≤ 14) ∧
      e.v1 = m >>> 8 ∧ e.v2 = m &&& 255
  | .pair => ∃ m, (∀ i, m.testBit i = true → 2 ≤ i ∧ i ≤ 14) ∧
      e.v1 = m >>> 8 ∧ e.v2 = m &&& 255

section SanityExamples

/-- Royal flush test hand from the source test suite (lib.rs lines 494-502). -/
def royalFlushHand : List Card :=
  [⟨.clubs, .ace⟩, ⟨.clubs, .king⟩, ⟨.clubs, .queen⟩, ⟨.clubs, .jack⟩, ⟨.clubs, .ten⟩,
   ⟨.hearts, .eight⟩, ⟨.hearts, .five⟩]

example : evaluateHand royalFlushHand = HandEvaluation.new_straight_flush .ace := by decide

example :
    evaluateHand
      [⟨.clubs, .ace⟩, ⟨.clubs, .ten⟩, ⟨.spades, .ten⟩, ⟨.hearts, .ten⟩, ⟨.diamonds, .ten⟩,
       ⟨.hearts, .eight⟩, ⟨.hearts, .five⟩] =
      HandEvaluation.new_four_of_a_kind .ten .ace := by decide

example :
    evaluateHand
      [⟨.clubs, .king⟩, ⟨.hearts, .king⟩, ⟨.clubs, .nine⟩, ⟨.clubs, .eight⟩, ⟨.spades, .eight⟩,
       ⟨.hearts, .eight⟩, ⟨.hearts, .five⟩] =
      HandEvaluation.new_full_house .eight .king := by decide

example :
    evaluateHand
      [⟨.clubs, .king⟩, ⟨.clubs, .queen⟩, ⟨.clubs, .jack⟩, ⟨.clubs, .nine⟩, ⟨.clubs, .eight⟩,
       ⟨.diamonds, .eight⟩, ⟨.clubs, .five⟩] =
      HandEvaluation.new_flush
        (Number.king.asBit ||| Number.queen.asBit ||| Number.jack.asBit |||
          Number.nine.asBit ||| Number.eight.asBit) := by decide

example :
    evaluateHand
      [⟨.clubs, .ace⟩, ⟨.clubs, .king⟩, ⟨.clubs, .queen⟩, ⟨.clubs, .jack⟩, ⟨.hearts, .ten⟩,
       ⟨.hearts, .eight⟩, ⟨.hearts, .five⟩] =
      HandEvaluation.new_straight .ace := by decide

example :
    evaluateHand
      [⟨.clubs, .ace⟩, ⟨.hearts, .king⟩, ⟨.clubs, .nine⟩, ⟨.clubs, .eight⟩, ⟨.spades, .eight⟩,
       ⟨.hearts, .eight⟩, ⟨.hearts, .five⟩] =
      HandEvaluation.new_three_of_a_kind .eight (Number.ace.asBit ||| Number.king.asBit) := by
  decide

example :
    evaluateHand
      [⟨.diamonds, .ace⟩, ⟨.clubs, .king⟩, ⟨.diamonds, .king⟩, ⟨.diamonds, .ten⟩,
       ⟨.clubs, .nine⟩, ⟨.clubs, .six⟩, ⟨.hearts, .six⟩] =
      HandEvaluation.new_two_pair .king .six .ace := by decide

example :
    evaluateHand
      [⟨.clubs, .ace⟩, ⟨.diamonds, .ace⟩, ⟨.clubs, .king⟩, ⟨.diamonds, .ten⟩, ⟨.clubs, .nine⟩,
       ⟨.clubs, .eight⟩, ⟨.hearts, .six⟩] =
      HandEvaluation.new_pair .ace
        (Number.king.asBit ||| Number.ten.asBit ||| Number.nine.asBit) := by decide

example :
    evaluateHand
      [⟨.clubs, .ace⟩, ⟨.clubs, .king⟩, ⟨.diamonds, .queen⟩, ⟨.diamonds, .ten⟩, ⟨.clubs, .nine⟩,
       ⟨.clubs, .eight⟩, ⟨.hearts, .six⟩] =
      HandEvaluation.new_high_card
        (Number.ace.asBit ||| Number.king.asBit ||| Number.queen.asBit ||| Number.ten.asBit |||
          Number.nine.asBit) := by decide

example : checkForStraight (Number.ace.asBit ||| Number.two.asBit ||| Number.three.asBit |||
    Number.four.asBit ||| Number.five.asBit) = some .five := by decide

end SanityExamples

section ScanLemmas

/-- A findSome? scan over a list holding a some-producing element is some. -/
theorem findSome?_isSome_of_mem {α β : Type} (f : α → Option β) (l : List α) (x : α)
    (hx : x ∈ l) (h : (f x).isSome = true) : (l.findSome? f).isSome = true := by
  induction l with
  | nil => simp at hx
  | cons a t ih =>
    rw [List.findSome?_cons]
    cases hfa : f a with
    | some b => simp
    | none =>
      rcases List.mem_cons.mp hx with rfl | hxt
      · rw [hfa] at h; simp at h
      · exact ih hxt

/-- First-match scan over a strictly descending list: the scan returns the
value at the largest element satisfying the predicate. -/
theorem findSome?_if_eq_some {β : Type} (p : Nat → Prop) [DecidablePred p] (g : Nat → β)
    (l : List Nat) (hl : l.Pairwise (fun a b => a > b)) (k : Nat) (hk : k ∈ l) (hpk : p k)
    (hmax : ∀ j ∈ l, p j → j ≤ k) :
    (l.findSome? fun n => if p n then some (g n) else none) = some (g k) := by
  induction l with
  | nil => simp at hk
  | cons a t ih =>
    rw [List.findSome?_cons]
    rcases List.mem_cons.mp hk with rfl | hkt
    · simp [hpk]
    · have hak : a > k := (List.pairwise_cons.mp hl).1 k hkt
      have hpa : ¬ p a := fun hpa => absurd (hmax a (List.mem_cons_self a t) hpa) (by omega)
      simp only [if_neg hpa]
      exact ih (List.pairwise_cons.mp hl).2 hkt fun j hj hpj =>
        hmax j (List.mem_cons_of_mem a hj) hpj

/-- A first-match scan result is an element satisfying the predicate. -/
theorem findSome?_if_sound {β : Type} (p : Nat → Prop) [DecidablePred p] (g : Nat → β)
    (l : List Nat) (v : β)
    (h : (l.findSome? fun n => if p n then some (g n) else none) = some v) :
    ∃ n ∈ l, p n ∧ v = g n := by
  induction l with
  | nil => simp [List.findSome?] at h
  | cons a t ih =>
    rw [List.findSome?_cons] at h
    by_cases hpa : p a
    · simp only [if_pos hpa] at h
      exact ⟨a, List.mem_cons_self a t, hpa, by injection h with h; exact h.symm⟩
    · simp only [if_neg hpa] at h
      obtain ⟨n, hn, hpn, hv⟩ := ih h
      exact ⟨n, List.mem_cons_of_mem a hn, hpn, hv⟩

/-- Best-so-far fold with no matching element keeps the accumulator. -/
theorem foldl_choose_eq_acc (p : Nat → Bool) (l : List Nat) (acc : Nat)
    (h : ∀ j ∈ l, p j = false) :
    l.foldl (fun acc i => if p i then i else acc) acc = acc := by
  induction l generalizing acc with
  | nil => rfl
  | cons a t ih =>
    rw [List.foldl_cons, h a (List.mem_cons_self a t)]
    exact ih acc fun j hj => h j (List.mem_cons_of_mem a hj)

/-- Best-so-far fold over a strictly ascending list returns the largest
matching element. -/
theorem foldl_choose_eq_max (p : Nat → Bool) (l : List Nat)
    (hl : l.Pairwise (fun a b => a < b)) (k acc : Nat) (hk : k ∈ l) (hpk : p k = true)
    (hmax : ∀ j ∈ l, p j = true → j ≤ k) :
    l.foldl (fun acc i => if p i then i else acc) acc = k := by
  induction l generalizing acc with
  | nil => simp at hk
  | cons a t ih =>
    rw [List.foldl_cons]
    rcases List.mem_cons.mp hk with rfl | hkt
    · rw [hpk]
      refine foldl_choose_eq_acc p t k fun j hj => ?_
      have : k < j := (List.pairwise_cons.mp hl).1 j hj
      by_contra hpj
      have := hmax j (List.mem_cons_of_mem k hj) (by simpa using hpj)
      omega
    · exact ih (List.pairwise_cons.mp hl).2 _ hkt fun j hj hpj =>
        hmax j (List.mem_cons_of_mem a hj) hpj

end ScanLemmas

section RankLemmas

/-- Rank discriminants lie in 2..14. -/
theorem Number.two_le_toNat (n : Number) : 2 ≤ n.toNat := by cases n <;> decide

/-- Rank discriminants lie in 2..14. -/
theorem Number.toNat_le_14 (n : Number) : n.toNat ≤ 14 := by cases n <;> decide

/-- The checked conversion succeeds on 2..14 and agrees with the total one. -/
theorem Number.fromNat?_eq_some (r : Nat) (h2 : 2 ≤ r) (h14 : r ≤ 14) :
    Number.fromNat? r = some (Number.fromNatD r) := by
  interval_cases r <;> rfl

/-- The total conversion is a left inverse of toNat on 2..14. -/
theorem Number.toNat_fromNatD (r : Nat) (h2 : 2 ≤ r) (h14 : r ≤ 14) :
    (Number.fromNatD r).toNat = r := by
  interval_cases r <;> rfl

/-- The total conversion inverts toNat. -/
theorem Number.fromNatD_toNat (n : Number) : Number.fromNatD n.toNat = n := by
  cases n <;> rfl

/-- Bit characterization of a rank mask. -/
theorem Number.testBit_asBit (n : Number) (r : Nat) :
    n.asBit.testBit r = decide (n.toNat = r) := by
  rw [Number.asBit, Nat.shiftLeft_eq, one_mul, Nat.testBit_two_pow]

/-- A rank mask is never zero. -/
theorem Number.asBit_ne_zero (n : Number) : n.asBit ≠ 0 := by
  cases n <;> decide

end RankLemmas

section BitLemmas

/-- Testing a single-bit mask against a value reads off that bit. -/
theorem and_two_pow_ne_zero_iff (b k : Nat) : b &&& 2 ^ k ≠ 0 ↔ b.testBit k = true := by
  constructor
  · intro h
    by_contra hbk
    refine h (Nat.eq_of_testBit_eq fun i => ?_)
    rw [Nat.testBit_and, Nat.testBit_two_pow, Nat.zero_testBit]
    by_cases hik : k = i
    · subst hik
      simp [Bool.eq_false_iff.mpr hbk]
    · simp [hik]
  · intro h hz
    have := congrArg (fun x => x.testBit k) hz
    simp [Nat.testBit_and, Nat.testBit_two_pow, h, Nat.zero_testBit] at this

/-- Bits of the ace-duplicated bitset: every original bit, plus bit 1 when the
ace bit is present. -/
theorem testBit_dupAce (b r : Nat) :
    (dupAce b).testBit r = (b.testBit r || (decide (r = 1) && b.testBit 14)) := by
  rw [dupAce]
  have hace : b &&& Number.ace.asBit ≠ 0 ↔ b.testBit 14 = true := by
    have : Number.ace.asBit = 2 ^ 14 := by decide
    rw [this]; exact and_two_pow_ne_zero_iff b 14
  by_cases h : b &&& Number.ace.asBit ≠ 0
  · rw [if_pos h]
    have h14 := hace.mp h
    have h2 : (2 : Nat) = 2 ^ 1 := by norm_num
    rw [Nat.testBit_or, h2, Nat.testBit_two_pow, h14]
    cases hbr : b.testBit r <;> by_cases hr : r = 1 <;> simp [hr] <;> omega
  · rw [if_neg h]
    have h14 : b.testBit 14 = false := by
      by_contra hh
      exact h (hace.mpr (by simpa using hh))
    rw [h14]
    simp

/-- Bits of an and with a 16-bit complement mask. -/
theorem testBit_and_not16 (b m r : Nat) (hr : r < 16) :
    (b &&& not16 m).testBit r = (b.testBit r && !(m.testBit r)) := by
  rw [not16, Nat.testBit_and, Nat.testBit_xor]
  have h16 : (65535 : Nat) = 2 ^ 16 - 1 := by norm_num
  rw [h16, Nat.testBit_two_pow_sub_one]
  simp [hr, Bool.xor_comm]

/-- A 5-bit window test reads exactly bits s..s+4. -/
theorem window_iff (b s : Nat) :
    ((b >>> s) &&& 31 = 31) ↔ ∀ i, i < 5 → b.testBit (s + i) = true := by
  have h31 : ∀ i, (31 : Nat).testBit i = decide (i < 5) := by
    intro i
    have : (31 : Nat) = 2 ^ 5 - 1 := by norm_num
    rw [this, Nat.testBit_two_pow_sub_one]
  constructor
  · intro h i hi
    have := congrArg (fun x => x.testBit i) h
    simp only [Nat.testBit_and, Nat.testBit_shiftRight, h31] at this
    simpa [hi] using this
  · intro h
    apply Nat.eq_of_testBit_eq
    intro i
    rw [Nat.testBit_and, Nat.testBit_shiftRight, h31]
    by_cases hi : i < 5
    · simp [hi, h i hi]
    · simp [hi]

end BitLemmas

section HighestBitLemmas

/-- highestBit16 returns the position of the highest set bit. -/
theorem highestBit16_eq (b r : Nat) (hr : r < 16) (hbit : b.testBit r = true)
    (hmax : ∀ j, b.testBit j = true → j ≤ r) : highestBit16 b = r := by
  rw [highestBit16]
  exact foldl_choose_eq_max _ _ (List.pairwise_lt_range 16) r 0 (List.mem_range.mpr hr) hbit
    fun j _ h => hmax j h

/-- highest_card_in_set on a bitset whose highest set bit is a rank position. -/
theorem highestCardInSet_eq (b r : Nat) (h2 : 2 ≤ r) (hr : r ≤ 14)
    (hbit : b.testBit r = true) (hmax : ∀ j, b.testBit j = true → j ≤ r) :
    highestCardInSet b = Number.fromNatD r := by
  have hb : b ≠ 0 := by
    intro h; subst h; rw [Nat.zero_testBit] at hbit; exact Bool.noConfusion hbit
  have hhb : highestBit16 b = r := highestBit16_eq b r (by omega) hbit hmax
  rw [highestCardInSet, leadingZeros16, if_neg hb, hhb]
  congr 1
  omega

/-- Checked highest_card_in_set succeeds on the same inputs. -/
theorem highestCardInSetChecked_eq (b r : Nat) (h2 : 2 ≤ r) (hr : r ≤ 14)
    (hbit : b.testBit r = true) (hmax : ∀ j, b.testBit j = true → j ≤ r) :
    highestCardInSetChecked b = some (highestCardInSet b) := by
  have hb : b ≠ 0 := by
    intro h; subst h; rw [Nat.zero_testBit] at hbit; exact Bool.noConfusion hbit
  have hhb : highestBit16 b = r := highestBit16_eq b r (by omega) hbit hmax
  rw [highestCardInSetChecked, highestCardInSet, leadingZeros16, if_neg hb, hhb,
    if_neg (by omega : ¬ 15 < 15 - r)]
  have h15 : 15 - (15 - r) = r := by omega
  rw [h15, Number.fromNat?_eq_some r h2 hr]

end HighestBitLemmas

section StraightScanLemmas

/-- The straight scan with every window below s empty returns none. -/
theorem checkForStraightGo_eq_none (b s : Nat)
    (h : ∀ j, 1 ≤ j → j ≤ s → ¬((b >>> j) &&& 31 = 31)) :
    checkForStraightGo b s = none := by
  induction s with
  | zero => rfl
  | succ s ih =>
    rw [checkForStraightGo, if_neg (h (s + 1) (by omega) (by omega))]
    exact ih fun j h1 hj => h j h1 (by omega)

/-- The straight scan returns the highest full window at or below s. -/
theorem checkForStraightGo_eq_some (b s k : Nat) (hk1 : 1 ≤ k) (hks : k ≤ s)
    (hw : (b >>> k) &&& 31 = 31)
    (hmax : ∀ j, k < j → j ≤ s → ¬((b >>> j) &&& 31 = 31)) :
    checkForStraightGo b s = some (Number.fromNatD (k + 4)) := by
  induction s with
  | zero => omega
  | succ s ih =>
    by_cases hks1 : k = s + 1
    · subst hks1
      rw [checkForStraightGo, if_pos hw]
    · rw [checkForStraightGo, if_neg (hmax (s + 1) (by omega) (by omega))]
      exact ih (by omega) fun j hj hjs => hmax j hj (by omega)

/-- The straight scan is some as soon as one window at or below s is full. -/
theorem checkForStraightGo_isSome (b s k : Nat) (hk1 : 1 ≤ k) (hks : k ≤ s)
    (hw : (b >>> k) &&& 31 = 31) : (checkForStraightGo b s).isSome = true := by
  induction s with
  | zero => omega
  | succ s ih =>
    rw [checkForStraightGo]
    by_cases hw1 : (b >>> (s + 1)) &&& 31 = 31
    · rw [if_pos hw1]; rfl
    · rw [if_neg hw1]
      have hks' : k ≤ s := by
        rcases Nat.lt_or_ge k (s + 1) with h | h
        · omega
        · exfalso
          have hk : k = s + 1 := by omega
          rw [hk] at hw
          exact hw1 hw
      exact ih hks'

/-- A some result of the straight scan comes from a full window at or below s. -/
theorem checkForStraightGo_sound (b s : Nat) (v : Number)
    (h : checkForStraightGo b s = some v) :
    ∃ k, 1 ≤ k ∧ k ≤ s ∧ (b >>> k) &&& 31 = 31 ∧ v = Number.fromNatD (k + 4) := by
  induction s with
  | zero => exact absurd h (by rw [checkForStraightGo]; simp)
  | succ s ih =>
    rw [checkForStraightGo] at h
    by_cases hw : (b >>> (s + 1)) &&& 31 = 31
    · rw [if_pos hw] at h
      exact ⟨s + 1, by omega, by omega, hw, by injection h with h; exact h.symm⟩
    · rw [if_neg hw] at h
      obtain ⟨k, h1, h2, h3, h4⟩ := ih h
      exact ⟨k, h1, by omega, h3, h4⟩

end StraightScanLemmas

section TallyLemmas

instance : Fintype Suit where
  elems := ⟨[Suit.hearts, Suit.diamonds, Suit.clubs, Suit.spades], by decide⟩
  complete := by intro x; cases x <;> decide

instance : Fintype Number where
  elems := ⟨[Number.two, Number.three, Number.four, Number.five, Number.six, Number.seven,
    Number.eight, Number.nine, Number.ten, Number.jack, Number.queen, Number.king,
    Number.ace], by decide⟩
  complete := by intro x; cases x <;> decide

/-- toNat on ranks is injective. -/
theorem Number.toNat_injective : Function.Injective Number.toNat := by
  intro a b h
  cases a <;> cases b <;> first | rfl | exact absurd h (by decide)

/-- Every rank discriminant occurs in the descending scan list. -/
theorem Number.toNat_mem_ranksDesc (n : Number) : n.toNat ∈ ranksDesc := by
  cases n <;> decide

/-- Bit characterization of the rank-bitset fold. -/
theorem testBit_or_foldl (l : List Card) (init r : Nat) :
    (l.foldl (fun acc c => acc ||| c.number.asBit) init).testBit r =
      (init.testBit r || l.any fun c => decide (c.number.toNat = r)) := by
  induction l generalizing init with
  | nil => simp
  | cons a t ih =>
    rw [List.foldl_cons, ih]
    simp [Nat.testBit_or, Number.testBit_asBit, Bool.or_assoc]

/-- A rank bit is set in the whole-hand bitset exactly when some card of the
hand has that rank. -/
theorem testBit_numberBitsetOf (cards : List Card) (r : Nat) :
    (numberBitsetOf cards).testBit r = true ↔ ∃ c ∈ cards, c.number.toNat = r := by
  rw [numberBitsetOf, testBit_or_foldl]
  simp [Nat.zero_testBit, List.any_eq_true]

/-- Bit characterization of the per-suit bitset fold. -/
theorem testBit_suit_foldl (l : List Card) (s init r : Nat) :
    (l.foldl (fun acc c => if c.suit.toNat = s then acc ||| c.number.asBit else acc)
        init).testBit r =
      (init.testBit r ||
        l.any fun c => decide (c.suit.toNat = s) && decide (c.number.toNat = r)) := by
  induction l generalizing init with
  | nil => simp
  | cons a t ih =>
    rw [List.foldl_cons]
    by_cases hs : a.suit.toNat = s
    · rw [if_pos hs, ih]
      simp [Nat.testBit_or, Number.testBit_asBit, hs, Bool.or_assoc]
    · rw [if_neg hs, ih]
      simp [hs]

/-- A rank bit is set in a per-suit bitset exactly when some card of the hand
has that suit and rank. -/
theorem testBit_suitBitsetOf (cards : List Card) (s r : Nat) :
    (suitBitsetOf cards s).testBit r = true ↔
      ∃ c ∈ cards, c.suit.toNat = s ∧ c.number.toNat = r := by
  rw [suitBitsetOf, testBit_suit_foldl]
  simp [Nat.zero_testBit, List.any_eq_true]

/-- Whole-hand bitset bits are rank positions. -/
theorem numberBitsetOf_range (cards : List Card) (r : Nat)
    (h : (numberBitsetOf cards).testBit r = true) : 2 ≤ r ∧ r ≤ 14 := by
  obtain ⟨c, _, hc⟩ := (testBit_numberBitsetOf cards r).mp h
  rw [← hc]
  exact ⟨c.number.two_le_toNat, c.number.toNat_le_14⟩

/-- Per-suit bitset bits are rank positions. -/
theorem suitBitsetOf_range (cards : List Card) (s r : Nat)
    (h : (suitBitsetOf cards s).testBit r = true) : 2 ≤ r ∧ r ≤ 14 := by
  obtain ⟨c, _, _, hc⟩ := (testBit_suitBitsetOf cards s r).mp h
  rw [← hc]
  exact ⟨c.number.two_le_toNat, c.number.toNat_le_14⟩

/-- A rank counts positively exactly when a card of that rank is in the hand. -/
theorem countByNumber_pos_iff (cards : List Card) (n : Nat) :
    0 < countByNumber cards n ↔ ∃ c ∈ cards, c.number.toNat = n := by
  rw [countByNumber, List.countP_pos_iff]
  simp

/-- The rank bit is set exactly when the rank count is positive. -/
theorem testBit_numberBitsetOf_iff_count (cards : List Card) (r : Nat) :
    (numberBitsetOf cards).testBit r = true ↔ 0 < countByNumber cards r := by
  rw [testBit_numberBitsetOf, countByNumber_pos_iff]

/-- Sum of the two maps is the map of the pointwise sum. -/
theorem sum_map_add (l : List Nat) (f g : Nat → Nat) :
    (l.map fun n => f n + g n).sum = (l.map f).sum + (l.map g).sum := by
  induction l with
  | nil => rfl
  | cons a t ih => simp [ih]; omega

/-- Indicator sum over a duplicate-free list holding the index. -/
theorem sum_indicator_one (x : Nat) (l : List Nat) (hnd : l.Nodup) (hx : x ∈ l) :
    (l.map fun n => if x = n then 1 else 0).sum = 1 := by
  induction l with
  | nil => simp at hx
  | cons a t ih =>
    rcases List.mem_cons.mp hx with rfl | hxt
    · have hxt : x ∉ t := (List.nodup_cons.mp hnd).1
      have hz : (t.map fun n => if x = n then 1 else 0).sum = 0 := by
        apply List.sum_eq_zero
        intro y hy
        obtain ⟨n, hn, hyn⟩ := List.mem_map.mp hy
        rw [← hyn, if_neg fun h => hxt (by rw [h]; exact hn)]
      simp [hz]
    · have hax : ¬ (x = a) := fun h => (List.nodup_cons.mp hnd).1 (h ▸ hxt)
      simp only [List.map_cons, List.sum_cons, if_neg hax, Nat.zero_add]
      exact ih (List.nodup_cons.mp hnd).2 hxt

/-- The rank counts of a hand sum to the number of cards. -/
theorem sum_countByNumber (cards : List Card) :
    (ranksDesc.map (countByNumber cards)).sum = cards.length := by
  induction cards with
  | nil =>
    have hz : ranksDesc.map (countByNumber []) = ranksDesc.map fun _ => 0 :=
      List.map_congr_left fun n _ => rfl
    simp [hz]
  | cons c t ih =>
    have hpt : ∀ n, countByNumber (c :: t) n =
        countByNumber t n + if c.number.toNat = n then 1 else 0 := by
      intro n
      rw [countByNumber, countByNumber, List.countP_cons]
      simp
    calc (ranksDesc.map (countByNumber (c :: t))).sum
        = (ranksDesc.map fun n =>
            countByNumber t n + if c.number.toNat = n then 1 else 0).sum := by
          congr 1
          exact List.map_congr_left fun n _ => hpt n
      _ = (ranksDesc.map (countByNumber t)).sum +
            (ranksDesc.map fun n => if c.number.toNat = n then 1 else 0).sum :=
          sum_map_add ranksDesc _ _
      _ = t.length + 1 := by
          rw [ih, sum_indicator_one c.number.toNat ranksDesc (by decide)
            c.number.toNat_mem_ranksDesc]
      _ = (c :: t).length := by simp

/-- With m pairwise distinct ranks each present on a card satisfying p, at
least m cards of the hand satisfy p. -/
theorem le_countP_of_present (p : Card → Bool) (cards : List Card) (hnd : cards.Nodup)
    (m : Nat) (g : Fin m → Nat) (hginj : Function.Injective g)
    (hg : ∀ i, ∃ c ∈ cards, p c = true ∧ c.number.toNat = g i) :
    m ≤ cards.countP p := by
  classical
  choose F hFmem hFp hFn using hg
  have hcard : ((Finset.univ : Finset (Fin m)).card : Nat) = m := by simp
  have hle : (Finset.univ : Finset (Fin m)).card ≤
      (cards.filter p).toFinset.card := by
    apply Finset.card_le_card_of_injOn F
    · intro i _
      rw [List.mem_toFinset, List.mem_filter]
      exact ⟨hFmem i, hFp i⟩
    · intro i _ j _ hij
      apply hginj
      rw [← hFn i, ← hFn j, hij]
  rw [hcard] at hle
  calc m ≤ (cards.filter p).toFinset.card := hle
    _ ≤ (cards.filter p).length := List.toFinset_card_le _
    _ = cards.countP p := (List.countP_eq_length_filter p cards).symm

/-- Nodup hands hold at most four cards of any one rank. -/
theorem countByNumber_le_four (cards : List Card) (hnd : cards.Nodup) (n : Nat) :
    countByNumber cards n ≤ 4 := by
  rw [countByNumber, List.countP_eq_length_filter]
  have hlnd : (cards.filter fun c => decide (c.number.toNat = n)).Nodup := hnd.filter _
  have hmapnd : ((cards.filter fun c => decide (c.number.toNat = n)).map Card.suit).Nodup := by
    apply List.Nodup.map_on _ hlnd
    intro x hx y hy hxy
    have hxn : x.number.toNat = n := by simpa using (List.mem_filter.mp hx).2
    have hyn : y.number.toNat = n := by simpa using (List.mem_filter.mp hy).2
    have hnum : x.number = y.number := Number.toNat_injective (hxn.trans hyn.symm)
    cases x
    cases y
    simp_all
  have := hmapnd.length_le_card
  simpa using this

end TallyLemmas

section StraightSemantics

/-- Bits at positions 2 and above survive ace duplication unchanged. -/
theorem testBit_dupAce_ge_two (b r : Nat) (hr : 2 ≤ r) :
    (dupAce b).testBit r = b.testBit r := by
  rw [testBit_dupAce]
  have : ¬ (r = 1) := by omega
  simp [this]

/-- A consecutive run of 5 rank bits up to k with 6 ≤ k ≤ 14 makes the
straight check fire. -/
theorem checkForStraight_isSome_of_high (b k : Nat) (h6 : 6 ≤ k) (h14 : k ≤ 14)
    (h : ∀ i, i < 5 → b.testBit (k - 4 + i) = true) :
    (checkForStraight b).isSome = true := by
  rw [checkForStraight]
  apply checkForStraightGo_isSome (dupAce b) 10 (k - 4) (by omega) (by omega)
  rw [window_iff]
  intro i hi
  rw [testBit_dupAce_ge_two _ _ (by omega)]
  exact h i hi

/-- Wheel ranks 2..5 plus the ace make the straight check fire. -/
theorem checkForStraight_isSome_of_wheel (b : Nat)
    (h2 : b.testBit 2 = true) (h3 : b.testBit 3 = true) (h4 : b.testBit 4 = true)
    (h5 : b.testBit 5 = true) (h14 : b.testBit 14 = true) :
    (checkForStraight b).isSome = true := by
  rw [checkForStraight]
  apply checkForStraightGo_isSome (dupAce b) 10 1 (by omega) (by omega)
  rw [window_iff]
  intro i hi
  rw [testBit_dupAce]
  interval_cases i <;> simp [h2, h3, h4, h5, h14]

/-- At most 4 suited cards can never hold a straight flush: the suit straight
check returns none. -/
theorem checkForStraight_suitBitset_none (cards : List Card) (s : Nat)
    (hnd : cards.Nodup) (hcount : countBySuit cards s ≤ 4) :
    checkForStraight (suitBitsetOf cards s) = none := by
  set b := suitBitsetOf cards s with hb
  by_contra hne
  obtain ⟨v, hv⟩ := Option.ne_none_iff_exists.mp hne
  obtain ⟨k, hk1, hk10, hw, _⟩ := checkForStraightGo_sound (dupAce b) 10 v hv.symm
  have hwin : ∀ i, i < 5 → (dupAce b).testBit (k + i) = true := (window_iff _ k).mp hw
  have hpresent : ∀ r, b.testBit r = true →
      ∃ c ∈ cards, (fun c => decide (c.suit.toNat = s)) c = true ∧ c.number.toNat = r := by
    intro r hr
    obtain ⟨c, hc, hcs, hcn⟩ := (testBit_suitBitsetOf cards s r).mp hr
    exact ⟨c, hc, by simpa using hcs, hcn⟩
  have hfive : 5 ≤ cards.countP fun c => decide (c.suit.toNat = s) := by
    rcases Nat.lt_or_ge k 2 with hk2 | hk2
    · -- wheel window at shift 1: ranks 2..5 and the ace
      have hk : k = 1 := by omega
      subst hk
      have hbits : ∀ i, i < 4 → b.testBit (2 + i) = true := by
        intro i hi
        have := hwin (i + 1) (by omega)
        rw [show 1 + (i + 1) = 2 + i by omega] at this
        rwa [testBit_dupAce_ge_two _ _ (by omega)] at this
      have h14 : b.testBit 14 = true := by
        have h1 := hwin 0 (by omega)
        rw [testBit_dupAce] at h1
        have hb1 : b.testBit 1 = false := by
          by_contra hh
          have := (suitBitsetOf_range cards s 1 (by simpa using hh)).1
          omega
        simpa [hb1] using h1
      apply le_countP_of_present _ cards hnd 5
        (fun i => [14, 2, 3, 4, 5].get (Fin.cast (by rfl) i))
        (by decide)
      intro i
      fin_cases i
      · exact hpresent 14 h14
      · exact hpresent 2 (hbits 0 (by omega))
      · exact hpresent 3 (hbits 1 (by omega))
      · exact hpresent 4 (hbits 2 (by omega))
      · exact hpresent 5 (hbits 3 (by omega))
    · -- ordinary window: 5 consecutive ranks k..k+4
      have hbits : ∀ i, i < 5 → b.testBit (k + i) = true := by
        intro i hi
        have := hwin i hi
        rwa [testBit_dupAce_ge_two _ _ (by omega)] at this
      apply le_countP_of_present _ cards hnd 5 (fun i => k + i.val)
        (fun i j hij => Fin.ext (Nat.add_left_cancel hij))
      intro i
      exact hpresent (k + i.val) (hbits i.val i.isLt)
  rw [countBySuit] at hcount
  omega

end StraightSemantics

section SumSupportLemmas

/-- A map whose function vanishes away from one point sums below that value. -/
theorem sum_le_one_support (l : List Nat) (hnd : l.Nodup) (f : Nat → Nat) (a : Nat)
    (h : ∀ x ∈ l, x ≠ a → f x = 0) : (l.map f).sum ≤ f a := by
  induction l with
  | nil => simp
  | cons x t ih =>
    rw [List.map_cons, List.sum_cons]
    by_cases hxa : x = a
    · subst hxa
      have hz : (t.map f).sum = 0 := by
        apply List.sum_eq_zero
        intro y hy
        obtain ⟨n, hn, hyn⟩ := List.mem_map.mp hy
        rw [← hyn]
        exact h n (List.mem_cons_of_mem x hn) fun hna =>
          (List.nodup_cons.mp hnd).1 (hna ▸ hn)
      omega
    · rw [h x (List.mem_cons_self x t) hxa]
      have := ih (List.nodup_cons.mp hnd).2 fun y hy hya =>
        h y (List.mem_cons_of_mem x hy) hya
      omega

/-- A map whose function vanishes away from two points sums below their sum. -/
theorem sum_le_two_support (l : List Nat) (hnd : l.Nodup) (f : Nat → Nat) (a b : Nat)
    (h : ∀ x ∈ l, x ≠ a → x ≠ b → f x = 0) : (l.map f).sum ≤ f a + f b := by
  induction l with
  | nil => simp
  | cons x t ih =>
    rw [List.map_cons, List.sum_cons]
    by_cases hxa : x = a
    · subst hxa
      have hta : ∀ y ∈ t, y ≠ b → f y = 0 := fun y hy hyb =>
        h y (List.mem_cons_of_mem x hy)
          (fun hya => (List.nodup_cons.mp hnd).1 (hya ▸ hy)) hyb
      have := sum_le_one_support t (List.nodup_cons.mp hnd).2 f b hta
      omega
    · by_cases hxb : x = b
      · subst hxb
        have hta : ∀ y ∈ t, y ≠ a → f y = 0 := fun y hy hya =>
          h y (List.mem_cons_of_mem x hy) hya
            fun hyb => (List.nodup_cons.mp hnd).1 (hyb ▸ hy)
        have := sum_le_one_support t (List.nodup_cons.mp hnd).2 f a hta
        omega
      · rw [h x (List.mem_cons_self x t) hxa hxb]
        have := ih (List.nodup_cons.mp hnd).2 fun y hy hya hyb =>
          h y (List.mem_cons_of_mem x hy) hya hyb
        omega

/-- Three distinct members bound the sum of a map from below. -/
theorem three_le_sum (l : List Nat) (f : Nat → Nat) (a b c : Nat)
    (ha : a ∈ l) (hb : b ∈ l) (hc : c ∈ l)
    (hab : a ≠ b) (hac : a ≠ c) (hbc : b ≠ c) :
    f a + f b + f c ≤ (l.map f).sum := by
  have hb1 : b ∈ l.erase a := (List.mem_erase_of_ne hab.symm).mpr hb
  have hc1 : c ∈ l.erase a := (List.mem_erase_of_ne hac.symm).mpr hc
  have hc2 : c ∈ (l.erase a).erase b := (List.mem_erase_of_ne hbc.symm).mpr hc1
  have hp : l.Perm (a :: b :: c :: ((l.erase a).erase b).erase c) := by
    have h1 : l.Perm (a :: l.erase a) := List.perm_cons_erase ha
    have h2 : (l.erase a).Perm (b :: (l.erase a).erase b) := List.perm_cons_erase hb1
    have h3 : ((l.erase a).erase b).Perm (c :: ((l.erase a).erase b).erase c) :=
      List.perm_cons_erase hc2
    exact h1.trans (List.Perm.cons a (h2.trans (List.Perm.cons b h3)))
  have hsum := List.Perm.sum_eq (List.Perm.map f hp)
  rw [hsum]
  simp only [List.map_cons, List.sum_cons]
  omega

/-- Two distinct members bound the sum of a map from below. -/
theorem two_le_sum (l : List Nat) (f : Nat → Nat) (a b : Nat)
    (ha : a ∈ l) (hb : b ∈ l) (hab : a ≠ b) :
    f a + f b ≤ (l.map f).sum := by
  have hb1 : b ∈ l.erase a := (List.mem_erase_of_ne hab.symm).mpr hb
  have hp : l.Perm (a :: b :: (l.erase a).erase b) := by
    have h1 : l.Perm (a :: l.erase a) := List.perm_cons_erase ha
    have h2 : (l.erase a).Perm (b :: (l.erase a).erase b) := List.perm_cons_erase hb1
    exact h1.trans (List.Perm.cons a h2)
  have hsum := List.Perm.sum_eq (List.Perm.map f hp)
  rw [hsum]
  simp only [List.map_cons, List.sum_cons]
  omega

end SumSupportLemmas

section ComputeResultLemmas

/-- One step of the equity fold adds one to exactly one outcome counter and
one to the total. -/
theorem computeStep_counts (hand1 hand2 : Card × Card) (acc : ComputeResult)
    (b : List Card) :
    (computeStep hand1 hand2 acc b).win_count + (computeStep hand1 hand2 acc b).loss_count +
        (computeStep hand1 hand2 acc b).tie_count =
      acc.win_count + acc.loss_count + acc.tie_count + 1 ∧
    (computeStep hand1 hand2 acc b).count = acc.count + 1 := by
  simp only [computeStep]
  split <;> simp <;> omega

/-- Tally invariant of the equity fold over a board list. -/
theorem computeFold_counts (hand1 hand2 : Card × Card) (boards : List (List Card))
    (acc : ComputeResult) :
    (boards.foldl (computeStep hand1 hand2) acc).win_count +
        (boards.foldl (computeStep hand1 hand2) acc).loss_count +
        (boards.foldl (computeStep hand1 hand2) acc).tie_count =
      acc.win_count + acc.loss_count + acc.tie_count + boards.length ∧
    (boards.foldl (computeStep hand1 hand2) acc).count = acc.count + boards.length := by
  induction boards generalizing acc with
  | nil => simp
  | cons b t ih =>
    rw [List.foldl_cons]
    obtain ⟨h1, h2⟩ := ih (computeStep hand1 hand2 acc b)
    obtain ⟨h3, h4⟩ := computeStep_counts hand1 hand2 acc b
    refine ⟨?_, ?_⟩
    · rw [h1, h3]
      simp
      omega
    · rw [h2, h4]
      simp
      omega

/-- Every card value occurs in the enumerated deck. -/
theorem mem_allCards (x : Card) : x ∈ allCards := by
  cases x with
  | mk s n => cases s <;> cases n <;> decide

/-- The enumerated deck has no duplicates. -/
theorem allCards_nodup : allCards.Nodup := by decide

/-- Removing 4 pairwise distinct cards from the 52-card deck leaves 48. -/
theorem deck_length_48 (a b c d : Card) (hab : a ≠ b) (hac : a ≠ c) (had : a ≠ d)
    (hbc : b ≠ c) (hbd : b ≠ d) (hcd : c ≠ d) :
    (allCards.filter fun x => x != a && x != b && x != c && x != d).length = 48 := by
  classical
  have hlnd : (allCards.filter fun x => x != a && x != b && x != c && x != d).Nodup :=
    allCards_nodup.filter _
  have hfin : (allCards.filter fun x => x != a && x != b && x != c && x != d).toFinset =
      allCards.toFinset \ {a, b, c, d} := by
    ext x
    simp only [List.mem_toFinset, List.mem_filter, Finset.mem_sdiff, Finset.mem_insert,
      Finset.mem_singleton, Bool.and_eq_true, bne_iff_ne]
    constructor
    · rintro ⟨hx, ⟨⟨h1, h2⟩, h3⟩, h4⟩
      exact ⟨hx, by tauto⟩
    · rintro ⟨hx, hne⟩
      refine ⟨hx, ⟨⟨?_, ?_⟩, ?_⟩, ?_⟩ <;> tauto
  have hsub : ({a, b, c, d} : Finset Card) ⊆ allCards.toFinset := by
    intro x _
    exact List.mem_toFinset.mpr (mem_allCards x)
  have hc4 : ({a, b, c, d} : Finset Card).card = 4 := by
    rw [Finset.card_insert_of_not_mem (by simp [hab, hac, had]),
      Finset.card_insert_of_not_mem (by simp [hbc, hbd]),
      Finset.card_insert_of_not_mem (by simp [hcd]), Finset.card_singleton]
  have hc52 : allCards.toFinset.card = 52 := by
    rw [List.toFinset_card_of_nodup allCards_nodup]
    rfl
  rw [← List.toFinset_card_of_nodup hlnd, hfin, Finset.card_sdiff hsub, hc4, hc52]

/-- The derived order comparison is antisymmetric. -/
theorem HandEvaluation.cmp_swap (a b : HandEvaluation) : a.cmp b = (b.cmp a).swap := by
  rw [HandEvaluation.cmp, HandEvaluation.cmp,
    show compare a.kind.toNat b.kind.toNat = (compare b.kind.toNat a.kind.toNat).swap from
      Eq.symm (Nat.compare_swap _ _),
    show compare a.v0 b.v0 = (compare b.v0 a.v0).swap from Eq.symm (Nat.compare_swap _ _),
    show compare a.v1 b.v1 = (compare b.v1 a.v1).swap from Eq.symm (Nat.compare_swap _ _),
    show compare a.v2 b.v2 = (compare b.v2 a.v2).swap from Eq.symm (Nat.compare_swap _ _)]
  cases compare b.kind.toNat a.kind.toNat <;> cases compare b.v0 a.v0 <;>
    cases compare b.v1 a.v1 <;> cases compare b.v2 a.v2 <;> rfl

/-- Swapping the two hands swaps the win and loss counters of every fold
step and keeps ties and totals. -/
theorem computeFold_swap (hand1 hand2 : Card × Card) (boards : List (List Card))
    (acc1 acc2 : ComputeResult)
    (hw : acc2.win_count = acc1.loss_count) (hl : acc2.loss_count = acc1.win_count)
    (ht : acc2.tie_count = acc1.tie_count) (hc : acc2.count = acc1.count) :
    (boards.foldl (computeStep hand2 hand1) acc2).win_count =
        (boards.foldl (computeStep hand1 hand2) acc1).loss_count ∧
    (boards.foldl (computeStep hand2 hand1) acc2).loss_count =
        (boards.foldl (computeStep hand1 hand2) acc1).win_count ∧
    (boards.foldl (computeStep hand2 hand1) acc2).tie_count =
        (boards.foldl (computeStep hand1 hand2) acc1).tie_count ∧
    (boards.foldl (computeStep hand2 hand1) acc2).count =
        (boards.foldl (computeStep hand1 hand2) acc1).count := by
  induction boards generalizing acc1 acc2 with
  | nil => exact ⟨hw, hl, ht, hc⟩
  | cons b t ih =>
    rw [List.foldl_cons, List.foldl_cons]
    apply ih
    all_goals
      simp only [computeStep,
        HandEvaluation.cmp_swap (evaluateHand (b ++ [hand2.1, hand2.2]))
          (evaluateHand (b ++ [hand1.1, hand1.2]))]
      cases (evaluateHand (b ++ [hand1.1, hand1.2])).cmp
          (evaluateHand (b ++ [hand2.1, hand2.2])) <;>
        simp [Ordering.swap, hw, hl, ht, hc]

end ComputeResultLemmas

/-- C2: for every call of compute_result on two disjoint 2-card starting hands
(no dead cards exist in the two-hand engine), the returned counters satisfy
win_count + loss_count + tie_count = count, and count equals the number of
5-card combinations of the 48-card working deck, C(48,5) = 1712304. -/
theorem compute_result_counts_C2 (hand1 hand2 : Card × Card)
    (h12 : hand1.1 ≠ hand1.2) (h13 : hand1.1 ≠ hand2.1) (h14 : hand1.1 ≠ hand2.2)
    (h23 : hand1.2 ≠ hand2.1) (h24 : hand1.2 ≠ hand2.2) (h34 : hand2.1 ≠ hand2.2) :
    (compute_result hand1 hand2).win_count + (compute_result hand1 hand2).loss_count +
        (compute_result hand1 hand2).tie_count = (compute_result hand1 hand2).count ∧
    (compute_result hand1 hand2).count = Nat.choose 48 5 ∧
    Nat.choose 48 5 = 1712304 := by
  have hchoose : Nat.choose 48 5 = 1712304 := by
    rw [Nat.choose_eq_descFactorial_div_factorial]
    rfl
  simp only [compute_result]
  obtain ⟨hsum, hcount⟩ := computeFold_counts hand1 hand2
    ((allCards.filter fun c =>
      c != hand1.1 && c != hand1.2 && c != hand2.1 && c != hand2.2).sublistsLen 5)
    { win_count := 0, loss_count := 0, tie_count := 0, count := 0 }
  have hlen : ((allCards.filter fun c =>
      c != hand1.1 && c != hand1.2 && c != hand2.1 && c != hand2.2).sublistsLen 5).length =
      Nat.choose 48 5 := by
    rw [List.length_sublistsLen, deck_length_48 _ _ _ _ h12 h13 h14 h23 h24 h34]
  refine ⟨?_, ?_, hchoose⟩
  · rw [hsum, hcount]
    simp
  · rw [hcount, hlen]
    simp

/-- Witness for C2 at the spec example hands, hearts queen-king against a pair
of twos. -/
theorem compute_result_counts_C2_witness :
    ((⟨.hearts, .queen⟩ : Card) ≠ ⟨.hearts, .king⟩) ∧
    ((compute_result (⟨.hearts, .queen⟩, ⟨.hearts, .king⟩)
          (⟨.spades, .two⟩, ⟨.hearts, .two⟩)).win_count +
        (compute_result (⟨.hearts, .queen⟩, ⟨.hearts, .king⟩)
          (⟨.spades, .two⟩, ⟨.hearts, .two⟩)).loss_count +
        (compute_result (⟨.hearts, .queen⟩, ⟨.hearts, .king⟩)
          (⟨.spades, .two⟩, ⟨.hearts, .two⟩)).tie_count =
        (compute_result (⟨.hearts, .queen⟩, ⟨.hearts, .king⟩)
          (⟨.spades, .two⟩, ⟨.hearts, .two⟩)).count ∧
      (compute_result (⟨.hearts, .queen⟩, ⟨.hearts, .king⟩)
          (⟨.spades, .two⟩, ⟨.hearts, .two⟩)).count = Nat.choose 48 5 ∧
      Nat.choose 48 5 = 1712304) :=
  ⟨by decide,
    compute_result_counts_C2 (⟨.hearts, .queen⟩, ⟨.hearts, .king⟩)
      (⟨.spades, .two⟩, ⟨.hearts, .two⟩) (by decide) (by decide) (by decide) (by decide)
      (by decide) (by decide)⟩

/-- C9: compute_result is antisymmetric in its two hands: swapping the hands
swaps win and loss counts and keeps tie and total counts. -/
theorem compute_result_antisymm_C9 (hand1 hand2 : Card × Card)
    (h12 : hand1.1 ≠ hand1.2) (h13 : hand1.1 ≠ hand2.1) (h14 : hand1.1 ≠ hand2.2)
    (h23 : hand1.2 ≠ hand2.1) (h24 : hand1.2 ≠ hand2.2) (h34 : hand2.1 ≠ hand2.2) :
    (compute_result hand1 hand2).win_count = (compute_result hand2 hand1).loss_count ∧
    (compute_result hand1 hand2).loss_count = (compute_result hand2 hand1).win_count ∧
    (compute_result hand1 hand2).tie_count = (compute_result hand2 hand1).tie_count ∧
    (compute_result hand1 hand2).count = (compute_result hand2 hand1).count := by
  simp only [compute_result]
  have hdeck : (allCards.filter fun c =>
      c != hand2.1 && c != hand2.2 && c != hand1.1 && c != hand1.2) =
      allCards.filter fun c =>
      c != hand1.1 && c != hand1.2 && c != hand2.1 && c != hand2.2 := by
    apply List.filter_congr
    intro x _
    cases h1 : x != hand1.1 <;> cases h2 : x != hand1.2 <;> cases h3 : x != hand2.1 <;>
      cases h4 : x != hand2.2 <;> simp [h1, h2, h3, h4]
  rw [hdeck]
  obtain ⟨hw, hl, ht, hc⟩ := computeFold_swap hand1 hand2
    ((allCards.filter fun c =>
      c != hand1.1 && c != hand1.2 && c != hand2.1 && c != hand2.2).sublistsLen 5)
    { win_count := 0, loss_count := 0, tie_count := 0, count := 0 }
    { win_count := 0, loss_count := 0, tie_count := 0, count := 0 } rfl rfl rfl rfl
  exact ⟨hl.symm, hw.symm, ht.symm, hc.symm⟩

/-- Witness for C9 at concrete disjoint hands. -/
theorem compute_result_antisymm_C9_witness :
    ((⟨.hearts, .queen⟩ : Card) ≠ ⟨.hearts, .king⟩) ∧
    ((compute_result (⟨.hearts, .queen⟩, ⟨.hearts, .king⟩)
          (⟨.spades, .two⟩, ⟨.hearts, .two⟩)).win_count =
        (compute_result (⟨.spades, .two⟩, ⟨.hearts, .two⟩)
          (⟨.hearts, .queen⟩, ⟨.hearts, .king⟩)).loss_count ∧
      (compute_result (⟨.hearts, .queen⟩, ⟨.hearts, .king⟩)
          (⟨.spades, .two⟩, ⟨.hearts, .two⟩)).loss_count =
        (compute_result (⟨.spades, .two⟩, ⟨.hearts, .two⟩)
          (⟨.hearts, .queen⟩, ⟨.hearts, .king⟩)).win_count ∧
      (compute_result (⟨.hearts, .queen⟩, ⟨.hearts, .king⟩)
          (⟨.spades, .two⟩, ⟨.hearts, .two⟩)).tie_count =
        (compute_result (⟨.spades, .two⟩, ⟨.hearts, .two⟩)
          (⟨.hearts, .queen⟩, ⟨.hearts, .king⟩)).tie_count ∧
      (compute_result (⟨.hearts, .queen⟩, ⟨.hearts, .king⟩)
          (⟨.spades, .two⟩, ⟨.hearts, .two⟩)).count =
        (compute_result (⟨.spades, .two⟩, ⟨.hearts, .two⟩)
          (⟨.hearts, .queen⟩, ⟨.hearts, .king⟩)).count) :=
  ⟨by decide,
    compute_result_antisymm_C9 (⟨.hearts, .queen⟩, ⟨.hearts, .king⟩)
      (⟨.spades, .two⟩, ⟨.hearts, .two⟩) (by decide) (by decide) (by decide) (by decide)
      (by decide) (by decide)⟩

section PermLemmas

/-- The per-suit counts only depend on the multiset of cards. -/
theorem countBySuit_perm (l1 l2 : List Card) (h : l1.Perm l2) :
    countBySuit l1 = countBySuit l2 :=
  funext fun s => h.countP_eq _

/-- The per-rank counts only depend on the multiset of cards. -/
theorem countByNumber_perm (l1 l2 : List Card) (h : l1.Perm l2) :
    countByNumber l1 = countByNumber l2 :=
  funext fun n => h.countP_eq _

/-- The whole-hand bitset only depends on the multiset of cards. -/
theorem numberBitsetOf_perm (l1 l2 : List Card) (h : l1.Perm l2) :
    numberBitsetOf l1 = numberBitsetOf l2 := by
  apply Nat.eq_of_testBit_eq
  intro i
  rw [Bool.eq_iff_iff, testBit_numberBitsetOf, testBit_numberBitsetOf]
  constructor
  · rintro ⟨c, hc, hn⟩
    exact ⟨c, h.mem_iff.mp hc, hn⟩
  · rintro ⟨c, hc, hn⟩
    exact ⟨c, h.mem_iff.mpr hc, hn⟩

/-- The per-suit bitsets only depend on the multiset of cards. -/
theorem suitBitsetOf_perm (l1 l2 : List Card) (h : l1.Perm l2) :
    suitBitsetOf l1 = suitBitsetOf l2 := by
  funext s
  apply Nat.eq_of_testBit_eq
  intro i
  rw [Bool.eq_iff_iff, testBit_suitBitsetOf, testBit_suitBitsetOf]
  constructor
  · rintro ⟨c, hc, hn⟩
    exact ⟨c, h.mem_iff.mp hc, hn⟩
  · rintro ⟨c, hc, hn⟩
    exact ⟨c, h.mem_iff.mpr hc, hn⟩

end PermLemmas

/-- C5: for every valid 7-card hand, evaluate_hand is invariant under
re-ordering the 7 input cards: the evaluation of any permutation of the hand
equals the evaluation of the hand. -/
theorem evaluateHand_perm_C5 (cards1 cards2 : List Card) (h7 : cards1.length = 7)
    (hnd : cards1.Nodup) (hperm : cards1.Perm cards2) :
    evaluateHand cards1 = evaluateHand cards2 := by
  rw [evaluateHand, evaluateHand, countBySuit_perm cards1 cards2 hperm,
    countByNumber_perm cards1 cards2 hperm, numberBitsetOf_perm cards1 cards2 hperm,
    suitBitsetOf_perm cards1 cards2 hperm]

/-- Witness for C5: the royal flush test hand against one of its
permutations. -/
theorem evaluateHand_perm_C5_witness :
    royalFlushHand.length = 7 ∧ royalFlushHand.Nodup ∧
    royalFlushHand.Perm
      [⟨.hearts, .five⟩, ⟨.clubs, .king⟩, ⟨.clubs, .queen⟩, ⟨.clubs, .jack⟩, ⟨.clubs, .ten⟩,
        ⟨.hearts, .eight⟩, ⟨.clubs, .ace⟩] ∧
    evaluateHand royalFlushHand =
      evaluateHand
        [⟨.hearts, .five⟩, ⟨.clubs, .king⟩, ⟨.clubs, .queen⟩, ⟨.clubs, .jack⟩, ⟨.clubs, .ten⟩,
          ⟨.hearts, .eight⟩, ⟨.clubs, .ace⟩] :=
  ⟨by decide, by decide, by decide,
    evaluateHand_perm_C5 royalFlushHand
      [⟨.hearts, .five⟩, ⟨.clubs, .king⟩, ⟨.clubs, .queen⟩, ⟨.clubs, .jack⟩, ⟨.clubs, .ten⟩,
        ⟨.hearts, .eight⟩, ⟨.clubs, .ace⟩] (by decide) (by decide) (by decide)⟩

/-- C8: a 7-card hand holding 5 cards of one suit whose ranks form a straight
(the wheel included, encoded by high card k = 5 reading rank 1 as the ace) is
classified as a straight flush, never as a separate flush or straight. -/
theorem evaluateHand_straightflush_C8 (cards : List Card)
    (h7 : cards.length = 7) (hnd : cards.Nodup)
    (h : ∃ s : Suit, ∃ k, 5 ≤ k ∧ k ≤ 14 ∧ ∀ i, i < 5 →
      ∃ c ∈ cards, c.suit = s ∧ c.number.toNat = (if k - 4 + i = 1 then 14 else k - 4 + i)) :
    (evaluateHand cards).kind = HandKind.straightFlush := by
  obtain ⟨s, k, hk5, hk14, hpres⟩ := h
  have hbit : ∀ i, i < 5 → (suitBitsetOf cards s.toNat).testBit
      (if k - 4 + i = 1 then 14 else k - 4 + i) = true := by
    intro i hi
    obtain ⟨c, hc, hcs, hcn⟩ := hpres i hi
    exact (testBit_suitBitsetOf cards s.toNat _).mpr ⟨c, hc, by rw [hcs], hcn⟩
  have hsome : (checkForStraight (suitBitsetOf cards s.toNat)).isSome = true := by
    rcases Nat.lt_or_ge k 6 with hk6 | hk6
    · have hk : k = 5 := by omega
      subst hk
      have h14 := hbit 0 (by omega)
      have h2 := hbit 1 (by omega)
      have h3 := hbit 2 (by omega)
      have h4 := hbit 3 (by omega)
      have h5 := hbit 4 (by omega)
      norm_num at h14 h2 h3 h4 h5
      exact checkForStraight_isSome_of_wheel _ h2 h3 h4 h5 h14
    · apply checkForStraight_isSome_of_high _ k hk6 hk14
      intro i hi
      have := hbit i hi
      rwa [if_neg (by omega)] at this
  have hfs : (suitIdxs.findSome? fun si =>
      checkForStraight (suitBitsetOf cards si)).isSome = true := by
    apply findSome?_isSome_of_mem _ _ s.toNat _ hsome
    cases s <;> decide
  obtain ⟨v, hv⟩ := Option.isSome_iff_exists.mp hfs
  unfold evaluateHand evaluateCore
  rw [hv]
  rfl

/-- Witness for C8: the royal flush test hand, suit clubs, high card ace. -/

theorem evaluateHand_straightflush_C8_witness :
    royalFlushHand.length = 7 ∧ royalFlushHand.Nodup ∧
    (evaluateHand royalFlushHand).kind = HandKind.straightFlush :=
  ⟨by decide, by decide,
    evaluateHand_straightflush_C8 royalFlushHand (by decide) (by decide)
      ⟨Suit.clubs, 14, by norm_num, by norm_num, by decide⟩⟩

section RankCountLemmas

/-- Rank bounds membership in the descending scan list. -/
theorem mem_ranksDesc_of (r : Nat) (h2 : 2 ≤ r) (h14 : r ≤ 14) : r ∈ ranksDesc := by
  interval_cases r <;> decide

/-- Members of the descending scan list are rank positions. -/
theorem bounds_of_mem_ranksDesc (r : Nat) (h : r ∈ ranksDesc) : 2 ≤ r ∧ r ≤ 14 := by
  fin_cases h <;> omega

/-- The descending scan list is strictly descending. -/
theorem ranksDesc_sorted : ranksDesc.Pairwise (fun a b => a > b) := by decide

/-- The descending scan list has no duplicates. -/
theorem ranksDesc_nodup : ranksDesc.Nodup := by decide

/-- The rank-count scan returns none when no rank has the wanted count. -/
theorem findRankWithCount_eq_none (countN : Nat → Nat) (m : Nat)
    (h : ∀ n ∈ ranksDesc, countN n ≠ m) : findRankWithCount countN m = none := by
  rw [findRankWithCount, List.findSome?_eq_none_iff]
  intro n hn
  rw [if_neg (h n hn)]

/-- The rank-count scan returns the largest rank with the wanted count. -/
theorem findRankWithCount_eq_some (countN : Nat → Nat) (m k : Nat)
    (hk2 : 2 ≤ k) (hk14 : k ≤ 14) (hc : countN k = m)
    (hmax : ∀ j, 2 ≤ j → j ≤ 14 → countN j = m → j ≤ k) :
    findRankWithCount countN m = some k := by
  rw [findRankWithCount]
  have := findSome?_if_eq_some (fun n => countN n = m) (fun n => n) ranksDesc
    ranksDesc_sorted k (mem_ranksDesc_of k hk2 hk14) hc
    fun j hj hpj =>
      hmax j (bounds_of_mem_ranksDesc j hj).1 (bounds_of_mem_ranksDesc j hj).2 hpj
  exact this

/-- Sublist sums are bounded by the full sum. -/
theorem sum_le_sum_of_sublist (l1 l2 : List Nat) (h : l1.Sublist l2) : l1.sum ≤ l2.sum :=
  List.Sublist.sum_le_sum h fun a _ => Nat.zero_le a

/-- A list of positive values sums to at least its length. -/
theorem length_le_sum (l : List Nat) (f : Nat → Nat) (h : ∀ x ∈ l, 1 ≤ f x) :
    l.length ≤ (l.map f).sum := by
  induction l with
  | nil => simp
  | cons a t ih =>
    rw [List.map_cons, List.sum_cons, List.length_cons]
    have h1 := h a (List.mem_cons_self a t)
    have h2 := ih fun x hx => h x (List.mem_cons_of_mem a hx)
    omega

/-- In a valid hand holding two triplets of ranks t1 and t2, at most 3 ranks
appear at all. -/
theorem present_ranks_le_three (cards : List Card) (h7 : cards.length = 7)
    (t1 t2 : Nat) (ht1 : t1 ∈ ranksDesc) (ht2 : t2 ∈ ranksDesc) (hne : t1 ≠ t2)
    (hc1 : countByNumber cards t1 = 3) (hc2 : countByNumber cards t2 = 3) :
    (ranksDesc.filter fun r => decide (0 < countByNumber cards r)).length ≤ 3 := by
  set P := ranksDesc.filter fun r => decide (0 < countByNumber cards r) with hP
  have hPnd : P.Nodup := ranksDesc_nodup.filter _
  have ht1P : t1 ∈ P := by
    rw [hP, List.mem_filter]
    exact ⟨ht1, by simp [hc1]⟩
  have ht2P : t2 ∈ P := by
    rw [hP, List.mem_filter]
    exact ⟨ht2, by simp [hc2]⟩
  have hsub : (P.map (countByNumber cards)).sum ≤ 7 := by
    have hs : (P.map (countByNumber cards)).Sublist (ranksDesc.map (countByNumber cards)) :=
      List.Sublist.map _ (List.filter_sublist ranksDesc)
    have := sum_le_sum_of_sublist _ _ hs
    rw [sum_countByNumber cards, h7] at this
    exact this
  have ht2e : t2 ∈ P.erase t1 := (List.mem_erase_of_ne hne.symm).mpr ht2P
  have hperm : P.Perm (t1 :: t2 :: (P.erase t1).erase t2) := by
    have hp1 : P.Perm (t1 :: P.erase t1) := List.perm_cons_erase ht1P
    have hp2 : (P.erase t1).Perm (t2 :: (P.erase t1).erase t2) := List.perm_cons_erase ht2e
    exact hp1.trans (List.Perm.cons t1 hp2)
  have hsum2 : (P.map (countByNumber cards)).sum =
      3 + 3 + (((P.erase t1).erase t2).map (countByNumber cards)).sum := by
    rw [List.Perm.sum_eq (List.Perm.map _ hperm)]
    simp only [List.map_cons, List.sum_cons, hc1, hc2]
    omega
  have hrest : ((P.erase t1).erase t2).length ≤ 1 := by
    have hlen := length_le_sum ((P.erase t1).erase t2) (countByNumber cards) ?_
    · omega
    · intro x hx
      have hxP : x ∈ P := by
        have := List.mem_of_mem_erase hx
        exact List.mem_of_mem_erase this
      rw [hP, List.mem_filter] at hxP
      have := hxP.2
      simp at this
      omega
  have hPlen : P.length = ((t1 :: t2 :: (P.erase t1).erase t2)).length := hperm.length_eq
  simp at hPlen
  omega

/-- toNat on suits is injective. -/
theorem Suit.toNatInjective : Function.Injective Suit.toNat := by
  intro a b h
  cases a <;> cases b <;> first | rfl | exact absurd h (by decide)

/-- The suited-card count is bounded by the number of distinct ranks present
in the whole hand. -/
theorem countBySuit_le_present (cards : List Card) (s : Nat) (hnd : cards.Nodup) :
    countBySuit cards s ≤
      (ranksDesc.filter fun r => decide (0 < countByNumber cards r)).length := by
  rw [countBySuit, List.countP_eq_length_filter]
  set L := (cards.filter fun c => decide (c.suit.toNat = s)).map fun c => c.number.toNat
    with hL
  have hlen : (cards.filter fun c => decide (c.suit.toNat = s)).length = L.length := by
    rw [hL, List.length_map]
  rw [hlen]
  have hLnd : L.Nodup := by
    rw [hL]
    apply List.Nodup.map_on _ (hnd.filter _)
    intro x hx y hy hxy
    have hxs : x.suit.toNat = s := by simpa using (List.mem_filter.mp hx).2
    have hys : y.suit.toNat = s := by simpa using (List.mem_filter.mp hy).2
    have hsuit : x.suit = y.suit := Suit.toNatInjective (hxs.trans hys.symm)
    have hnum : x.number = y.number := Number.toNat_injective hxy
    cases x
    cases y
    simp_all
  have hsubset : ∀ x ∈ L, x ∈ ranksDesc.filter fun r => decide (0 < countByNumber cards r) := by
    intro x hx
    rw [hL] at hx
    obtain ⟨c, hc, hcx⟩ := List.mem_map.mp hx
    rw [List.mem_filter]
    constructor
    · rw [← hcx]
      exact c.number.toNat_mem_ranksDesc
    · have : 0 < countByNumber cards x := by
        rw [countByNumber_pos_iff]
        exact ⟨c, List.mem_of_mem_filter hc, hcx⟩
      simp [this]
  exact (hLnd.subperm hsubset).length_le

end RankCountLemmas

/-- C7: a 7-card hand containing two triplets of ranks t1 above t2 evaluates
as a full house with triplet rank t1 and pair rank t2 (the second triplet is
the pair), and FullHouse(K,8) is strictly above FullHouse(8,K). -/
theorem evaluateHand_two_triplets_C7 (cards : List Card) (h7 : cards.length = 7)
    (hnd : cards.Nodup) (t1 t2 : Nat) (h2 : 2 ≤ t2) (hlt : t2 < t1) (h14 : t1 ≤ 14)
    (hc1 : countByNumber cards t1 = 3) (hc2 : countByNumber cards t2 = 3) :
    evaluateHand cards =
      HandEvaluation.new_full_house (Number.fromNatD t1) (Number.fromNatD t2) ∧
    (HandEvaluation.new_full_house .king .eight).cmp
      (HandEvaluation.new_full_house .eight .king) = .gt := by
  have ht1m : t1 ∈ ranksDesc := mem_ranksDesc_of t1 (by omega) h14
  have ht2m : t2 ∈ ranksDesc := mem_ranksDesc_of t2 h2 (by omega)
  have hother : ∀ r, 2 ≤ r → r ≤ 14 → r ≠ t1 → r ≠ t2 → countByNumber cards r ≤ 1 := by
    intro r hr2 hr14 hrt1 hrt2
    by_contra hge
    have hsum3 := three_le_sum ranksDesc (countByNumber cards) t1 t2 r ht1m ht2m
      (mem_ranksDesc_of r hr2 hr14) (by omega) (fun h => hrt1 h.symm) (fun h => hrt2 h.symm)
    rw [sum_countByNumber cards, h7] at hsum3
    omega
  have hsuit : ∀ s, countBySuit cards s ≤ 3 := fun s =>
    le_trans (countBySuit_le_present cards s hnd)
      (present_ranks_le_three cards h7 t1 t2 ht1m ht2m (by omega) hc1 hc2)
  have hsf : (suitIdxs.findSome? fun si => checkForStraight (suitBitsetOf cards si)) =
      none := by
    rw [List.findSome?_eq_none_iff]
    intro si _
    exact checkForStraight_suitBitset_none cards si hnd (le_trans (hsuit si) (by omega))
  have hquad : findRankWithCount (countByNumber cards) 4 = none := by
    apply findRankWithCount_eq_none
    intro n hn
    obtain ⟨hn2, hn14⟩ := bounds_of_mem_ranksDesc n hn
    by_cases ha : n = t1
    · rw [ha, hc1]; omega
    · by_cases hb : n = t2
      · rw [hb, hc2]; omega
      · have := hother n hn2 hn14 ha hb
        omega
  have htok : findRankWithCount (countByNumber cards) 3 = some t1 := by
    apply findRankWithCount_eq_some _ _ _ (by omega) h14 hc1
    intro j hj2 hj14 hcj
    by_cases ha : j = t1
    · omega
    · by_cases hb : j = t2
      · omega
      · have := hother j hj2 hj14 ha hb
        omega
  have htok2 : checkForThreeOfAKind (countByNumber cards) = some (Number.fromNatD t1) := by
    rw [checkForThreeOfAKind, htok]
    rfl
  have htoNat : (Number.fromNatD t1).toNat = t1 := Number.toNat_fromNatD t1 (by omega) h14
  have hfh : (ranksDesc.findSome? fun n =>
      if n ≠ (Number.fromNatD t1).toNat ∧ 2 ≤ countByNumber cards n then some n
      else none) = some t2 := by
    rw [htoNat]
    exact findSome?_if_eq_some (fun n => n ≠ t1 ∧ 2 ≤ countByNumber cards n) (fun n => n)
      ranksDesc ranksDesc_sorted t2 ht2m ⟨by omega, by omega⟩
      fun j hj hpj => by
        obtain ⟨hj2, hj14⟩ := bounds_of_mem_ranksDesc j hj
        by_cases hb : j = t2
        · omega
        · have := hother j hj2 hj14 hpj.1 hb
          omega
  refine ⟨?_, by decide⟩
  unfold evaluateHand evaluateCore
  rw [hsf, hquad, htok2]
  dsimp only
  rw [hfh]

/-- Witness for C7: the hand K,K,K,8,8,8,5 evaluates as FullHouse(K,8). -/
theorem evaluateHand_two_triplets_C7_witness :
    ([⟨.clubs, .king⟩, ⟨.hearts, .king⟩, ⟨.spades, .king⟩, ⟨.clubs, .eight⟩,
        ⟨.hearts, .eight⟩, ⟨.spades, .eight⟩, ⟨.hearts, .five⟩] : List Card).length = 7 ∧
    evaluateHand
        [⟨.clubs, .king⟩, ⟨.hearts, .king⟩, ⟨.spades, .king⟩, ⟨.clubs, .eight⟩,
          ⟨.hearts, .eight⟩, ⟨.spades, .eight⟩, ⟨.hearts, .five⟩] =
      HandEvaluation.new_full_house (Number.fromNatD 13) (Number.fromNatD 8) ∧
    (HandEvaluation.new_full_house .king .eight).cmp
      (HandEvaluation.new_full_house .eight .king) = .gt :=
  ⟨by decide,
    (evaluateHand_two_triplets_C7
        [⟨.clubs, .king⟩, ⟨.hearts, .king⟩, ⟨.spades, .king⟩, ⟨.clubs, .eight⟩,
          ⟨.hearts, .eight⟩, ⟨.spades, .eight⟩, ⟨.hearts, .five⟩]
        (by decide) (by decide) 13 8 (by decide) (by decide) (by decide)
        (by decide) (by decide)).1,
    (evaluateHand_two_triplets_C7
        [⟨.clubs, .king⟩, ⟨.hearts, .king⟩, ⟨.spades, .king⟩, ⟨.clubs, .eight⟩,
          ⟨.hearts, .eight⟩, ⟨.spades, .eight⟩, ⟨.hearts, .five⟩]
        (by decide) (by decide) 13 8 (by decide) (by decide) (by decide)
        (by decide) (by decide)).2⟩

section WheelLemmas

/-- Subset sums of a duplicate-free selection are bounded by the full sum. -/
theorem sum_le_sum_of_nodup_subset (S l : List Nat) (f : Nat → Nat) (hS : S.Nodup)
    (hsub : ∀ x ∈ S, x ∈ l) : (S.map f).sum ≤ (l.map f).sum := by
  obtain ⟨t, ht1, ht2⟩ := hS.subperm hsub
  calc (S.map f).sum = (t.map f).sum := (List.Perm.sum_eq (ht1.map f)).symm
    _ ≤ (l.map f).sum := sum_le_sum_of_sublist _ _ (ht2.map f)

/-- In a 7-card hand, the counts of any duplicate-free rank selection disjoint
from the wheel ranks, together with the wheel rank counts, sum to at most 7. -/
theorem wheel_extra_sum (cards : List Card) (h7 : cards.length = 7) (extra : List Nat)
    (hnd : extra.Nodup) (hsub : ∀ x ∈ extra, x ∈ ranksDesc)
    (hdisj : ∀ x ∈ extra, x ∉ ([14, 2, 3, 4, 5] : List Nat)) :
    (extra.map (countByNumber cards)).sum +
      (([14, 2, 3, 4, 5] : List Nat).map (countByNumber cards)).sum ≤ 7 := by
  have hS : (extra ++ [14, 2, 3, 4, 5]).Nodup := by
    rw [List.nodup_append]
    exact ⟨hnd, by decide, fun x hx hxW => hdisj x hx hxW⟩
  have hsub2 : ∀ x ∈ extra ++ [14, 2, 3, 4, 5], x ∈ ranksDesc := by
    intro x hx
    rcases List.mem_append.mp hx with h | h
    · exact hsub x h
    · fin_cases h <;> decide
  have h1 := sum_le_sum_of_nodup_subset (extra ++ [14, 2, 3, 4, 5]) ranksDesc
    (countByNumber cards) hS hsub2
  rw [sum_countByNumber cards, h7, List.map_append, List.sum_append] at h1
  exact h1

end WheelLemmas

/-- C6: a 7-card hand whose ranks include the wheel (ace, 2, 3, 4, 5), with no
six and no higher category (no 5 suited cards; quads and full houses are
impossible by counting), evaluates as a straight with high card five, strictly
below a six-high straight. -/
theorem evaluateHand_wheel_C6 (cards : List Card) (h7 : cards.length = 7)
    (hnd : cards.Nodup)
    (hwheel : ∀ r ∈ ([14, 2, 3, 4, 5] : List Nat), ∃ c ∈ cards, c.number.toNat = r)
    (h6 : ∀ c ∈ cards, c.number.toNat ≠ 6)
    (hflush : ∀ s, countBySuit cards s ≤ 4) :
    evaluateHand cards = HandEvaluation.new_straight .five ∧
    (HandEvaluation.new_straight .five).cmp (HandEvaluation.new_straight .six) = .lt := by
  have hp : ∀ r ∈ ([14, 2, 3, 4, 5] : List Nat), 0 < countByNumber cards r :=
    fun r hr => (countByNumber_pos_iff cards r).mpr (hwheel r hr)
  have hp14 := hp 14 (by decide)
  have hp2 := hp 2 (by decide)
  have hp3 := hp 3 (by decide)
  have hp4 := hp 4 (by decide)
  have hp5 := hp 5 (by decide)
  have hbits : ∀ r ∈ ([14, 2, 3, 4, 5] : List Nat),
      (numberBitsetOf cards).testBit r = true :=
    fun r hr => (testBit_numberBitsetOf cards r).mpr (hwheel r hr)
  have hW7 : countByNumber cards 14 + (countByNumber cards 2 + (countByNumber cards 3 +
      (countByNumber cards 4 + (countByNumber cards 5 + 0)))) ≤ 7 := by
    have hb := wheel_extra_sum cards h7 [] (by decide) (fun x hx => by simp at hx)
      (fun x hx => by simp at hx)
    simp only [List.map_cons, List.map_nil, List.sum_cons, List.sum_nil] at hb
    omega
  have h6bit : (numberBitsetOf cards).testBit 6 = false := by
    by_contra hh
    rw [Bool.not_eq_false] at hh
    obtain ⟨c, hc, hcn⟩ := (testBit_numberBitsetOf cards 6).mp hh
    exact h6 c hc hcn
  -- the straight check on the whole-hand bitset fires exactly at the wheel
  have hstraight : checkForStraight (numberBitsetOf cards) = some Number.five := by
    rw [checkForStraight]
    have hwin1 : (dupAce (numberBitsetOf cards) >>> 1) &&& 31 = 31 := by
      rw [window_iff]
      intro i hi
      interval_cases i
      · rw [testBit_dupAce]
        simp [hbits 14 (by decide)]
      · rw [testBit_dupAce_ge_two _ _ (by omega)]
        exact hbits 2 (by decide)
      · rw [testBit_dupAce_ge_two _ _ (by omega)]
        exact hbits 3 (by decide)
      · rw [testBit_dupAce_ge_two _ _ (by omega)]
        exact hbits 4 (by decide)
      · rw [testBit_dupAce_ge_two _ _ (by omega)]
        exact hbits 5 (by decide)
    have hmax : ∀ j, 1 < j → j ≤ 10 →
        ¬((dupAce (numberBitsetOf cards) >>> j) &&& 31 = 31) := by
      intro j hj1 hj10 hw
      have hall := (window_iff _ j).mp hw
      have hallb : ∀ i, i < 5 → (numberBitsetOf cards).testBit (j + i) = true := by
        intro i hi
        have := hall i hi
        rwa [testBit_dupAce_ge_two _ _ (by omega)] at this
      have hkill6 : ∀ i, i < 5 → j + i = 6 → False := by
        intro i hi hji
        have := hallb i hi
        rw [hji, h6bit] at this
        exact Bool.noConfusion this
      have hkill3 : ∀ a b c : Nat, 6 < a → a < b → b < c → c ≤ 13 →
          (numberBitsetOf cards).testBit a = true →
          (numberBitsetOf cards).testBit b = true →
          (numberBitsetOf cards).testBit c = true → False := by
        intro a b c ha hab hbc hc13 hba hbb hbc2
        have hca := (testBit_numberBitsetOf_iff_count cards a).mp hba
        have hcb := (testBit_numberBitsetOf_iff_count cards b).mp hbb
        have hcc := (testBit_numberBitsetOf_iff_count cards c).mp hbc2
        have hb := wheel_extra_sum cards h7 [a, b, c]
          (by simp; omega)
          (by
            intro x hx
            simp at hx
            rcases hx with rfl | rfl | rfl <;> exact mem_ranksDesc_of _ (by omega) (by omega))
          (by
            intro x hx
            simp at hx
            rcases hx with rfl | rfl | rfl <;> (intro hxW; fin_cases hxW <;> omega))
        simp only [List.map_cons, List.map_nil, List.sum_cons, List.sum_nil] at hb
        omega
      interval_cases j
      · exact hkill6 4 (by omega) (by omega)
      · exact hkill6 3 (by omega) (by omega)
      · exact hkill6 2 (by omega) (by omega)
      · exact hkill6 1 (by omega) (by omega)
      · exact hkill6 0 (by omega) (by omega)
      · exact hkill3 7 8 9 (by omega) (by omega) (by omega) (by omega)
          (hallb 0 (by omega)) (hallb 1 (by omega)) (hallb 2 (by omega))
      · exact hkill3 8 9 10 (by omega) (by omega) (by omega) (by omega)
          (hallb 0 (by omega)) (hallb 1 (by omega)) (hallb 2 (by omega))
      · exact hkill3 9 10 11 (by omega) (by omega) (by omega) (by omega)
          (hallb 0 (by omega)) (hallb 1 (by omega)) (hallb 2 (by omega))
      · exact hkill3 10 11 12 (by omega) (by omega) (by omega) (by omega)
          (hallb 0 (by omega)) (hallb 1 (by omega)) (hallb 2 (by omega))
    have := checkForStraightGo_eq_some (dupAce (numberBitsetOf cards)) 10 1
      (by omega) (by omega) hwin1 (fun j hja hjb => hmax j hja hjb)
    rw [this]
    rfl
  have hsf : (suitIdxs.findSome? fun si => checkForStraight (suitBitsetOf cards si)) =
      none := by
    rw [List.findSome?_eq_none_iff]
    intro si _
    exact checkForStraight_suitBitset_none cards si hnd (hflush si)
  have hquad : findRankWithCount (countByNumber cards) 4 = none := by
    apply findRankWithCount_eq_none
    intro n hn hc4
    by_cases hnW : n ∈ ([14, 2, 3, 4, 5] : List Nat)
    · fin_cases hnW <;> omega
    · obtain ⟨hn2, hn14⟩ := bounds_of_mem_ranksDesc n hn
      have hb := wheel_extra_sum cards h7 [n] (by simp)
        (fun x hx => by simp at hx; rw [hx]; exact hn)
        (fun x hx => by simp at hx; rw [hx]; exact hnW)
      simp only [List.map_cons, List.map_nil, List.sum_cons, List.sum_nil] at hb
      omega
  have hflushscan : (suitIdxs.findSome? fun si =>
      if 5 ≤ countBySuit cards si then
        some (flushStrip (countBySuit cards si) (suitBitsetOf cards si))
      else none) = none := by
    rw [List.findSome?_eq_none_iff]
    intro si _
    rw [if_neg (by have := hflush si; omega)]
  refine ⟨?_, by decide⟩
  unfold evaluateHand evaluateCore
  rw [hsf, hquad]
  dsimp only
  cases hto : checkForThreeOfAKind (countByNumber cards) with
  | none =>
    dsimp only
    unfold evaluateAfterFullHouse
    rw [hflushscan]
    dsimp only
    rw [hstraight]
  | some t =>
    have htraw : findRankWithCount (countByNumber cards) 3 = some t.toNat ∧
        countByNumber cards t.toNat = 3 ∧ 2 ≤ t.toNat ∧ t.toNat ≤ 14 := by
      rw [checkForThreeOfAKind] at hto
      obtain ⟨traw, htr, htEq⟩ := Option.map_eq_some'.mp hto
      have hs := htr
      rw [findRankWithCount] at hs
      obtain ⟨n', hn'mem, hn'p, hn'eq⟩ :=
        findSome?_if_sound (fun n => countByNumber cards n = 3) (fun n => n)
          ranksDesc traw hs
      obtain ⟨hb2, hb14⟩ := bounds_of_mem_ranksDesc n' hn'mem
      have htoNat : t.toNat = traw := by
        rw [← htEq, hn'eq, Number.toNat_fromNatD n' hb2 hb14]
      rw [htoNat, hn'eq]
      exact ⟨by rw [← hn'eq]; exact htr, hn'p, hb2, hb14⟩
    obtain ⟨htr3, hct3, ht2, ht14⟩ := htraw
    have hfhnone : (ranksDesc.findSome? fun n =>
        if n ≠ t.toNat ∧ 2 ≤ countByNumber cards n then some n else none) = none := by
      rw [List.findSome?_eq_none_iff]
      intro n hn
      rw [if_neg]
      rintro ⟨hne, hge⟩
      obtain ⟨hn2, hn14⟩ := bounds_of_mem_ranksDesc n hn
      by_cases htW : t.toNat ∈ ([14, 2, 3, 4, 5] : List Nat)
      · by_cases hnW : n ∈ ([14, 2, 3, 4, 5] : List Nat)
        · simp only [List.mem_cons, List.not_mem_nil, or_false] at htW
          rcases htW with h | h | h | h | h <;> rw [h] at hct3 hne <;>
            fin_cases hnW <;> omega
        · have hb := wheel_extra_sum cards h7 [n] (by simp)
            (fun x hx => by simp at hx; rw [hx]; exact hn)
            (fun x hx => by simp at hx; rw [hx]; exact hnW)
          simp only [List.map_cons, List.map_nil, List.sum_cons, List.sum_nil] at hb
          simp only [List.mem_cons, List.not_mem_nil, or_false] at htW
          rcases htW with h | h | h | h | h <;> rw [h] at hct3 <;> omega
      · by_cases hnW : n ∈ ([14, 2, 3, 4, 5] : List Nat)
        · have hb := wheel_extra_sum cards h7 [t.toNat] (by simp)
            (fun x hx => by simp at hx; rw [hx]; exact mem_ranksDesc_of _ ht2 ht14)
            (fun x hx => by simp at hx; rw [hx]; exact htW)
          simp only [List.map_cons, List.map_nil, List.sum_cons, List.sum_nil] at hb
          fin_cases hnW <;> omega
        · have hb := wheel_extra_sum cards h7 [t.toNat, n]
            (by simp; omega)
            (fun x hx => by
              simp at hx
              rcases hx with rfl | rfl
              · exact mem_ranksDesc_of _ ht2 ht14
              · exact hn)
            (fun x hx => by
              simp at hx
              rcases hx with rfl | rfl
              · exact htW
              · exact hnW)
          simp only [List.map_cons, List.map_nil, List.sum_cons, List.sum_nil] at hb
          omega
    dsimp only
    rw [hfhnone]
    dsimp only
    unfold evaluateAfterFullHouse
    rw [hflushscan]
    dsimp only
    rw [hstraight]

/-- Suit indices above 3 never occur, so their counts vanish. -/
theorem countBySuit_eq_zero_of_ge (cards : List Card) (s : Nat) (h : 4 ≤ s) :
    countBySuit cards s = 0 := by
  rw [countBySuit, List.countP_eq_zero]
  intro c _
  have : c.suit.toNat ≤ 3 := by cases c.suit <;> simp [Suit.toNat]
  simp
  omega

/-- Witness for C6: the wheel hand A,2,3,4,5 plus a nine and a king. -/
theorem evaluateHand_wheel_C6_witness :
    ([⟨.clubs, .ace⟩, ⟨.diamonds, .two⟩, ⟨.clubs, .three⟩, ⟨.hearts, .four⟩,
        ⟨.spades, .five⟩, ⟨.hearts, .nine⟩, ⟨.diamonds, .king⟩] : List Card).length = 7 ∧
    evaluateHand
        [⟨.clubs, .ace⟩, ⟨.diamonds, .two⟩, ⟨.clubs, .three⟩, ⟨.hearts, .four⟩,
          ⟨.spades, .five⟩, ⟨.hearts, .nine⟩, ⟨.diamonds, .king⟩] =
      HandEvaluation.new_straight .five ∧
    (HandEvaluation.new_straight .five).cmp (HandEvaluation.new_straight .six) = .lt := by
  have hflush : ∀ s, countBySuit
      [⟨.clubs, .ace⟩, ⟨.diamonds, .two⟩, ⟨.clubs, .three⟩, ⟨.hearts, .four⟩,
        ⟨.spades, .five⟩, ⟨.hearts, .nine⟩, ⟨.diamonds, .king⟩] s ≤ 4 := by
    intro s
    rcases Nat.lt_or_ge s 4 with h | h
    · interval_cases s <;> decide
    · rw [countBySuit_eq_zero_of_ge _ s h]
      omega
  have := evaluateHand_wheel_C6
    [⟨.clubs, .ace⟩, ⟨.diamonds, .two⟩, ⟨.clubs, .three⟩, ⟨.hearts, .four⟩,
      ⟨.spades, .five⟩, ⟨.hearts, .nine⟩, ⟨.diamonds, .king⟩]
    (by decide) (by decide) (by decide) (by decide) hflush
  exact ⟨by decide, this.1, this.2⟩

section ClearLowestLemmas

/-- Clearing the lowest bit of an odd number clears bit 0. -/
theorem clearLowest_two_mul_add_one (c : Nat) : clearLowest (2 * c + 1) = 2 * c := by
  rw [clearLowest]
  apply Nat.eq_of_testBit_eq
  intro i
  rw [Nat.testBit_and, Nat.add_sub_cancel]
  cases i with
  | zero =>
    have h0 : (2 * c).testBit 0 = false := by
      rw [Nat.testBit_zero]
      simp [Nat.mul_mod_right]
    rw [h0]
    simp
  | succ j =>
    rw [Nat.testBit_succ, Nat.testBit_succ]
    have h1 : (2 * c + 1) / 2 = c := by omega
    have h2 : 2 * c / 2 = c := by omega
    rw [h1, h2, Bool.and_self]

theorem clearLowest_two_mul (c : Nat) : clearLowest (2 * c) = 2 * clearLowest c := by
  rcases Nat.eq_zero_or_pos c with rfl | hc
  · rfl
  rw [clearLowest, clearLowest]
  apply Nat.eq_of_testBit_eq
  intro i
  cases i with
  | zero =>
    have h0 : (2 * c).testBit 0 = false := by
      rw [Nat.testBit_zero]
      simp [Nat.mul_mod_right]
    have h0b : (2 * (c &&& (c - 1))).testBit 0 = false := by
      rw [Nat.testBit_zero]
      simp [Nat.mul_mod_right]
    rw [Nat.testBit_and, h0, h0b]
    simp
  | succ j =>
    rw [Nat.testBit_and, Nat.testBit_succ, Nat.testBit_succ, Nat.testBit_succ]
    have h1 : 2 * c / 2 = c := by omega
    have h2 : (2 * c - 1) / 2 = c - 1 := by omega
    have h3 : 2 * (c &&& (c - 1)) / 2 = c &&& (c - 1) := by omega
    rw [h1, h2, h3, Nat.testBit_and]

theorem clearLowest_spec (b : Nat) (hb : b ≠ 0) :
    ∃ t, b.testBit t = true ∧ (∀ j, j < t → b.testBit j = false) ∧
      ∀ i, (clearLowest b).testBit i = (b.testBit i && !(decide (i = t))) := by
  induction b using Nat.strong_induction_on with
  | _ b ih =>
    rcases Nat.mod_two_eq_zero_or_one b with hpar | hpar
    · -- even
      have hc : b = 2 * (b / 2) := by omega
      have hc0 : b / 2 ≠ 0 := by omega
      have hlt : b / 2 < b := by omega
      obtain ⟨t, ht1, ht2, ht3⟩ := ih (b / 2) hlt hc0
      have hdiv : ∀ x : Nat, 2 * x / 2 = x := fun x => by omega
      refine ⟨t + 1, ?_, ?_, ?_⟩
      · conv_lhs => rw [hc]
        rw [Nat.testBit_succ, hdiv]
        exact ht1
      · intro j hj
        cases j with
        | zero =>
          conv_lhs => rw [hc]
          rw [Nat.testBit_zero]
          simp [Nat.mul_mod_right]
        | succ j2 =>
          conv_lhs => rw [hc]
          rw [Nat.testBit_succ, hdiv]
          exact ht2 j2 (by omega)
      · intro i
        conv_lhs => rw [hc, clearLowest_two_mul]
        cases i with
        | zero =>
          rw [Nat.testBit_zero, Nat.testBit_zero]
          have e1 : 2 * clearLowest (b / 2) % 2 = 0 := by omega
          have e2 : b % 2 = 0 := hpar
          simp [e1, e2]
        | succ j2 =>
          rw [Nat.testBit_succ, hdiv]
          conv_rhs => rw [hc]
          rw [Nat.testBit_succ, hdiv, ht3 j2]
          have he : (decide (j2 = t)) = (decide (j2 + 1 = t + 1)) := by
            rcases Nat.decEq j2 t with h | h
            · simp [h]
            · simp [h]
          rw [he]
      -- done even
    · -- odd
      have hc : b = 2 * (b / 2) + 1 := by omega
      refine ⟨0, ?_, ?_, ?_⟩
      · rw [Nat.testBit_zero]
        simp
        omega
      · intro j hj
        omega
      · intro i
        conv_lhs => rw [hc, clearLowest_two_mul_add_one]
        cases i with
        | zero =>
          rw [Nat.testBit_zero, Nat.testBit_zero]
          simp [Nat.mul_mod_right]
        | succ j2 =>
          rw [Nat.testBit_succ]
          conv_rhs => rw [hc]
          rw [Nat.testBit_succ]
          have h1 : 2 * (b / 2) / 2 = b / 2 := by omega
          have h2 : (2 * (b / 2) + 1) / 2 = b / 2 := by omega
          rw [h1, h2]
          simp

end ClearLowestLemmas

/-- The straight check returns none when no 5-rank run (wheel included) is
present in a rank bitset. -/
theorem checkForStraight_eq_none_of_no_run (b : Nat)
    (hrange : ∀ r, b.testBit r = true → 2 ≤ r ∧ r ≤ 14)
    (hno : ¬ ∃ k, 5 ≤ k ∧ k ≤ 14 ∧ ∀ i, i < 5 →
      b.testBit (if k - 4 + i = 1 then 14 else k - 4 + i) = true) :
    checkForStraight b = none := by
  rw [checkForStraight]
  apply checkForStraightGo_eq_none
  intro j hj1 hj10 hw
  have hall := (window_iff _ j).mp hw
  apply hno
  refine ⟨j + 4, by omega, by omega, ?_⟩
  intro i hi
  rcases Nat.lt_or_ge j 2 with hj2 | hj2
  · have hj : j = 1 := by omega
    subst hj
    by_cases hi0 : i = 0
    · subst hi0
      rw [if_pos (by omega)]
      have h1 := hall 0 (by omega)
      rw [testBit_dupAce] at h1
      have hb1 : b.testBit 1 = false := by
        by_contra hh
        rw [Bool.not_eq_false] at hh
        have := hrange 1 hh
        omega
      simpa [hb1] using h1
    · rw [if_neg (by omega)]
      have h1 := hall i hi
      rw [testBit_dupAce_ge_two _ _ (by omega)] at h1
      have he : 1 + 4 - 4 + i = 1 + i := by omega
      rw [he]
      exact h1
  · rw [if_neg (by omega)]
    have h1 := hall i hi
    rw [testBit_dupAce_ge_two _ _ (by omega)] at h1
    have he : j + 4 - 4 + i = j + i := by omega
    rw [he]
    exact h1

/-- C4 counterexample: on the pair-of-aces test hand of the source, the pair
tiebreak keeps the top THREE kicker ranks (king, ten, nine), so it differs
from the evaluation the claim describes, whose kicker set is pared down to its
top two bits (king, ten). -/
theorem evaluateHand_pair_C4_counterexample :
    evaluateHand
        [⟨.clubs, .ace⟩, ⟨.diamonds, .ace⟩, ⟨.clubs, .king⟩, ⟨.diamonds, .ten⟩,
          ⟨.clubs, .nine⟩, ⟨.clubs, .eight⟩, ⟨.hearts, .six⟩] =
      HandEvaluation.new_pair .ace
        (Number.king.asBit ||| Number.ten.asBit ||| Number.nine.asBit) ∧
    evaluateHand
        [⟨.clubs, .ace⟩, ⟨.diamonds, .ace⟩, ⟨.clubs, .king⟩, ⟨.diamonds, .ten⟩,
          ⟨.clubs, .nine⟩, ⟨.clubs, .eight⟩, ⟨.hearts, .six⟩] ≠
      HandEvaluation.new_pair .ace (Number.king.asBit ||| Number.ten.asBit) := by
  constructor
  · decide
  · decide

/-- C4 (amended): for every valid 7-card hand whose best category is one pair
(exactly one rank with count 2, all other ranks at most once, no flush and no
straight), evaluate_hand returns a Pair evaluation whose tiebreak is the pair
rank plus the kicker bitset obtained by removing the pair rank from the rank
bitset and paring the kicker set down to its top THREE bits: the two cleared
bits are the two lowest kickers, so every surviving kicker bit lies above
them. -/
theorem evaluateHand_pair_C4 (cards : List Card) (h7 : cards.length = 7)
    (hnd : cards.Nodup) (p : Nat) (hp2 : 2 ≤ p) (hp14 : p ≤ 14)
    (hcp : countByNumber cards p = 2)
    (hone : ∀ r, 2 ≤ r → r ≤ 14 → r ≠ p → countByNumber cards r ≤ 1)
    (hflush : ∀ s, countBySuit cards s ≤ 4)
    (hnostraight : ¬ ∃ k, 5 ≤ k ∧ k ≤ 14 ∧ ∀ i, i < 5 →
      ∃ c ∈ cards, c.number.toNat = (if k - 4 + i = 1 then 14 else k - 4 + i)) :
    evaluateHand cards =
      HandEvaluation.new_pair (Number.fromNatD p)
        (clearLowest (clearLowest
          (numberBitsetOf cards &&& not16 (Number.fromNatD p).asBit))) ∧
    ∃ t1 t2, t1 < t2 ∧
      (numberBitsetOf cards &&& not16 (Number.fromNatD p).asBit).testBit t1 = true ∧
      (numberBitsetOf cards &&& not16 (Number.fromNatD p).asBit).testBit t2 = true ∧
      (∀ i, (clearLowest (clearLowest
            (numberBitsetOf cards &&& not16 (Number.fromNatD p).asBit))).testBit i =
          ((numberBitsetOf cards &&& not16 (Number.fromNatD p).asBit).testBit i &&
            !(decide (i = t1)) && !(decide (i = t2)))) ∧
      (∀ i, (clearLowest (clearLowest
            (numberBitsetOf cards &&& not16 (Number.fromNatD p).asBit))).testBit i = true →
          t2 < i) := by
  have htoNat : (Number.fromNatD p).toNat = p := Number.toNat_fromNatD p hp2 hp14
  have hsum : (ranksDesc.map (countByNumber cards)).sum = 7 := by
    rw [sum_countByNumber cards, h7]
  -- control flow part
  have hsf : (suitIdxs.findSome? fun si => checkForStraight (suitBitsetOf cards si)) =
      none := by
    rw [List.findSome?_eq_none_iff]
    intro si _
    exact checkForStraight_suitBitset_none cards si hnd (hflush si)
  have hquad : findRankWithCount (countByNumber cards) 4 = none := by
    apply findRankWithCount_eq_none
    intro n hn
    obtain ⟨hn2, hn14⟩ := bounds_of_mem_ranksDesc n hn
    by_cases hnp : n = p
    · rw [hnp, hcp]; omega
    · have := hone n hn2 hn14 hnp; omega
  have htok : findRankWithCount (countByNumber cards) 3 = none := by
    apply findRankWithCount_eq_none
    intro n hn
    obtain ⟨hn2, hn14⟩ := bounds_of_mem_ranksDesc n hn
    by_cases hnp : n = p
    · rw [hnp, hcp]; omega
    · have := hone n hn2 hn14 hnp; omega
  have htokC : checkForThreeOfAKind (countByNumber cards) = none := by
    rw [checkForThreeOfAKind, htok]
    rfl
  have hflushscan : (suitIdxs.findSome? fun si =>
      if 5 ≤ countBySuit cards si then
        some (flushStrip (countBySuit cards si) (suitBitsetOf cards si))
      else none) = none := by
    rw [List.findSome?_eq_none_iff]
    intro si _
    rw [if_neg (by have := hflush si; omega)]
  have hstraightnone : checkForStraight (numberBitsetOf cards) = none := by
    apply checkForStraight_eq_none_of_no_run
    · intro r hr
      exact numberBitsetOf_range cards r hr
    · rintro ⟨k, hk5, hk14, hall⟩
      apply hnostraight
      refine ⟨k, hk5, hk14, fun i hi => ?_⟩
      exact (testBit_numberBitsetOf cards _).mp (hall i hi)
  have hpairFind : findRankWithCount (countByNumber cards) 2 = some p := by
    apply findRankWithCount_eq_some _ _ _ hp2 hp14 hcp
    intro j hj2 hj14 hcj
    by_cases hjp : j = p
    · omega
    · have := hone j hj2 hj14 hjp; omega
  have hpairC : checkForPair (countByNumber cards) = some (Number.fromNatD p) := by
    rw [checkForPair, hpairFind]
    rfl
  have hinner : ((ranksDesc.filter fun n => decide (n < p)).findSome? fun n =>
      if countByNumber cards n = 2 then some n else none) = none := by
    rw [List.findSome?_eq_none_iff]
    intro n hn
    obtain ⟨hnr, hnlt⟩ := List.mem_filter.mp hn
    obtain ⟨hn2, hn14⟩ := bounds_of_mem_ranksDesc n hnr
    have hnp : n ≠ p := by
      have := of_decide_eq_true hnlt
      omega
    rw [if_neg (by have := hone n hn2 hn14 hnp; omega)]
  constructor
  · unfold evaluateHand evaluateCore
    rw [hsf, hquad]
    dsimp only
    rw [htokC]
    dsimp only
    unfold evaluateAfterFullHouse
    rw [hflushscan]
    dsimp only
    rw [hstraightnone]
    dsimp only
    rw [hpairC]
    dsimp only
    rw [htoNat, hinner]
  -- top-three kicker semantics
  · set B := numberBitsetOf cards &&& not16 (Number.fromNatD p).asBit with hBdef
    have hBbit : ∀ r, r ≤ 15 → B.testBit r =
        ((numberBitsetOf cards).testBit r && !(decide (p = r))) := by
      intro r hr
      rw [hBdef, testBit_and_not16 _ _ r (by omega), Number.testBit_asBit, htoNat]
    have hBrange : ∀ r, B.testBit r = true → 2 ≤ r ∧ r ≤ 14 ∧ r ≠ p := by
      intro r hr
      have hnb : (numberBitsetOf cards).testBit r = true := by
        rw [hBdef, Nat.testBit_and] at hr
        exact (Bool.and_eq_true_iff.mp hr).1
      obtain ⟨h2, h14⟩ := numberBitsetOf_range cards r hnb
      have := hBbit r (by omega)
      rw [this, hnb] at hr
      simp at hr
      exact ⟨h2, h14, fun hh => hr hh.symm⟩
    -- two distinct kickers exist
    have hq1 : ∃ q, 2 ≤ q ∧ q ≤ 14 ∧ q ≠ p ∧ 0 < countByNumber cards q := by
      by_contra hno
      push_neg at hno
      have hz : ∀ x ∈ ranksDesc, x ≠ p → countByNumber cards x = 0 := by
        intro x hx hxp
        obtain ⟨hx2, hx14⟩ := bounds_of_mem_ranksDesc x hx
        have := hno x hx2 hx14 hxp
        omega
      have := sum_le_one_support ranksDesc ranksDesc_nodup (countByNumber cards) p hz
      rw [hsum, hcp] at this
      omega
    obtain ⟨q1, hq12, hq114, hq1p, hq1pos⟩ := hq1
    have hq2 : ∃ q, 2 ≤ q ∧ q ≤ 14 ∧ q ≠ p ∧ q ≠ q1 ∧ 0 < countByNumber cards q := by
      by_contra hno
      push_neg at hno
      have hz : ∀ x ∈ ranksDesc, x ≠ p → x ≠ q1 → countByNumber cards x = 0 := by
        intro x hx hxp hxq
        obtain ⟨hx2, hx14⟩ := bounds_of_mem_ranksDesc x hx
        have := hno x hx2 hx14 hxp hxq
        omega
      have := sum_le_two_support ranksDesc ranksDesc_nodup (countByNumber cards) p q1 hz
      have hq1le : countByNumber cards q1 ≤ 1 := hone q1 hq12 hq114 hq1p
      rw [hsum, hcp] at this
      omega
    obtain ⟨q2, hq22, hq214, hq2p, hq2q1, hq2pos⟩ := hq2
    have hbq1 : B.testBit q1 = true := by
      rw [hBbit q1 (by omega)]
      have h1 : (numberBitsetOf cards).testBit q1 = true :=
        (testBit_numberBitsetOf_iff_count cards q1).mpr hq1pos
      simp [h1]
      omega
    have hbq2 : B.testBit q2 = true := by
      rw [hBbit q2 (by omega)]
      have h1 : (numberBitsetOf cards).testBit q2 = true :=
        (testBit_numberBitsetOf_iff_count cards q2).mpr hq2pos
      simp [h1]
      omega
    have hBne : B ≠ 0 := by
      intro hz
      rw [hz, Nat.zero_testBit] at hbq1
      exact Bool.noConfusion hbq1
    obtain ⟨t1, ht1bit, ht1min, ht1char⟩ := clearLowest_spec B hBne
    have hB1ne : clearLowest B ≠ 0 := by
      intro hz
      by_cases hq1t : q1 = t1
      · have hq2t : q2 ≠ t1 := by rw [← hq1t]; exact hq2q1
        have := ht1char q2
        rw [hz, Nat.zero_testBit, hbq2] at this
        simp [hq2t] at this
      · have := ht1char q1
        rw [hz, Nat.zero_testBit, hbq1] at this
        simp [hq1t] at this
    obtain ⟨t2, ht2bit, ht2min, ht2char⟩ := clearLowest_spec (clearLowest B) hB1ne
    have ht2B : B.testBit t2 = true ∧ t2 ≠ t1 := by
      have := ht1char t2
      rw [ht2bit] at this
      constructor
      · by_contra hh
        rw [Bool.not_eq_true] at hh
        rw [hh] at this
        simp at this
      · intro hh
        rw [hh] at this
        simp at this
    have ht1t2 : t1 < t2 := by
      rcases Nat.lt_trichotomy t1 t2 with h | h | h
      · exact h
      · exact absurd h ht2B.2.symm
      · have := ht1min t2 h
        rw [ht2B.1] at this
        exact Bool.noConfusion this
    refine ⟨t1, t2, ht1t2, ht1bit, ht2B.1, ?_, ?_⟩
    · intro i
      rw [ht2char i, ht1char i]
    · intro i hbi
      have h2 := ht2char i
      rw [hbi] at h2
      have hb1i : (clearLowest B).testBit i = true ∧ i ≠ t2 := by
        by_cases hb1 : (clearLowest B).testBit i = true
        · refine ⟨hb1, ?_⟩
          intro hh
          rw [hb1, hh] at h2
          simp at h2
        · rw [Bool.not_eq_true] at hb1
          rw [hb1] at h2
          simp at h2
      rcases Nat.lt_trichotomy t2 i with h | h | h
      · exact h
      · exact absurd h.symm hb1i.2
      · have := ht2min i h
        rw [hb1i.1] at this
        exact Bool.noConfusion this

/-- Witness for the amended C4 at the pair-of-aces test hand. -/
theorem evaluateHand_pair_C4_witness :
    ([⟨.clubs, .ace⟩, ⟨.diamonds, .ace⟩, ⟨.clubs, .king⟩, ⟨.diamonds, .ten⟩,
        ⟨.clubs, .nine⟩, ⟨.clubs, .eight⟩, ⟨.hearts, .six⟩] : List Card).length = 7 ∧
    countByNumber
        [⟨.clubs, .ace⟩, ⟨.diamonds, .ace⟩, ⟨.clubs, .king⟩, ⟨.diamonds, .ten⟩,
          ⟨.clubs, .nine⟩, ⟨.clubs, .eight⟩, ⟨.hearts, .six⟩] 14 = 2 ∧
    evaluateHand
        [⟨.clubs, .ace⟩, ⟨.diamonds, .ace⟩, ⟨.clubs, .king⟩, ⟨.diamonds, .ten⟩,
          ⟨.clubs, .nine⟩, ⟨.clubs, .eight⟩, ⟨.hearts, .six⟩] =
      HandEvaluation.new_pair (Number.fromNatD 14)
        (clearLowest (clearLowest
          (numberBitsetOf
              [⟨.clubs, .ace⟩, ⟨.diamonds, .ace⟩, ⟨.clubs, .king⟩, ⟨.diamonds, .ten⟩,
                ⟨.clubs, .nine⟩, ⟨.clubs, .eight⟩, ⟨.hearts, .six⟩] &&&
            not16 (Number.fromNatD 14).asBit))) := by
  refine ⟨by decide, by decide, ?_⟩
  have hflush : ∀ s, countBySuit
      [⟨.clubs, .ace⟩, ⟨.diamonds, .ace⟩, ⟨.clubs, .king⟩, ⟨.diamonds, .ten⟩,
        ⟨.clubs, .nine⟩, ⟨.clubs, .eight⟩, ⟨.hearts, .six⟩] s ≤ 4 := by
    intro s
    rcases Nat.lt_or_ge s 4 with h | h
    · interval_cases s <;> decide
    · rw [countBySuit_eq_zero_of_ge _ s h]
      omega
  have hone : ∀ r, 2 ≤ r → r ≤ 14 → r ≠ 14 → countByNumber
      [⟨.clubs, .ace⟩, ⟨.diamonds, .ace⟩, ⟨.clubs, .king⟩, ⟨.diamonds, .ten⟩,
        ⟨.clubs, .nine⟩, ⟨.clubs, .eight⟩, ⟨.hearts, .six⟩] r ≤ 1 := by
    intro r h2 h14 hne
    interval_cases r <;> revert hne <;> decide
  have hns : ¬ ∃ k, 5 ≤ k ∧ k ≤ 14 ∧ ∀ i, i < 5 →
      ∃ c ∈ ([⟨.clubs, .ace⟩, ⟨.diamonds, .ace⟩, ⟨.clubs, .king⟩, ⟨.diamonds, .ten⟩,
        ⟨.clubs, .nine⟩, ⟨.clubs, .eight⟩, ⟨.hearts, .six⟩] : List Card),
        c.number.toNat = (if k - 4 + i = 1 then 14 else k - 4 + i) := by
    rintro ⟨k, hk5, hk14, hall⟩
    interval_cases k <;> exact absurd hall (by decide)
  exact (evaluateHand_pair_C4
    [⟨.clubs, .ace⟩, ⟨.diamonds, .ace⟩, ⟨.clubs, .king⟩, ⟨.diamonds, .ten⟩,
      ⟨.clubs, .nine⟩, ⟨.clubs, .eight⟩, ⟨.hearts, .six⟩]
    (by decide) (by decide) 14 (by omega) (by omega) (by decide) hone hflush hns).1

/-- C3: the generalized equity computation fails with an InvalidInput error
whenever any card appears more than once across the starting hands and the
dead cards. -/
theorem compute_equity_duplicate_C3 (hands : List (Card × Card)) (dead_cards : List Card)
    (hdup : ¬ ((hands.flatMap fun h => [h.1, h.2]) ++ dead_cards).Nodup) :
    compute_equity hands dead_cards = .error .invalidInput := by
  rw [compute_equity, if_pos hdup]

/-- Witness for C3: a card repeated across the two hands triggers the error. -/
theorem compute_equity_duplicate_C3_witness :
    ¬ ((([((⟨.clubs, .ace⟩ : Card), (⟨.diamonds, .king⟩ : Card)),
          ((⟨.clubs, .ace⟩ : Card), (⟨.hearts, .queen⟩ : Card))] :
        List (Card × Card)).flatMap fun h => [h.1, h.2]) ++ ([] : List Card)).Nodup ∧
    compute_equity
        [((⟨.clubs, .ace⟩ : Card), (⟨.diamonds, .king⟩ : Card)),
          ((⟨.clubs, .ace⟩ : Card), (⟨.hearts, .queen⟩ : Card))] [] =
      .error .invalidInput :=
  ⟨by decide,
    compute_equity_duplicate_C3
      [((⟨.clubs, .ace⟩ : Card), (⟨.diamonds, .king⟩ : Card)),
        ((⟨.clubs, .ace⟩ : Card), (⟨.hearts, .queen⟩ : Card))] [] (by decide)⟩

section CheckedLemmas

/-- The checked highest-card conversion succeeds on every nonempty bitset
whose bits are rank positions. -/
theorem highestCardInSetChecked_some (b : Nat) (hne : b ≠ 0)
    (hrange : ∀ j, b.testBit j = true → 2 ≤ j ∧ j ≤ 14) :
    highestCardInSetChecked b = some (highestCardInSet b) := by
  have hex : ∃ i, b.testBit i = true := by
    by_contra hno
    push_neg at hno
    apply hne
    apply Nat.eq_of_testBit_eq
    intro i
    rw [Nat.zero_testBit]
    cases h : b.testBit i
    · rfl
    · exact absurd h (hno i)
  obtain ⟨i0, hi0⟩ := hex
  have hi014 : i0 ≤ 14 := (hrange i0 hi0).2
  have hrbit : b.testBit (Nat.findGreatest (fun i => b.testBit i = true) 14) = true :=
    @Nat.findGreatest_spec i0 (fun i => b.testBit i = true) _ 14 hi014 hi0
  have hrmax : ∀ j, b.testBit j = true →
      j ≤ Nat.findGreatest (fun i => b.testBit i = true) 14 := by
    intro j hj
    have hj14 := (hrange j hj).2
    by_contra hgt
    push_neg at hgt
    exact @Nat.findGreatest_is_greatest j (fun i => b.testBit i = true) _ 14 hgt hj14 hj
  obtain ⟨h2, h14⟩ := hrange _ hrbit
  exact highestCardInSetChecked_eq b _ h2 h14 hrbit hrmax

/-- The checked straight scan agrees with the unchecked one up to shift 10. -/
theorem checkForStraightGoChecked_eq (b : Nat) : ∀ s, s ≤ 10 →
    checkForStraightGoChecked b s = some (checkForStraightGo b s) := by
  intro s
  induction s with
  | zero => intro _; rfl
  | succ s ih =>
    intro hs
    rw [checkForStraightGoChecked, checkForStraightGo]
    by_cases hw : (b >>> (s + 1)) &&& 31 = 31
    · rw [if_pos hw, if_pos hw, Number.fromNat?_eq_some (s + 1 + 4) (by omega) (by omega)]
      rfl
    · rw [if_neg hw, if_neg hw]
      exact ih (by omega)

/-- The checked straight detection agrees with the unchecked one. -/
theorem checkForStraightChecked_eq (b : Nat) :
    checkForStraightChecked b = some (checkForStraight b) := by
  rw [checkForStraightChecked, checkForStraight]
  exact checkForStraightGoChecked_eq _ 10 (by omega)

/-- The checked straight flush loop agrees with the findSome? scan. -/
theorem sfScanChecked_eq (sbits : Nat → Nat) (l : List Nat) :
    sfScanChecked sbits l = some (l.findSome? fun s => checkForStraight (sbits s)) := by
  induction l with
  | nil => rfl
  | cons s rest ih =>
    rw [sfScanChecked, checkForStraightChecked_eq, List.findSome?_cons]
    cases h : checkForStraight (sbits s) with
    | some hc => rfl
    | none => exact ih

/-- A none result of the triple check means no rank counts exactly 3. -/
theorem count_ne_of_findRank_none (countN : Nat → Nat) (m : Nat)
    (h : findRankWithCount countN m = none) :
    ∀ n ∈ ranksDesc, countN n ≠ m := by
  intro n hn hcm
  rw [findRankWithCount, List.findSome?_eq_none_iff] at h
  have := h n hn
  rw [if_pos hcm] at this
  exact Option.noConfusion this

/-- A some result of the rank-count scan is a rank with that exact count. -/
theorem findRank_some_sound (countN : Nat → Nat) (m k : Nat)
    (h : findRankWithCount countN m = some k) :
    k ∈ ranksDesc ∧ countN k = m := by
  rw [findRankWithCount] at h
  obtain ⟨n, hn, hp, he⟩ := findSome?_if_sound (fun n => countN n = m) (fun n => n)
    ranksDesc k h
  rw [he]
  exact ⟨hn, hp⟩

end CheckedLemmas

/-- On valid hands, the checked tail of the decision chain succeeds and agrees
with the unchecked one. -/
theorem evaluateAfterFullHouseChecked_eq (cards : List Card) (h7 : cards.length = 7)
    (hnd : cards.Nodup) (tok : Option Number)
    (htok : checkForThreeOfAKind (countByNumber cards) = tok)
    (hquad : findRankWithCount (countByNumber cards) 4 = none) :
    evaluateAfterFullHouseChecked (countBySuit cards) (countByNumber cards)
        (numberBitsetOf cards) (suitBitsetOf cards) tok =
      some (evaluateAfterFullHouse (countBySuit cards) (countByNumber cards)
        (numberBitsetOf cards) (suitBitsetOf cards) tok) := by
  unfold evaluateAfterFullHouseChecked evaluateAfterFullHouse
  cases hfl : (suitIdxs.findSome? fun s =>
      if 5 ≤ countBySuit cards s then
        some (flushStrip (countBySuit cards s) (suitBitsetOf cards s))
      else none) with
  | some suited => rfl
  | none =>
    rw [checkForStraightChecked_eq]
    cases hst : checkForStraight (numberBitsetOf cards) with
    | some hc => rfl
    | none =>
      cases tok with
      | some t => rfl
      | none =>
        have hc3 : ∀ n ∈ ranksDesc, countByNumber cards n ≠ 3 := by
          apply count_ne_of_findRank_none
          rw [checkForThreeOfAKind] at htok
          exact Option.map_eq_none'.mp htok
        have hc4 : ∀ n ∈ ranksDesc, countByNumber cards n ≠ 4 :=
          count_ne_of_findRank_none _ _ hquad
        have hle2 : ∀ n ∈ ranksDesc, countByNumber cards n ≤ 2 := by
          intro n hn
          have h4 := countByNumber_le_four cards hnd n
          have := hc3 n hn
          have := hc4 n hn
          omega
        cases hp : findRankWithCount (countByNumber cards) 2 with
        | none =>
          have hcpn : checkForPair (countByNumber cards) = none := by
            rw [checkForPair, hp]
            rfl
          rw [hcpn]
        | some praw =>
          obtain ⟨hpmem, hpcount⟩ := findRank_some_sound _ _ _ hp
          obtain ⟨hpr2, hpr14⟩ := bounds_of_mem_ranksDesc praw hpmem
          have hcps : checkForPair (countByNumber cards) = some (Number.fromNatD praw) := by
            rw [checkForPair, hp]
            rfl
          rw [hcps]
          dsimp only
          rw [Number.fromNat?_eq_some praw hpr2 hpr14]
          dsimp only
          cases hin : ((ranksDesc.filter fun n =>
              decide (n < (Number.fromNatD praw).toNat)).findSome? fun n =>
              if countByNumber cards n = 2 then some n else none) with
          | none => rfl
          | some lo =>
            obtain ⟨n', hn'mem, hn'p, hn'eq⟩ := findSome?_if_sound
              (fun n => countByNumber cards n = 2) (fun n => n) _ lo hin
            obtain ⟨hn'rd, hn'lt⟩ := List.mem_filter.mp hn'mem
            obtain ⟨hlo2, hlo14⟩ := bounds_of_mem_ranksDesc n' hn'rd
            have hlolt : n' < praw := by
              have := of_decide_eq_true hn'lt
              rwa [Number.toNat_fromNatD praw hpr2 hpr14] at this
            subst hn'eq
            dsimp only
            rw [Number.fromNat?_eq_some lo hlo2 hlo14]
            dsimp only
            -- the two-pair kicker bitset is nonempty with rank-position bits
            have hsum : (ranksDesc.map (countByNumber cards)).sum = 7 := by
              rw [sum_countByNumber cards, h7]
            have hthird : ∃ r ∈ ranksDesc, r ≠ praw ∧ r ≠ lo ∧
                0 < countByNumber cards r := by
              by_contra hno
              push_neg at hno
              have hz : ∀ x ∈ ranksDesc, x ≠ praw → x ≠ lo →
                  countByNumber cards x = 0 := by
                intro x hx hxp hxl
                have := hno x hx hxp hxl
                omega
              have := sum_le_two_support ranksDesc ranksDesc_nodup
                (countByNumber cards) praw lo hz
              rw [hsum, hpcount, hn'p] at this
              omega
            obtain ⟨r, hrmem, hrp, hrl, hrpos⟩ := hthird
            obtain ⟨hr2, hr14⟩ := bounds_of_mem_ranksDesc r hrmem
            have hbit : (numberBitsetOf cards &&& not16 (Number.fromNatD praw).asBit &&&
                not16 (Number.fromNatD lo).asBit).testBit r = true := by
              rw [testBit_and_not16 _ _ r (by omega), testBit_and_not16 _ _ r (by omega)]
              have h1 : (numberBitsetOf cards).testBit r = true :=
                (testBit_numberBitsetOf_iff_count cards r).mpr hrpos
              rw [h1, Number.testBit_asBit, Number.testBit_asBit,
                Number.toNat_fromNatD praw hpr2 hpr14, Number.toNat_fromNatD lo hlo2 hlo14]
              simp
              omega
            have hne : (numberBitsetOf cards &&& not16 (Number.fromNatD praw).asBit &&&
                not16 (Number.fromNatD lo).asBit) ≠ 0 := by
              intro hz
              rw [hz, Nat.zero_testBit] at hbit
              exact Bool.noConfusion hbit
            have hrange : ∀ j, (numberBitsetOf cards &&& not16 (Number.fromNatD praw).asBit &&&
                not16 (Number.fromNatD lo).asBit).testBit j = true → 2 ≤ j ∧ j ≤ 14 := by
              intro j hj
              rw [Nat.testBit_and] at hj
              have h1 := (Bool.and_eq_true_iff.mp hj).1
              rw [Nat.testBit_and] at h1
              exact numberBitsetOf_range cards j (Bool.and_eq_true_iff.mp h1).1
            rw [highestCardInSetChecked_some _ hne hrange]
            rfl

/-- C10: on every valid 7-card hand (7 distinct cards), every internal
unchecked conversion of evaluate_hand receives an in-range value: the fully
guarded evaluator, which fails whenever a Number::from_u8_unchecked argument
leaves 2..14 or highest_card_in_set runs on an empty bitset (where
15 - leading_zeros underflows), succeeds and agrees with the unchecked
evaluator. -/
theorem evaluateHandChecked_C10 (cards : List Card) (h7 : cards.length = 7)
    (hnd : cards.Nodup) :
    evaluateHandChecked cards = some (evaluateHand cards) := by
  have hsum : (ranksDesc.map (countByNumber cards)).sum = 7 := by
    rw [sum_countByNumber cards, h7]
  unfold evaluateHandChecked evaluateCoreChecked evaluateHand evaluateCore
  rw [sfScanChecked_eq]
  cases hsf : (suitIdxs.findSome? fun s => checkForStraight (suitBitsetOf cards s)) with
  | some hc => rfl
  | none =>
    dsimp only
    cases hq : findRankWithCount (countByNumber cards) 4 with
    | some q =>
      obtain ⟨hqmem, hqc⟩ := findRank_some_sound _ _ _ hq
      obtain ⟨hq2, hq14⟩ := bounds_of_mem_ranksDesc q hqmem
      dsimp only
      rw [Number.fromNat?_eq_some q hq2 hq14]
      dsimp only
      have hother : ∃ r ∈ ranksDesc, r ≠ q ∧ 0 < countByNumber cards r := by
        by_contra hno
        push_neg at hno
        have hz : ∀ x ∈ ranksDesc, x ≠ q → countByNumber cards x = 0 := by
          intro x hx hxq
          have := hno x hx hxq
          omega
        have := sum_le_one_support ranksDesc ranksDesc_nodup (countByNumber cards) q hz
        rw [hsum, hqc] at this
        omega
      obtain ⟨r, hrmem, hrq, hrpos⟩ := hother
      obtain ⟨hr2, hr14⟩ := bounds_of_mem_ranksDesc r hrmem
      have hbit : (numberBitsetOf cards &&& not16 (Number.fromNatD q).asBit).testBit r =
          true := by
        rw [testBit_and_not16 _ _ r (by omega)]
        have h1 : (numberBitsetOf cards).testBit r = true :=
          (testBit_numberBitsetOf_iff_count cards r).mpr hrpos
        rw [h1, Number.testBit_asBit, Number.toNat_fromNatD q hq2 hq14]
        simp
        omega
      have hne : (numberBitsetOf cards &&& not16 (Number.fromNatD q).asBit) ≠ 0 := by
        intro hz
        rw [hz, Nat.zero_testBit] at hbit
        exact Bool.noConfusion hbit
      have hrange : ∀ j, (numberBitsetOf cards &&&
          not16 (Number.fromNatD q).asBit).testBit j = true → 2 ≤ j ∧ j ≤ 14 := by
        intro j hj
        rw [Nat.testBit_and] at hj
        exact numberBitsetOf_range cards j (Bool.and_eq_true_iff.mp hj).1
      rw [highestCardInSetChecked_some _ hne hrange]
      rfl
    | none =>
      dsimp only
      cases ht : findRankWithCount (countByNumber cards) 3 with
      | some traw =>
        obtain ⟨htmem, htc⟩ := findRank_some_sound _ _ _ ht
        obtain ⟨ht2, ht14⟩ := bounds_of_mem_ranksDesc traw htmem
        have htokC : checkForThreeOfAKind (countByNumber cards) =
            some (Number.fromNatD traw) := by
          rw [checkForThreeOfAKind, ht]
          rfl
        rw [htokC]
        dsimp only
        rw [Number.fromNat?_eq_some traw ht2 ht14]
        dsimp only
        cases hfh : (ranksDesc.findSome? fun n =>
            if n ≠ (Number.fromNatD traw).toNat ∧ 2 ≤ countByNumber cards n then some n
            else none) with
        | some pp =>
          obtain ⟨n2, hn2mem, hn2p, hn2eq⟩ := findSome?_if_sound
            (fun n => n ≠ (Number.fromNatD traw).toNat ∧ 2 ≤ countByNumber cards n)
            (fun n => n) ranksDesc pp hfh
          obtain ⟨hpp2, hpp14⟩ := bounds_of_mem_ranksDesc n2 hn2mem
          subst hn2eq
          dsimp only
          rw [Number.fromNat?_eq_some pp hpp2 hpp14]
        | none =>
          exact evaluateAfterFullHouseChecked_eq cards h7 hnd
            (some (Number.fromNatD traw)) htokC hq
      | none =>
        have htokC : checkForThreeOfAKind (countByNumber cards) = none := by
          rw [checkForThreeOfAKind, ht]
          rfl
        rw [htokC]
        exact evaluateAfterFullHouseChecked_eq cards h7 hnd none htokC hq

/-- Witness for C10 at the royal flush test hand. -/
theorem evaluateHandChecked_C10_witness :
    royalFlushHand.length = 7 ∧ royalFlushHand.Nodup ∧
    evaluateHandChecked royalFlushHand = some (evaluateHand royalFlushHand) :=
  ⟨by decide, by decide, evaluateHandChecked_C10 royalFlushHand (by decide) (by decide)⟩

section LexCmpLemmas

/-- lexCmp is reflexive. -/
theorem lexCmp_self (l : List Nat) : lexCmp l l = .eq := by
  induction l with
  | nil => rfl
  | cons a t ih =>
    rw [lexCmp, Nat.compare_eq_eq.mpr rfl, ih]
    rfl

/-- lexCmp is antisymmetric under swapping. -/
theorem lexCmp_swap (l1 l2 : List Nat) : lexCmp l1 l2 = (lexCmp l2 l1).swap := by
  induction l1 generalizing l2 with
  | nil => cases l2 <;> rfl
  | cons a t ih =>
    cases l2 with
    | nil => rfl
    | cons b s =>
      rw [lexCmp, lexCmp, ih s,
        show compare a b = (compare b a).swap from Eq.symm (Nat.compare_swap b a)]
      cases compare b a <;> cases lexCmp s t <;> rfl

/-- lexCmp decides equality. -/
theorem lexCmp_eq_iff (l1 l2 : List Nat) : lexCmp l1 l2 = .eq ↔ l1 = l2 := by
  induction l1 generalizing l2 with
  | nil =>
    cases l2 with
    | nil => simp [lexCmp]
    | cons b s => simp [lexCmp]
  | cons a t ih =>
    cases l2 with
    | nil => simp [lexCmp]
    | cons b s =>
      rw [lexCmp]
      constructor
      · intro h
        cases hab : compare a b with
        | lt => rw [hab] at h; exact Ordering.noConfusion h
        | gt => rw [hab] at h; exact Ordering.noConfusion h
        | eq =>
          rw [hab] at h
          have h1 := Nat.compare_eq_eq.mp hab
          have h2 := (ih s).mp (by simpa using h)
          rw [h1, h2]
      · intro h
        injection h with h1 h2
        rw [Nat.compare_eq_eq.mpr h1, (ih s).mpr h2]
        rfl

/-- lexCmp is transitive for strict comparisons. -/
theorem lexCmp_trans (l1 l2 l3 : List Nat) (h12 : lexCmp l1 l2 = .lt)
    (h23 : lexCmp l2 l3 = .lt) : lexCmp l1 l3 = .lt := by
  induction l1 generalizing l2 l3 with
  | nil =>
    cases l3 with
    | nil =>
      cases l2 with
      | nil => exact h12
      | cons b s => exact absurd h23 (by rw [lexCmp]; exact fun h => Ordering.noConfusion h)
    | cons c u => rfl
  | cons a t ih =>
    cases l2 with
    | nil => exact absurd h12 (by rw [lexCmp]; exact fun h => Ordering.noConfusion h)
    | cons b s =>
      cases l3 with
      | nil => exact absurd h23 (by rw [lexCmp]; exact fun h => Ordering.noConfusion h)
      | cons c u =>
        rw [lexCmp] at h12 h23 ⊢
        cases hab : compare a b with
        | gt => rw [hab] at h12; exact Ordering.noConfusion h12
        | lt =>
          have hab' := Nat.compare_eq_lt.mp hab
          cases hbc : compare b c with
          | gt => rw [hbc] at h23; exact Ordering.noConfusion h23
          | lt =>
            have hbc' := Nat.compare_eq_lt.mp hbc
            rw [Nat.compare_eq_lt.mpr (by omega)]
            rfl
          | eq =>
            have hbc' := Nat.compare_eq_eq.mp hbc
            rw [Nat.compare_eq_lt.mpr (by omega)]
            rfl
        | eq =>
          have hab' := Nat.compare_eq_eq.mp hab
          rw [hab] at h12
          cases hbc : compare b c with
          | gt => rw [hbc] at h23; exact Ordering.noConfusion h23
          | lt =>
            have hbc' := Nat.compare_eq_lt.mp hbc
            rw [Nat.compare_eq_lt.mpr (by omega)]
            rfl
          | eq =>
            have hbc' := Nat.compare_eq_eq.mp hbc
            rw [hbc] at h23
            rw [Nat.compare_eq_eq.mpr (by omega)]
            have h12' : lexCmp t s = .lt := h12
            have h23' : lexCmp s u = .lt := h23
            exact ih s u h12' h23'

end LexCmpLemmas

section OrderingHelpers

/-- then with an eq right argument is the identity. -/
theorem then_eq_self (o : Ordering) : o.then Ordering.eq = o := by cases o <;> rfl

/-- then with an eq left argument is the identity. -/
theorem eq_then (o : Ordering) : Ordering.eq.then o = o := rfl

/-- Hand kind discriminants are injective. -/
theorem HandKind.toNat_inj (k1 k2 : HandKind) (h : k1.toNat = k2.toNat) : k1 = k2 := by
  cases k1 <;> cases k2 <;> first | rfl | exact absurd h (by decide)

end OrderingHelpers

section DescListLemmas

/-- Two strictly descending lists with the same members are equal. -/
theorem desc_lists_eq (l1 l2 : List Nat) (h1 : l1.Pairwise (fun a b => a > b))
    (h2 : l2.Pairwise (fun a b => a > b)) (hmem : ∀ x, x ∈ l1 ↔ x ∈ l2) : l1 = l2 := by
  haveI : IsAntisymm Nat (fun a b => a > b) := ⟨fun a b hab hba => by omega⟩
  have hn1 : l1.Nodup := h1.imp fun h => by omega
  have hn2 : l2.Nodup := h2.imp fun h => by omega
  exact List.eq_of_perm_of_sorted ((List.perm_ext_iff_of_nodup hn1 hn2).mpr hmem) h1 h2

end DescListLemmas

section ByteSplitLemmas

/-- Recomposition of a value from its second byte and its low byte. -/
theorem byte_recompose (m : Nat) : (m >>> 8) * 256 + (m &&& 255) = m := by
  have e : (2 : Nat) ^ 8 = 256 := by norm_num
  rw [Nat.shiftRight_eq_div_pow, show (255 : Nat) = 2 ^ 8 - 1 from by norm_num,
    Nat.and_pow_two_sub_one_eq_mod, e]
  omega

/-- Comparing byte-split values byte by byte is comparing the values. -/
theorem compare_byte_split (m1 m2 : Nat) :
    (compare (m1 >>> 8) (m2 >>> 8)).then (compare (m1 &&& 255) (m2 &&& 255)) =
      compare m1 m2 := by
  have e : (2 : Nat) ^ 8 = 256 := by norm_num
  have d1 : m1 >>> 8 = m1 / 256 := by rw [Nat.shiftRight_eq_div_pow, e]
  have d2 : m2 >>> 8 = m2 / 256 := by rw [Nat.shiftRight_eq_div_pow, e]
  have a1 : m1 &&& 255 = m1 % 256 := by
    rw [show (255 : Nat) = 2 ^ 8 - 1 from by norm_num, Nat.and_pow_two_sub_one_eq_mod, e]
  have a2 : m2 &&& 255 = m2 % 256 := by
    rw [show (255 : Nat) = 2 ^ 8 - 1 from by norm_num, Nat.and_pow_two_sub_one_eq_mod, e]
  rw [d1, d2, a1, a2]
  rcases Nat.lt_trichotomy (m1 / 256) (m2 / 256) with h | h | h
  · rw [Nat.compare_eq_lt.mpr h, Nat.compare_eq_lt.mpr (show m1 < m2 by omega)]
    rfl
  · rw [Nat.compare_eq_eq.mpr h, eq_then]
    rcases Nat.lt_trichotomy (m1 % 256) (m2 % 256) with h2 | h2 | h2
    · rw [Nat.compare_eq_lt.mpr h2, Nat.compare_eq_lt.mpr (show m1 < m2 by omega)]
    · rw [Nat.compare_eq_eq.mpr h2, Nat.compare_eq_eq.mpr (show m1 = m2 by omega)]
    · rw [Nat.compare_eq_gt.mpr h2, Nat.compare_eq_gt.mpr (show m2 < m1 by omega)]
  · rw [Nat.compare_eq_gt.mpr h, Nat.compare_eq_gt.mpr (show m2 < m1 by omega)]
    rfl

end ByteSplitLemmas

section DecodeOrderLemmas

/-- Comparing two bitsets whose bits lie in a strictly descending index list is
comparing their descending bit lists lexicographically. -/
theorem filter_testBit_order (L : List Nat) :
    L.Pairwise (fun a b => a > b) →
    ∀ m1 m2 : Nat, (∀ i, m1.testBit i = true → i ∈ L) →
    (∀ i, m2.testBit i = true → i ∈ L) →
    compare m1 m2 =
      lexCmp (L.filter fun x => m1.testBit x) (L.filter fun x => m2.testBit x) := by
  induction L with
  | nil =>
    intro _ m1 m2 h1 h2
    have e1 : m1 = 0 := by
      apply Nat.eq_of_testBit_eq
      intro i
      rw [Nat.zero_testBit]
      by_contra h
      rw [Bool.not_eq_false] at h
      exact absurd (h1 i h) (List.not_mem_nil i)
    have e2 : m2 = 0 := by
      apply Nat.eq_of_testBit_eq
      intro i
      rw [Nat.zero_testBit]
      by_contra h
      rw [Bool.not_eq_false] at h
      exact absurd (h2 i h) (List.not_mem_nil i)
    subst e1
    subst e2
    rfl
  | cons r L ih =>
    intro hL m1 m2 h1 h2
    have hLp : L.Pairwise (fun a b => a > b) := (List.pairwise_cons.mp hL).2
    have hrL : ∀ x ∈ L, r > x := (List.pairwise_cons.mp hL).1
    cases t1 : m1.testBit r with
    | true =>
      cases t2 : m2.testBit r with
      | true =>
        have hb1 : m1 < 2 ^ (r + 1) := by
          apply Nat.lt_pow_two_of_testBit
          intro i hi
          by_contra hbit
          rw [Bool.not_eq_false] at hbit
          rcases List.mem_cons.mp (h1 i hbit) with rfl | hmem
          · omega
          · have := hrL i hmem
            omega
        have hb2 : m2 < 2 ^ (r + 1) := by
          apply Nat.lt_pow_two_of_testBit
          intro i hi
          by_contra hbit
          rw [Bool.not_eq_false] at hbit
          rcases List.mem_cons.mp (h2 i hbit) with rfl | hmem
          · omega
          · have := hrL i hmem
            omega
        have hpow : 2 ^ (r + 1) = 2 ^ r + 2 ^ r := by
          rw [Nat.pow_succ]
          omega
        have key1 : m1 = 2 ^ r + m1 % 2 ^ r := by
          have hge : 2 ^ r ≤ m1 := Nat.testBit_implies_ge t1
          have hlt : m1 - 2 ^ r < 2 ^ r := by omega
          rw [Nat.mod_eq_sub_mod hge, Nat.mod_eq_of_lt hlt]
          omega
        have key2 : m2 = 2 ^ r + m2 % 2 ^ r := by
          have hge : 2 ^ r ≤ m2 := Nat.testBit_implies_ge t2
          have hlt : m2 - 2 ^ r < 2 ^ r := by omega
          rw [Nat.mod_eq_sub_mod hge, Nat.mod_eq_of_lt hlt]
          omega
        have hres1 : ∀ i, (m1 % 2 ^ r).testBit i = true → i ∈ L := by
          intro i hi
          rw [Nat.testBit_mod_two_pow, Bool.and_eq_true, decide_eq_true_eq] at hi
          rcases List.mem_cons.mp (h1 i hi.2) with rfl | hmem
          · omega
          · exact hmem
        have hres2 : ∀ i, (m2 % 2 ^ r).testBit i = true → i ∈ L := by
          intro i hi
          rw [Nat.testBit_mod_two_pow, Bool.and_eq_true, decide_eq_true_eq] at hi
          rcases List.mem_cons.mp (h2 i hi.2) with rfl | hmem
          · omega
          · exact hmem
        have hfil1 : L.filter (fun x => m1.testBit x) =
            L.filter fun x => (m1 % 2 ^ r).testBit x := by
          apply List.filter_congr
          intro x hx
          rw [Nat.testBit_mod_two_pow]
          have hxr : x < r := hrL x hx
          simp [hxr]
        have hfil2 : L.filter (fun x => m2.testBit x) =
            L.filter fun x => (m2 % 2 ^ r).testBit x := by
          apply List.filter_congr
          intro x hx
          rw [Nat.testBit_mod_two_pow]
          have hxr : x < r := hrL x hx
          simp [hxr]
        have hcmp : compare m1 m2 = compare (m1 % 2 ^ r) (m2 % 2 ^ r) := by
          rcases Nat.lt_trichotomy (m1 % 2 ^ r) (m2 % 2 ^ r) with h | h | h
          · rw [Nat.compare_eq_lt.mpr h, Nat.compare_eq_lt.mpr (by omega)]
          · rw [Nat.compare_eq_eq.mpr h, Nat.compare_eq_eq.mpr (by omega)]
          · rw [Nat.compare_eq_gt.mpr h, Nat.compare_eq_gt.mpr (by omega)]
        rw [List.filter_cons, List.filter_cons, if_pos t1, if_pos t2, lexCmp,
          show compare r r = Ordering.eq from Nat.compare_eq_eq.mpr rfl, eq_then,
          hfil1, hfil2, hcmp]
        exact ih hLp _ _ hres1 hres2
      | false =>
        have hge1 : 2 ^ r ≤ m1 := Nat.testBit_implies_ge t1
        have hlt2 : m2 < 2 ^ r := by
          apply Nat.lt_pow_two_of_testBit
          intro i hi
          by_contra hbit
          rw [Bool.not_eq_false] at hbit
          rcases Nat.eq_or_lt_of_le hi with heq | hlt
          · rw [← heq] at hbit
            rw [hbit] at t2
            exact Bool.noConfusion t2
          · rcases List.mem_cons.mp (h2 i hbit) with rfl | hmem
            · omega
            · have := hrL i hmem
              omega
        rw [Nat.compare_eq_gt.mpr (by omega), List.filter_cons, List.filter_cons,
          if_pos t1, if_neg (by simp [t2])]
        cases hf2 : L.filter (fun x => m2.testBit x) with
        | nil => rfl
        | cons b Y =>
          have hbf : b ∈ L.filter fun x => m2.testBit x := by
            rw [hf2]
            exact List.mem_cons_self b Y
          have hbr : b < r := hrL b (List.mem_of_mem_filter hbf)
          rw [lexCmp, Nat.compare_eq_gt.mpr hbr]
          rfl
    | false =>
      cases t2 : m2.testBit r with
      | true =>
        have hge2 : 2 ^ r ≤ m2 := Nat.testBit_implies_ge t2
        have hlt1 : m1 < 2 ^ r := by
          apply Nat.lt_pow_two_of_testBit
          intro i hi
          by_contra hbit
          rw [Bool.not_eq_false] at hbit
          rcases Nat.eq_or_lt_of_le hi with heq | hlt
          · rw [← heq] at hbit
            rw [hbit] at t1
            exact Bool.noConfusion t1
          · rcases List.mem_cons.mp (h1 i hbit) with rfl | hmem
            · omega
            · have := hrL i hmem
              omega
        rw [Nat.compare_eq_lt.mpr (by omega), List.filter_cons, List.filter_cons,
          if_neg (by simp [t1]), if_pos t2]
        cases hf1 : L.filter (fun x => m1.testBit x) with
        | nil => rfl
        | cons b Y =>
          have hbf : b ∈ L.filter fun x => m1.testBit x := by
            rw [hf1]
            exact List.mem_cons_self b Y
          have hbr : b < r := hrL b (List.mem_of_mem_filter hbf)
          rw [lexCmp, Nat.compare_eq_lt.mpr hbr]
          rfl
      | false =>
        have h1' : ∀ i, m1.testBit i = true → i ∈ L := by
          intro i hi
          rcases List.mem_cons.mp (h1 i hi) with rfl | hmem
          · rw [hi] at t1
            exact Bool.noConfusion t1
          · exact hmem
        have h2' : ∀ i, m2.testBit i = true → i ∈ L := by
          intro i hi
          rcases List.mem_cons.mp (h2 i hi) with rfl | hmem
          · rw [hi] at t2
            exact Bool.noConfusion t2
          · exact hmem
        rw [List.filter_cons, List.filter_cons, if_neg (by simp [t1]),
          if_neg (by simp [t2])]
        exact ih hLp m1 m2 h1' h2'

/-- Comparing two rank bitsets is comparing their decoded descending rank
lists lexicographically. -/
theorem decodeMask_order (m1 m2 : Nat)
    (h1 : ∀ i, m1.testBit i = true → 2 ≤ i ∧ i ≤ 14)
    (h2 : ∀ i, m2.testBit i = true → 2 ≤ i ∧ i ≤ 14) :
    compare m1 m2 = lexCmp (decodeMask m1) (decodeMask m2) := by
  rw [decodeMask, decodeMask]
  exact filter_testBit_order ranksDesc ranksDesc_sorted m1 m2
    (fun i hi => mem_ranksDesc_of i (h1 i hi).1 (h1 i hi).2)
    (fun i hi => mem_ranksDesc_of i (h2 i hi).1 (h2 i hi).2)

end DecodeOrderLemmas

section CmpKeyLemmas

/-- The derived comparison of two well-shaped evaluations is the lexicographic
comparison of their canonical readings. -/
theorem cmp_eq_lexCmp_toKey (a b : HandEvaluation) (ha : evalShape a) (hb : evalShape b) :
    a.cmp b = lexCmp (toKey a) (toKey b) := by
  obtain ⟨ka, a0, a1, a2⟩ := a
  obtain ⟨kb, b0, b1, b2⟩ := b
  rw [HandEvaluation.cmp, toKey, toKey, lexCmp]
  dsimp only
  cases hk : compare ka.toNat kb.toNat with
  | lt => rfl
  | gt => rfl
  | eq =>
    have hkk : ka = kb := HandKind.toNat_inj ka kb (Nat.compare_eq_eq.mp hk)
    subst hkk
    rw [eq_then, eq_then]
    cases ka
    case straightFlush =>
      simp only [evalShape] at ha hb
      dsimp only
      rw [ha.1, ha.2, hb.1, hb.2]
      simp only [lexCmp]
      cases compare a0 b0 <;> rfl
    case straight =>
      simp only [evalShape] at ha hb
      dsimp only
      rw [ha.1, ha.2, hb.1, hb.2]
      simp only [lexCmp]
      cases compare a0 b0 <;> rfl
    case fourOfAKind =>
      simp only [evalShape] at ha hb
      dsimp only
      rw [ha, hb]
      simp only [lexCmp]
      cases compare a0 b0 <;> cases compare a1 b1 <;> rfl
    case fullHouse =>
      simp only [evalShape] at ha hb
      dsimp only
      rw [ha, hb]
      simp only [lexCmp]
      cases compare a0 b0 <;> cases compare a1 b1 <;> rfl
    case twoPair =>
      dsimp only
      simp only [lexCmp]
      cases compare a0 b0 <;> cases compare a1 b1 <;> cases compare a2 b2 <;> rfl
    case flush =>
      simp only [evalShape] at ha hb
      obtain ⟨ma, hra, h0a, h1a, h2a⟩ := ha
      obtain ⟨mb, hrb, h0b, h1b, h2b⟩ := hb
      subst h0a; subst h1a; subst h2a; subst h0b; subst h1b; subst h2b
      dsimp only
      rw [byte_recompose ma, byte_recompose mb,
        show compare (0 : Nat) 0 = Ordering.eq from Nat.compare_eq_eq.mpr rfl,
        then_eq_self, compare_byte_split, decodeMask_order ma mb hra hrb]
    case highCard =>
      simp only [evalShape] at ha hb
      obtain ⟨ma, hra, h0a, h1a, h2a⟩ := ha
      obtain ⟨mb, hrb, h0b, h1b, h2b⟩ := hb
      subst h0a; subst h1a; subst h2a; subst h0b; subst h1b; subst h2b
      dsimp only
      rw [byte_recompose ma, byte_recompose mb,
        show compare (0 : Nat) 0 = Ordering.eq from Nat.compare_eq_eq.mpr rfl,
        then_eq_self, compare_byte_split, decodeMask_order ma mb hra hrb]
    case threeOfAKind =>
      simp only [evalShape] at ha hb
      obtain ⟨ma, hra, h1a, h2a⟩ := ha
      obtain ⟨mb, hrb, h1b, h2b⟩ := hb
      subst h1a; subst h2a; subst h1b; subst h2b
      dsimp only
      rw [lexCmp, byte_recompose ma, byte_recompose mb, compare_byte_split,
        decodeMask_order ma mb hra hrb]
    case pair =>
      simp only [evalShape] at ha hb
      obtain ⟨ma, hra, h1a, h2a⟩ := ha
      obtain ⟨mb, hrb, h1b, h2b⟩ := hb
      subst h1a; subst h2a; subst h1b; subst h2b
      dsimp only
      rw [lexCmp, byte_recompose ma, byte_recompose mb, compare_byte_split,
        decodeMask_order ma mb hra hrb]

end CmpKeyLemmas

section LexOrderLemmas

/-- Heads strictly ordered decide the lexicographic comparison. -/
theorem lexCmp_head_lt (a b : Nat) (x y : List Nat) (h : a < b) :
    lexCmp (a :: x) (b :: y) = .lt := by
  rw [lexCmp, Nat.compare_eq_lt.mpr h]
  rfl

/-- Equal heads reduce the lexicographic comparison to the tails. -/
theorem lexCmp_head_eq (a : Nat) (x y : List Nat) :
    lexCmp (a :: x) (a :: y) = lexCmp x y := by
  rw [lexCmp, Nat.compare_eq_eq.mpr rfl, eq_then]

/-- Weak transitivity of the lexicographic order. -/
theorem lexCmp_le_trans (a b c : List Nat) (h1 : lexCmp a b ≠ .gt)
    (h2 : lexCmp b c ≠ .gt) : lexCmp a c ≠ .gt := by
  cases hab : lexCmp a b with
  | gt => exact absurd hab h1
  | eq =>
    rw [(lexCmp_eq_iff a b).mp hab]
    exact h2
  | lt =>
    cases hbc : lexCmp b c with
    | gt => exact absurd hbc h2
    | eq =>
      rw [← (lexCmp_eq_iff b c).mp hbc]
      rw [hab]
      exact fun h => Ordering.noConfusion h
    | lt =>
      rw [lexCmp_trans a b c hab hbc]
      exact fun h => Ordering.noConfusion h

/-- Antisymmetry of the lexicographic order. -/
theorem lexCmp_antisymm (x y : List Nat) (h1 : lexCmp x y ≠ .gt)
    (h2 : lexCmp y x ≠ .gt) : x = y := by
  cases hyx : lexCmp y x with
  | gt => exact absurd hyx h2
  | eq => exact ((lexCmp_eq_iff y x).mp hyx).symm
  | lt =>
    exfalso
    apply h1
    rw [lexCmp_swap x y, hyx]
    rfl

/-- The best-so-far fold never drops below its accumulator. -/
theorem lexFold_acc_le (l : List (List Nat)) (acc : List Nat) :
    lexCmp acc (l.foldl (fun acc v => if lexCmp acc v = .lt then v else acc) acc) ≠ .gt := by
  induction l generalizing acc with
  | nil =>
    rw [List.foldl_nil, lexCmp_self]
    exact fun h => Ordering.noConfusion h
  | cons v t ih =>
    rw [List.foldl_cons]
    have hstep : lexCmp acc (if lexCmp acc v = .lt then v else acc) ≠ .gt := by
      cases h : lexCmp acc v with
      | lt =>
        rw [if_pos rfl, h]
        exact fun hh => Ordering.noConfusion hh
      | eq =>
        rw [if_neg (fun hh => Ordering.noConfusion hh), lexCmp_self]
        exact fun hh => Ordering.noConfusion hh
      | gt =>
        rw [if_neg (fun hh => Ordering.noConfusion hh), lexCmp_self]
        exact fun hh => Ordering.noConfusion hh
    exact lexCmp_le_trans _ _ _ hstep (ih _)

end LexOrderLemmas

section LexFoldLemmas

/-- Every element of the fold list stays at or below the fold result. -/
theorem lexFold_mem_le (l : List (List Nat)) (acc v : List Nat) (hv : v ∈ l) :
    lexCmp v (l.foldl (fun acc v => if lexCmp acc v = .lt then v else acc) acc) ≠ .gt := by
  induction l generalizing acc with
  | nil => exact absurd hv (List.not_mem_nil v)
  | cons a t ih =>
    rw [List.foldl_cons]
    rcases List.mem_cons.mp hv with rfl | hvt
    · have hstep : lexCmp v (if lexCmp acc v = .lt then v else acc) ≠ .gt := by
        cases h : lexCmp acc v with
        | lt =>
          rw [if_pos rfl, lexCmp_self]
          exact fun hh => Ordering.noConfusion hh
        | eq =>
          rw [if_neg (fun hh => Ordering.noConfusion hh)]
          rw [lexCmp_swap, h]
          exact fun hh => Ordering.noConfusion hh
        | gt =>
          rw [if_neg (fun hh => Ordering.noConfusion hh)]
          rw [lexCmp_swap, h]
          exact fun hh => Ordering.noConfusion hh
      exact lexCmp_le_trans _ _ _ hstep (lexFold_acc_le t _)
    · exact ih _ hvt

/-- The fold result is the accumulator or an element of the list. -/
theorem lexFold_attained (l : List (List Nat)) (acc : List Nat) :
    l.foldl (fun acc v => if lexCmp acc v = .lt then v else acc) acc = acc ∨
      l.foldl (fun acc v => if lexCmp acc v = .lt then v else acc) acc ∈ l := by
  induction l generalizing acc with
  | nil => exact Or.inl rfl
  | cons a t ih =>
    rw [List.foldl_cons]
    rcases ih (if lexCmp acc a = .lt then a else acc) with h | h
    · rw [h]
      by_cases hc : lexCmp acc a = .lt
      · rw [if_pos hc]
        exact Or.inr (List.mem_cons_self a t)
      · rw [if_neg hc]
        exact Or.inl rfl
    · exact Or.inr (List.mem_cons_of_mem a h)

/-- The fold from the empty accumulator computes the unique maximum. -/
theorem lexFold_eq (l : List (List Nat)) (K : List Nat) (hK : K ∈ l)
    (hub : ∀ v ∈ l, lexCmp v K ≠ .gt) :
    l.foldl (fun acc v => if lexCmp acc v = .lt then v else acc) [] = K := by
  have h1 := lexFold_mem_le l [] K hK
  rcases lexFold_attained l [] with h | h
  · rw [h] at h1 ⊢
    cases K with
    | nil => rfl
    | cons x xs => exact absurd rfl h1
  · exact lexCmp_antisymm _ _ (hub _ h) h1

end LexFoldLemmas

section Value5Invariance

/-- All pairs of cards of a same-suit hand share the suit. -/
theorem sameSuit_iff (s : List Card) :
    sameSuit s = true ↔ ∀ c ∈ s, ∀ d ∈ s, c.suit = d.suit := by
  cases s with
  | nil => simp [sameSuit]
  | cons c t =>
    rw [sameSuit, List.all_eq_true]
    constructor
    · intro h x hx y hy
      have hc : ∀ z ∈ c :: t, z.suit = c.suit := by
        intro z hz
        rcases List.mem_cons.mp hz with rfl | hzt
        · rfl
        · exact beq_iff_eq.mp (h z hzt)
      rw [hc x hx, hc y hy]
    · intro h d hd
      exact beq_iff_eq.mpr (h d (List.mem_cons_of_mem c hd) c (List.mem_cons_self c t))

/-- sameSuit is invariant under permutation. -/
theorem sameSuit_perm (s1 s2 : List Card) (h : s1.Perm s2) :
    sameSuit s1 = sameSuit s2 := by
  by_cases h1 : sameSuit s1 = true
  · rw [h1]
    symm
    rw [sameSuit_iff]
    intro c hc d hd
    exact (sameSuit_iff s1).mp h1 c (h.mem_iff.mpr hc) d (h.mem_iff.mpr hd)
  · have h2 : ¬ sameSuit s2 = true := fun hh =>
      h1 ((sameSuit_iff s1).mpr fun c hc d hd =>
        (sameSuit_iff s2).mp hh c (h.mem_iff.mp hc) d (h.mem_iff.mp hd))
    rw [Bool.not_eq_true] at h1 h2
    rw [h1, h2]

/-- value5 depends only on the rank counts and the shared-suit flag. -/
theorem value5_congr (s1 s2 : List Card) (hc : countByNumber s1 = countByNumber s2)
    (hs : sameSuit s1 = sameSuit s2) : value5 s1 = value5 s2 := by
  rw [value5, value5]
  simp only [hc, hs]

/-- value5 is invariant under permutation. -/
theorem value5_perm (s1 s2 : List Card) (h : s1.Perm s2) : value5 s1 = value5 s2 :=
  value5_congr s1 s2 (countByNumber_perm s1 s2 h) (sameSuit_perm s1 s2 h)

/-- value7 through subperm witnesses: achieved and never exceeded. -/
theorem value7_eq_of (h : List Card) (K : List Nat)
    (hach : ∃ s, s.Subperm h ∧ s.length = 5 ∧ value5 s = K)
    (hub : ∀ s, s.Subperm h → s.length = 5 → lexCmp (value5 s) K ≠ .gt) :
    value7 h = K := by
  rw [value7]
  apply lexFold_eq
  · obtain ⟨s, hsp, hlen, hval⟩ := hach
    obtain ⟨t, htp, hts⟩ := hsp
    refine List.mem_map.mpr ⟨t, ?_, ?_⟩
    · exact List.mem_sublistsLen.mpr ⟨hts, by rw [htp.length_eq, hlen]⟩
    · rw [value5_perm t s htp, hval]
  · intro v hv
    obtain ⟨t, htmem, hveq⟩ := List.mem_map.mp hv
    obtain ⟨hts, htlen⟩ := List.mem_sublistsLen.mp htmem
    rw [← hveq]
    exact hub t hts.subperm htlen

end Value5Invariance

section ScanMaxLemmas

/-- A first-match scan over a descending list returns the largest match. -/
theorem findSome?_if_sound_max (p : Nat → Prop) [DecidablePred p] (l : List Nat)
    (hl : l.Pairwise (fun a b => a > b)) (v : Nat)
    (h : (l.findSome? fun n => if p n then some n else none) = some v) :
    v ∈ l ∧ p v ∧ ∀ j ∈ l, p j → j ≤ v := by
  induction l with
  | nil => exact absurd h (by rw [List.findSome?_nil]; exact fun hh => Option.noConfusion hh)
  | cons a t ih =>
    rw [List.findSome?_cons] at h
    by_cases hpa : p a
    · rw [if_pos hpa] at h
      injection h with h
      subst h
      refine ⟨List.mem_cons_self a t, hpa, ?_⟩
      intro j hj _
      rcases List.mem_cons.mp hj with rfl | hjt
      · exact Nat.le_refl j
      · exact Nat.le_of_lt ((List.pairwise_cons.mp hl).1 j hjt)
    · rw [if_neg hpa] at h
      obtain ⟨hvt, hpv, hmax⟩ := ih (List.pairwise_cons.mp hl).2 h
      refine ⟨List.mem_cons_of_mem a hvt, hpv, ?_⟩
      intro j hj hpj
      rcases List.mem_cons.mp hj with rfl | hjt
      · exact absurd hpj hpa
      · exact hmax j hjt hpj

/-- A none result of a first-match scan refutes the predicate everywhere. -/
theorem findSome?_if_none (p : Nat → Prop) [DecidablePred p] {β : Type} (g : Nat → β)
    (l : List Nat)
    (h : (l.findSome? fun n => if p n then some (g n) else none) = none) :
    ∀ n ∈ l, ¬ p n := by
  rw [List.findSome?_eq_none_iff] at h
  intro n hn hpn
  have := h n hn
  rw [if_pos hpn] at this
  exact Option.noConfusion this

/-- The rank-count scan result is maximal among ranks with that count. -/
theorem findRankWithCount_sound_max (countN : Nat → Nat) (m k : Nat)
    (h : findRankWithCount countN m = some k) :
    k ∈ ranksDesc ∧ countN k = m ∧ ∀ j ∈ ranksDesc, countN j = m → j ≤ k := by
  rw [findRankWithCount] at h
  exact findSome?_if_sound_max (fun n => countN n = m) ranksDesc ranksDesc_sorted k h

/-- A some result of the straight scan is the highest full window at or below s. -/
theorem checkForStraightGo_sound_max (b s : Nat) (v : Number)
    (h : checkForStraightGo b s = some v) :
    ∃ k, 1 ≤ k ∧ k ≤ s ∧ (b >>> k) &&& 31 = 31 ∧
      (∀ j, k < j → j ≤ s → ¬((b >>> j) &&& 31 = 31)) ∧ v = Number.fromNatD (k + 4) := by
  induction s with
  | zero => exact absurd h (by rw [checkForStraightGo]; exact fun hh => Option.noConfusion hh)
  | succ s ih =>
    rw [checkForStraightGo] at h
    by_cases hw : (b >>> (s + 1)) &&& 31 = 31
    · rw [if_pos hw] at h
      injection h with h
      exact ⟨s + 1, by omega, by omega, hw, fun j hj1 hj2 => by omega, h.symm⟩
    · rw [if_neg hw] at h
      obtain ⟨k, h1, h2, h3, h4, h5⟩ := ih h
      refine ⟨k, h1, by omega, h3, ?_, h5⟩
      intro j hj1 hj2
      rcases Nat.lt_or_ge j (s + 1) with hlt | hge
      · exact h4 j hj1 (by omega)
      · have hj : j = s + 1 := by omega
        rw [hj]
        exact hw

/-- Disjoint predicates count at most the length together. -/
theorem countP_disjoint_le {α : Type} (l : List α) (p q : α → Bool)
    (hdisj : ∀ c, ¬(p c = true ∧ q c = true)) : l.countP p + l.countP q ≤ l.length := by
  induction l with
  | nil => simp
  | cons a t ih =>
    rw [List.countP_cons, List.countP_cons, List.length_cons]
    by_cases hpa : p a = true
    · have hqa : ¬ q a = true := fun hq => hdisj a ⟨hpa, hq⟩
      simp only [hpa, if_pos, Bool.not_eq_true] at *
      rw [if_neg]
      · omega
      · simp [hqa]
    · rw [if_neg (by simpa using hpa)]
      by_cases hqa : q a = true
      · rw [if_pos hqa]
        omega
      · rw [if_neg (by simpa using hqa)]
        omega

end ScanMaxLemmas

section ExtractLemmas

/-- Extraction of n pairwise distinct cards satisfying a predicate from a hand
counting at least n of them. -/
theorem extract_cards (p : Card → Bool) (cards : List Card) (n : Nat)
    (hn : n ≤ cards.countP p) (hnd : cards.Nodup) :
    ∃ t : List Card, t.Sublist cards ∧ t.length = n ∧ (∀ c ∈ t, p c = true) ∧ t.Nodup := by
  refine ⟨(cards.filter p).take n, ?_, ?_, ?_, ?_⟩
  · exact (List.take_sublist n (cards.filter p)).trans (List.filter_sublist cards)
  · rw [List.length_take]
    rw [List.countP_eq_length_filter] at hn
    omega
  · intro c hc
    exact (List.mem_filter.mp (List.mem_of_mem_take hc)).2
  · exact (List.take_sublist n (cards.filter p)).nodup (hnd.filter p)

/-- A single present rank yields a member card of that rank. -/
theorem exists_card_of_testBit (cards : List Card) (r : Nat)
    (h : (numberBitsetOf cards).testBit r = true) : ∃ c ∈ cards, c.number.toNat = r :=
  (testBit_numberBitsetOf cards r).mp h

end ExtractLemmas

section DescDomLemmas

/-- A descending selection from a descending list never beats the prefix of
the same length: taking the top elements is lexicographically optimal. -/
theorem lexCmp_sub_take (X : List Nat) : ∀ (L : List Nat) (k : Nat),
    X.Pairwise (fun a b => a > b) → L.Pairwise (fun a b => a > b) →
    (∀ x ∈ X, x ∈ L) → X.length ≤ k →
    lexCmp X (L.take k) ≠ .gt := by
  induction X with
  | nil =>
    intro L k _ _ _ _
    cases L.take k with
    | nil => rw [lexCmp]; exact fun h => Ordering.noConfusion h
    | cons a t => rw [lexCmp]; exact fun h => Ordering.noConfusion h
  | cons x X ih =>
    intro L k hX hL hsub hk
    cases L with
    | nil => exact absurd (hsub x (List.mem_cons_self x X)) (List.not_mem_nil x)
    | cons a L =>
      have hxa : x ≤ a := by
        rcases List.mem_cons.mp (hsub x (List.mem_cons_self x X)) with rfl | hmem
        · exact Nat.le_refl x
        · exact Nat.le_of_lt ((List.pairwise_cons.mp hL).1 x hmem)
      cases k with
      | zero => exact absurd hk (by rw [List.length_cons]; omega)
      | succ k =>
        rw [List.take_succ_cons]
        rcases Nat.lt_or_eq_of_le hxa with hlt | heq
        · rw [lexCmp_head_lt x a X (L.take k) hlt]
          exact fun h => Ordering.noConfusion h
        · subst heq
          rw [lexCmp_head_eq]
          apply ih L k (List.pairwise_cons.mp hX).2 (List.pairwise_cons.mp hL).2
          · intro y hy
            have hyx : y < x := (List.pairwise_cons.mp hX).1 y hy
            rcases List.mem_cons.mp (hsub y (List.mem_cons_of_mem x hy)) with rfl | hmem
            · omega
            · exact hmem
          · rw [List.length_cons] at hk
            omega

end DescDomLemmas

section CountShapeLemmas

/-- Rank count of a cons. -/
theorem countByNumber_cons (c : Card) (t : List Card) (r : Nat) :
    countByNumber (c :: t) r = countByNumber t r + if c.number.toNat = r then 1 else 0 := by
  rw [countByNumber, countByNumber, List.countP_cons]
  simp

/-- Rank counts add over concatenation. -/
theorem countByNumber_append (s1 s2 : List Card) (r : Nat) :
    countByNumber (s1 ++ s2) r = countByNumber s1 r + countByNumber s2 r := by
  rw [countByNumber, countByNumber, countByNumber, List.countP_append]

/-- Rank counts of a one-rank card list. -/
theorem countByNumber_const (t : List Card) (r : Nat) (hall : ∀ c ∈ t, c.number.toNat = r)
    (r' : Nat) : countByNumber t r' = if r' = r then t.length else 0 := by
  induction t with
  | nil => simp [countByNumber]
  | cons c u ih =>
    rw [countByNumber_cons, ih fun d hd => hall d (List.mem_cons_of_mem c hd)]
    have hc := hall c (List.mem_cons_self c u)
    by_cases h : r' = r
    · subst h
      rw [if_pos rfl, if_pos rfl, if_pos hc, List.length_cons]
    · rw [if_neg h, if_neg h, if_neg (by omega)]

/-- Rank counts are monotone under subpermutation. -/
theorem countByNumber_le_of_subperm (s cards : List Card) (hsp : s.Subperm cards) (r : Nat) :
    countByNumber s r ≤ countByNumber cards r := by
  rw [countByNumber, countByNumber]
  exact hsp.countP_le _

/-- The rank-count sum of a hand list is its length (countP partition). -/
theorem sum_split_mem (l : List Nat) (f : Nat → Nat) (x : Nat) (hnd : l.Nodup)
    (hx : x ∈ l) :
    (l.map f).sum = f x + ((l.filter fun r => decide (r ≠ x)).map f).sum := by
  induction l with
  | nil => exact absurd hx (List.not_mem_nil x)
  | cons a t ih =>
    rcases List.mem_cons.mp hx with rfl | hxt
    · have hnotin : x ∉ t := (List.nodup_cons.mp hnd).1
      rw [List.map_cons, List.sum_cons, List.filter_cons,
        if_neg (by simp)]
      have ht : t.filter (fun r => decide (r ≠ x)) = t := by
        apply List.filter_eq_self.mpr
        intro b hb
        simp only [decide_eq_true_eq]
        exact fun hba => hnotin (hba ▸ hb)
      rw [ht]
    · have hax : a ≠ x := fun h => (List.nodup_cons.mp hnd).1 (h ▸ hxt)
      rw [List.map_cons, List.sum_cons, List.filter_cons, if_pos (by simpa using hax),
        List.map_cons, List.sum_cons, ih (List.nodup_cons.mp hnd).2 hxt]
      omega

/-- Dropping the zero-count entries keeps the count sum. -/
theorem sum_filter_pos (l : List Nat) (f : Nat → Nat) :
    ((l.filter fun r => decide (0 < f r)).map f).sum = (l.map f).sum := by
  induction l with
  | nil => rfl
  | cons a t ih =>
    rw [List.filter_cons, List.map_cons, List.sum_cons]
    by_cases h : 0 < f a
    · rw [if_pos (by simpa using h), List.map_cons, List.sum_cons, ih]
    · rw [if_neg (by simpa using h), ih]
      omega

end CountShapeLemmas

section FilterDescLemmas

/-- A filter over a descending list computes any descending list with the
same membership. -/
theorem filter_desc_eq (L : List Nat) (hL : L.Pairwise (fun a b => a > b))
    (p : Nat → Bool) (R : List Nat) (hR : R.Pairwise (fun a b => a > b))
    (hmem : ∀ x, x ∈ R ↔ (x ∈ L ∧ p x = true)) : L.filter p = R := by
  apply desc_lists_eq _ _ (hL.sublist (List.filter_sublist L)) hR
  intro x
  rw [List.mem_filter, hmem]

end FilterDescLemmas

section RunHighLemmas

/-- A some result of runHigh is a straight run or the wheel. -/
theorem runHigh_eq_some (l : List Nat) (m : Nat) (h : runHigh l = some m) :
    (l = [m, m - 1, m - 2, m - 3, m - 4] ∧ 4 ≤ m) ∨ (l = [14, 5, 4, 3, 2] ∧ m = 5) := by
  rcases l with _ | ⟨a, _ | ⟨b, _ | ⟨c, _ | ⟨d, _ | ⟨e, _ | ⟨f, rest⟩⟩⟩⟩⟩⟩
  · exact absurd h (fun hh => Option.noConfusion hh)
  · exact absurd h (fun hh => Option.noConfusion hh)
  · exact absurd h (fun hh => Option.noConfusion hh)
  · exact absurd h (fun hh => Option.noConfusion hh)
  · exact absurd h (fun hh => Option.noConfusion hh)
  · rw [runHigh] at h
    by_cases h1 : a = b + 1 ∧ b = c + 1 ∧ c = d + 1 ∧ d = e + 1
    · rw [if_pos h1] at h
      injection h with h
      subst h
      left
      obtain ⟨e1, e2, e3, e4⟩ := h1
      refine ⟨?_, by omega⟩
      rw [show b = a - 1 by omega, show c = a - 2 by omega, show d = a - 3 by omega,
        show e = a - 4 by omega]
    · rw [if_neg h1] at h
      by_cases h2 : a = 14 ∧ b = 5 ∧ c = 4 ∧ d = 3 ∧ e = 2
      · rw [if_pos h2] at h
        injection h with h
        subst h
        right
        obtain ⟨e1, e2, e3, e4, e5⟩ := h2
        rw [e1, e2, e3, e4, e5]
        exact ⟨rfl, rfl⟩
      · rw [if_neg h2] at h
        exact absurd h (fun hh => Option.noConfusion hh)
  · exact absurd h (fun hh => Option.noConfusion hh)

/-- runHigh recognizes a descending consecutive run. -/
theorem runHigh_run (e : Nat) : runHigh [e + 4, e + 3, e + 2, e + 1, e] = some (e + 4) := by
  rw [runHigh, if_pos (by omega)]

/-- runHigh recognizes the wheel. -/
theorem runHigh_wheel : runHigh [14, 5, 4, 3, 2] = some 5 := by decide

end RunHighLemmas

section Value5CasesSection

/-- Exhaustive description of a 5-card value: the branch value5 takes together
with the facts that branch certifies. -/
theorem value5_cases (s : List Card) :
    (∃ m, sameSuit s = true ∧ runHigh (presList s) = some m ∧ value5 s = [8, m]) ∨
    (∃ q, countByNumber s q = 4 ∧ q ∈ ranksDesc ∧
      value5 s = 7 :: q :: (presList s).filter fun r => decide (r ≠ q)) ∨
    (∃ t p, countByNumber s t = 3 ∧ countByNumber s p = 2 ∧ t ∈ ranksDesc ∧ p ∈ ranksDesc ∧
      value5 s = [6, t, p]) ∨
    (sameSuit s = true ∧ value5 s = 5 :: presList s) ∨
    (∃ m, runHigh (presList s) = some m ∧ value5 s = [4, m]) ∨
    (∃ t, countByNumber s t = 3 ∧ t ∈ ranksDesc ∧
      value5 s = 3 :: t :: (presList s).filter fun r => decide (r ≠ t)) ∨
    (∃ p1 p2, countByNumber s p1 = 2 ∧ countByNumber s p2 = 2 ∧ p2 < p1 ∧
      p1 ∈ ranksDesc ∧ p2 ∈ ranksDesc ∧
      value5 s = 2 :: p1 :: p2 ::
        (((presList s).filter fun r => decide (r ≠ p1 ∧ r ≠ p2)).take 1)) ∨
    (∃ p, countByNumber s p = 2 ∧ p ∈ ranksDesc ∧
      value5 s = 1 :: p :: (presList s).filter fun r => decide (r ≠ p)) ∨
    (value5 s = 0 :: presList s) := by
  have hmem4 : ∀ x rest,
      ((presList s).filter fun r => decide (countByNumber s r = 4)) = x :: rest →
      countByNumber s x = 4 ∧ x ∈ ranksDesc := by
    intro x rest hx
    have hxm : x ∈ (presList s).filter fun r => decide (countByNumber s r = 4) := by
      rw [hx]
      exact List.mem_cons_self x rest
    refine ⟨by simpa using (List.mem_filter.mp hxm).2, ?_⟩
    have := (List.mem_filter.mp hxm).1
    rw [presList] at this
    exact List.mem_of_mem_filter this
  have hmem3 : ∀ x rest,
      ((presList s).filter fun r => decide (countByNumber s r = 3)) = x :: rest →
      countByNumber s x = 3 ∧ x ∈ ranksDesc := by
    intro x rest hx
    have hxm : x ∈ (presList s).filter fun r => decide (countByNumber s r = 3) := by
      rw [hx]
      exact List.mem_cons_self x rest
    refine ⟨by simpa using (List.mem_filter.mp hxm).2, ?_⟩
    have := (List.mem_filter.mp hxm).1
    rw [presList] at this
    exact List.mem_of_mem_filter this
  have hmem2 : ∀ x, x ∈ ((presList s).filter fun r => decide (countByNumber s r = 2)) →
      countByNumber s x = 2 ∧ x ∈ ranksDesc := by
    intro x hxm
    refine ⟨by simpa using (List.mem_filter.mp hxm).2, ?_⟩
    have := (List.mem_filter.mp hxm).1
    rw [presList] at this
    exact List.mem_of_mem_filter this
  have hpair_desc : ((presList s).filter fun r => decide (countByNumber s r = 2)).Pairwise
      (fun a b => a > b) := by
    apply List.Pairwise.sublist (List.filter_sublist _)
    rw [presList]
    exact List.Pairwise.sublist (List.filter_sublist _) ranksDesc_sorted
  by_cases hss : sameSuit s = true ∧ (runHigh (presList s)).isSome = true
  · left
    obtain ⟨m, hm⟩ := Option.isSome_iff_exists.mp hss.2
    refine ⟨m, hss.1, hm, ?_⟩
    rw [value5]
    rw [show ranksDesc.filter (fun r => decide (0 < countByNumber s r)) = presList s from rfl]
    rw [if_pos hss, hm]
    rfl
  · right
    rw [value5]
    rw [show ranksDesc.filter (fun r => decide (0 < countByNumber s r)) = presList s from rfl]
    rw [if_neg hss]
    cases hq : (presList s).filter fun r => decide (countByNumber s r = 4) with
    | cons q rest =>
      left
      dsimp only
      exact ⟨q, (hmem4 q rest hq).1, (hmem4 q rest hq).2, rfl⟩
    | nil =>
      right
      cases ht : (presList s).filter fun r => decide (countByNumber s r = 3) with
      | cons t tr =>
        cases hp : (presList s).filter fun r => decide (countByNumber s r = 2) with
        | cons p pr =>
          left
          dsimp only
          have hpm := hmem2 p (by rw [hp]; exact List.mem_cons_self p pr)
          exact ⟨t, p, (hmem3 t tr ht).1, hpm.1, (hmem3 t tr ht).2, hpm.2, rfl⟩
        | nil =>
          right
          dsimp only
          by_cases hfl : sameSuit s = true
          · left
            rw [if_pos hfl]
            exact ⟨hfl, rfl⟩
          · right
            rw [if_neg hfl]
            cases hrh : runHigh (presList s) with
            | some m =>
              left
              dsimp only
              exact ⟨m, rfl, rfl⟩
            | none =>
              right
              dsimp only
              left
              exact ⟨t, (hmem3 t tr ht).1, (hmem3 t tr ht).2, rfl⟩
      | nil =>
        cases hp : (presList s).filter fun r => decide (countByNumber s r = 2) with
        | cons p pr =>
          right
          dsimp only
          by_cases hfl : sameSuit s = true
          · left
            rw [if_pos hfl]
            exact ⟨hfl, rfl⟩
          · right
            rw [if_neg hfl]
            cases hrh : runHigh (presList s) with
            | some m =>
              left
              dsimp only
              exact ⟨m, rfl, rfl⟩
            | none =>
              right
              dsimp only
              right
              cases pr with
              | cons p2 pr2 =>
                left
                dsimp only
                have hpm := hmem2 p (by rw [hp]; exact List.mem_cons_self p (p2 :: pr2))
                have hp2m := hmem2 p2 (by
                  rw [hp]
                  exact List.mem_cons_of_mem p (List.mem_cons_self p2 pr2))
                have hlt : p > p2 := by
                  have := hpair_desc
                  rw [hp] at this
                  exact (List.pairwise_cons.mp this).1 p2 (List.mem_cons_self p2 pr2)
                exact ⟨p, p2, hpm.1, hp2m.1, hlt, hpm.2, hp2m.2, rfl⟩
              | nil =>
                right
                left
                dsimp only
                have hpm := hmem2 p (by rw [hp]; exact List.mem_cons_self p [])
                exact ⟨p, hpm.1, hpm.2, rfl⟩
        | nil =>
          right
          dsimp only
          by_cases hfl : sameSuit s = true
          · left
            rw [if_pos hfl]
            exact ⟨hfl, rfl⟩
          · right
            rw [if_neg hfl]
            cases hrh : runHigh (presList s) with
            | some m =>
              left
              dsimp only
              exact ⟨m, rfl, rfl⟩
            | none =>
              right
              dsimp only
              right
              right
              right
              rfl

end Value5CasesSection

section PresListLemmas

/-- Membership in the present-rank list. -/
theorem mem_presList (s : List Card) (x : Nat) :
    x ∈ presList s ↔ x ∈ ranksDesc ∧ 0 < countByNumber s x := by
  rw [presList, List.mem_filter]
  simp

/-- The present-rank list is strictly descending. -/
theorem presList_desc (s : List Card) : (presList s).Pairwise (fun a b => a > b) := by
  rw [presList]
  exact ranksDesc_sorted.sublist (List.filter_sublist _)

/-- The present-rank list has no duplicates. -/
theorem presList_nodup (s : List Card) : (presList s).Nodup :=
  (presList_desc s).imp fun h => by omega

/-- runHigh is none away from 5-element lists. -/
theorem runHigh_eq_none_of_length (l : List Nat) (h : l.length ≠ 5) : runHigh l = none := by
  rcases l with _ | ⟨a, _ | ⟨b, _ | ⟨c, _ | ⟨d, _ | ⟨e, _ | ⟨f, rest⟩⟩⟩⟩⟩⟩
  · rfl
  · rfl
  · rfl
  · rfl
  · rfl
  · exact absurd rfl h
  · rfl

/-- The length of the present-rank list of a membership-described hand. -/
theorem presList_length_eq (s : List Card) (R : List Nat) (hnd : R.Nodup)
    (hmem : ∀ x, x ∈ presList s ↔ x ∈ R) : (presList s).length = R.length :=
  ((List.perm_ext_iff_of_nodup (presList_nodup s) hnd).mpr hmem).length_eq

end PresListLemmas

section Value5ComputationLemmas

/-- value5 of an all-one-suit hand with one card on each rank of R: a straight
flush when R runs, otherwise a flush. -/
theorem value5_eq_singles_suited (s : List Card) (R : List Nat)
    (hRdesc : R.Pairwise (fun a b => a > b)) (hRsub : ∀ x ∈ R, x ∈ ranksDesc)
    (hcnt : ∀ r, countByNumber s r = if r ∈ R then 1 else 0)
    (hss : sameSuit s = true) :
    value5 s = if (runHigh R).isSome then [8, (runHigh R).getD 0] else 5 :: R := by
  have hpres : presList s = R := by
    rw [presList]
    apply filter_desc_eq ranksDesc ranksDesc_sorted _ R hRdesc
    intro x
    constructor
    · intro hx
      refine ⟨hRsub x hx, ?_⟩
      rw [hcnt x, if_pos hx]
      rfl
    · intro ⟨_, hx⟩
      rw [decide_eq_true_eq, hcnt x] at hx
      by_contra hxr
      rw [if_neg hxr] at hx
      omega
  have hflt : ∀ m : Nat, (presList s).filter (fun r => decide (countByNumber s r = m)) = []
      → True := fun _ _ => trivial
  have hempty : ∀ m : Nat, 2 ≤ m →
      (presList s).filter (fun r => decide (countByNumber s r = m)) = [] := by
    intro m hm
    rw [List.filter_eq_nil_iff]
    intro x hx
    rw [hpres] at hx
    rw [hcnt x, if_pos hx]
    simp
    omega
  rw [value5]
  rw [show ranksDesc.filter (fun r => decide (0 < countByNumber s r)) = presList s from rfl]
  by_cases hrh : (runHigh R).isSome = true
  · rw [if_pos ⟨hss, by rw [hpres]; exact hrh⟩, if_pos hrh, hpres]
  · rw [if_neg (by rw [hpres]; exact fun hc => hrh hc.2), if_neg hrh]
    rw [hempty 4 (by omega), hempty 3 (by omega), hempty 2 (by omega)]
    dsimp only
    rw [if_pos hss, hpres]

end Value5ComputationLemmas

section Value5ComputationMore

/-- Count-filter of the present list as an explicit descending list. -/
theorem filter_count_eq (s : List Card) (m : Nat) (R : List Nat)
    (hRdesc : R.Pairwise (fun a b => a > b))
    (hmem : ∀ x, x ∈ R ↔ (x ∈ ranksDesc ∧ 0 < countByNumber s x ∧ countByNumber s x = m)) :
    (presList s).filter (fun r => decide (countByNumber s r = m)) = R := by
  apply filter_desc_eq (presList s) (presList_desc s) _ R hRdesc
  intro x
  rw [mem_presList, hmem]
  constructor
  · intro ⟨h1, h2, h3⟩
    exact ⟨⟨h1, h2⟩, by rw [h3]; exact decide_eq_true rfl⟩
  · intro ⟨⟨h1, h2⟩, h3⟩
    exact ⟨h1, h2, of_decide_eq_true h3⟩

/-- One-exclusion filter of the present list as an explicit descending list. -/
theorem filter_ne_eq (s : List Card) (q : Nat) (R : List Nat)
    (hRdesc : R.Pairwise (fun a b => a > b))
    (hmem : ∀ x, x ∈ R ↔ (x ∈ ranksDesc ∧ 0 < countByNumber s x ∧ x ≠ q)) :
    (presList s).filter (fun r => decide (r ≠ q)) = R := by
  apply filter_desc_eq (presList s) (presList_desc s) _ R hRdesc
  intro x
  rw [mem_presList, hmem]
  constructor
  · intro ⟨h1, h2, h3⟩
    exact ⟨⟨h1, h2⟩, decide_eq_true h3⟩
  · intro ⟨⟨h1, h2⟩, h3⟩
    exact ⟨h1, h2, of_decide_eq_true h3⟩

/-- Two-exclusion filter of the present list as an explicit descending list. -/
theorem filter_ne2_eq (s : List Card) (q1 q2 : Nat) (R : List Nat)
    (hRdesc : R.Pairwise (fun a b => a > b))
    (hmem : ∀ x, x ∈ R ↔ (x ∈ ranksDesc ∧ 0 < countByNumber s x ∧ x ≠ q1 ∧ x ≠ q2)) :
    (presList s).filter (fun r => decide (r ≠ q1 ∧ r ≠ q2)) = R := by
  apply filter_desc_eq (presList s) (presList_desc s) _ R hRdesc
  intro x
  rw [mem_presList, hmem]
  constructor
  · intro ⟨h1, h2, h3, h4⟩
    exact ⟨⟨h1, h2⟩, decide_eq_true ⟨h3, h4⟩⟩
  · intro ⟨⟨h1, h2⟩, h3⟩
    exact ⟨h1, h2, (of_decide_eq_true h3).1, (of_decide_eq_true h3).2⟩

/-- Two distinct cards of one rank rule out a one-suit hand. -/
theorem sameSuit_false_of_two (s : List Card) (c d : Card) (hc : c ∈ s) (hd : d ∈ s)
    (hne : c ≠ d) (hnum : c.number = d.number) : sameSuit s = false := by
  by_contra hss
  rw [Bool.not_eq_false] at hss
  have := (sameSuit_iff s).mp hss c hc d hd
  apply hne
  cases c
  cases d
  simp_all

/-- runHigh of the present list vanishes when the membership list is short. -/
theorem runHigh_presList_none (s : List Card) (R : List Nat) (hnd : R.Nodup)
    (hmem : ∀ x, x ∈ presList s ↔ x ∈ R) (hlen : R.length ≠ 5) :
    runHigh (presList s) = none := by
  apply runHigh_eq_none_of_length
  rw [presList_length_eq s R hnd hmem]
  exact hlen

/-- value5 of a quad-plus-kicker hand. -/
theorem value5_eq_quads (s : List Card) (q k : Nat) (hqr : q ∈ ranksDesc)
    (hkr : k ∈ ranksDesc) (hne : q ≠ k)
    (hcnt : ∀ r, countByNumber s r = if r = q then 4 else if r = k then 1 else 0) :
    value5 s = [7, q, k] := by
  have hcq : countByNumber s q = 4 := by rw [hcnt q, if_pos rfl]
  have hck : countByNumber s k = 1 := by rw [hcnt k, if_neg (fun h => hne h.symm), if_pos rfl]
  have hmemp : ∀ x, x ∈ presList s ↔ x ∈ [q, k] := by
    intro x
    rw [mem_presList]
    constructor
    · intro ⟨h1, h2⟩
      rw [hcnt x] at h2
      by_cases hx1 : x = q
      · rw [hx1]; exact List.mem_cons_self q [k]
      · rw [if_neg hx1] at h2
        by_cases hx2 : x = k
        · rw [hx2]; exact List.mem_cons_of_mem q (List.mem_cons_self k [])
        · rw [if_neg hx2] at h2; omega
    · intro hx
      rcases List.mem_cons.mp hx with rfl | hx
      · exact ⟨hqr, by omega⟩
      · rcases List.mem_cons.mp hx with rfl | hx
        · exact ⟨hkr, by omega⟩
        · exact absurd hx (List.not_mem_nil x)
  have hrh : runHigh (presList s) = none :=
    runHigh_presList_none s [q, k] (by simp [hne]) hmemp (by simp)
  have hq4 : (presList s).filter (fun r => decide (countByNumber s r = 4)) = [q] := by
    apply filter_count_eq
    · simp
    · intro x
      constructor
      · intro hx
        rcases List.mem_cons.mp hx with rfl | hx
        · exact ⟨hqr, by omega, hcq⟩
        · exact absurd hx (List.not_mem_nil x)
      · intro ⟨h1, h2, h3⟩
        rw [hcnt x] at h3
        by_cases hx1 : x = q
        · rw [hx1]; exact List.mem_cons_self q []
        · rw [if_neg hx1] at h3
          by_cases hx2 : x = k
          · rw [if_pos hx2] at h3; omega
          · rw [if_neg hx2] at h3; omega
  have hkick : (presList s).filter (fun r => decide (r ≠ q)) = [k] := by
    apply filter_ne_eq
    · simp
    · intro x
      constructor
      · intro hx
        rcases List.mem_cons.mp hx with rfl | hx
        · exact ⟨hkr, by omega, fun h => hne h.symm⟩
        · exact absurd hx (List.not_mem_nil x)
      · intro ⟨h1, h2, h3⟩
        rw [hcnt x, if_neg h3] at h2
        by_cases hx2 : x = k
        · rw [hx2]; exact List.mem_cons_self k []
        · rw [if_neg hx2] at h2; omega
  rw [value5]
  rw [show ranksDesc.filter (fun r => decide (0 < countByNumber s r)) = presList s from rfl]
  rw [if_neg (by rw [hrh]; exact fun hc => by simpa using hc.2), hq4]
  dsimp only
  rw [hkick]

end Value5ComputationMore

section Value5ComputationRest

/-- Count-filter of the present list is empty when no rank has that count. -/
theorem filter_count_nil (s : List Card) (m : Nat)
    (h : ∀ x ∈ ranksDesc, countByNumber s x ≠ m) :
    (presList s).filter (fun r => decide (countByNumber s r = m)) = [] := by
  rw [List.filter_eq_nil_iff]
  intro x hx
  have hxr := ((mem_presList s x).mp hx).1
  simp [h x hxr]

/-- Hands with one card on each rank of R have R as their present list. -/
theorem presList_eq_of_ones (s : List Card) (R : List Nat)
    (hRdesc : R.Pairwise (fun a b => a > b)) (hRsub : ∀ x ∈ R, x ∈ ranksDesc)
    (hcnt : ∀ r, countByNumber s r = if r ∈ R then 1 else 0) : presList s = R := by
  rw [presList]
  apply filter_desc_eq ranksDesc ranksDesc_sorted _ R hRdesc
  intro x
  constructor
  · intro hx
    refine ⟨hRsub x hx, ?_⟩
    rw [hcnt x, if_pos hx]
    rfl
  · intro ⟨_, hx⟩
    rw [decide_eq_true_eq, hcnt x] at hx
    by_contra hxr
    rw [if_neg hxr] at hx
    omega

/-- value5 of a triple-plus-pair hand. -/
theorem value5_eq_fullhouse (s : List Card) (t p : Nat) (htr : t ∈ ranksDesc)
    (hpr : p ∈ ranksDesc) (hne : t ≠ p)
    (hcnt : ∀ r, countByNumber s r = if r = t then 3 else if r = p then 2 else 0) :
    value5 s = [6, t, p] := by
  have hct : countByNumber s t = 3 := by rw [hcnt t, if_pos rfl]
  have hcp : countByNumber s p = 2 := by rw [hcnt p, if_neg (fun h => hne h.symm), if_pos rfl]
  have hmemp : ∀ x, x ∈ presList s ↔ x ∈ [t, p] := by
    intro x
    rw [mem_presList, hcnt x]
    constructor
    · intro ⟨h1, h2⟩
      simp only [List.mem_cons, List.not_mem_nil, or_false]
      by_contra hcon
      push_neg at hcon
      rw [if_neg hcon.1, if_neg hcon.2] at h2
      omega
    · intro hx
      simp only [List.mem_cons, List.not_mem_nil, or_false] at hx
      rcases hx with rfl | rfl
      · exact ⟨htr, by rw [if_pos rfl]; omega⟩
      · exact ⟨hpr, by rw [if_neg (fun h => hne h.symm), if_pos rfl]; omega⟩
  have hrh : runHigh (presList s) = none :=
    runHigh_presList_none s [t, p] (by simp [hne]) hmemp (by simp)
  have hq4 : (presList s).filter (fun r => decide (countByNumber s r = 4)) = [] := by
    apply filter_count_nil
    intro x _
    rw [hcnt x]
    by_cases h1 : x = t
    · rw [if_pos h1]; omega
    · rw [if_neg h1]
      by_cases h2 : x = p
      · rw [if_pos h2]; omega
      · rw [if_neg h2]; omega
  have h3 : (presList s).filter (fun r => decide (countByNumber s r = 3)) = [t] := by
    apply filter_count_eq
    · simp
    · intro x
      constructor
      · intro hx
        rcases List.mem_cons.mp hx with rfl | hx
        · exact ⟨htr, by omega, hct⟩
        · exact absurd hx (List.not_mem_nil x)
      · intro ⟨h1, h2, hx3⟩
        rw [hcnt x] at hx3
        by_cases hx1 : x = t
        · rw [hx1]; exact List.mem_cons_self t []
        · rw [if_neg hx1] at hx3
          by_cases hx2 : x = p
          · rw [if_pos hx2] at hx3; omega
          · rw [if_neg hx2] at hx3; omega
  have h2p : (presList s).filter (fun r => decide (countByNumber s r = 2)) = [p] := by
    apply filter_count_eq
    · simp
    · intro x
      constructor
      · intro hx
        rcases List.mem_cons.mp hx with rfl | hx
        · exact ⟨hpr, by omega, hcp⟩
        · exact absurd hx (List.not_mem_nil x)
      · intro ⟨h1, h2, hx3⟩
        rw [hcnt x] at hx3
        by_cases hx1 : x = t
        · rw [if_pos hx1] at hx3; omega
        · rw [if_neg hx1] at hx3
          by_cases hx2 : x = p
          · rw [hx2]; exact List.mem_cons_self p []
          · rw [if_neg hx2] at hx3; omega
  rw [value5]
  rw [show ranksDesc.filter (fun r => decide (0 < countByNumber s r)) = presList s from rfl]
  rw [if_neg (by rw [hrh]; exact fun hc => by simpa using hc.2), hq4]
  dsimp only
  rw [h3, h2p]

end Value5ComputationRest

section NodupHelpers

/-- Nodup for a two-element list. -/
theorem nodup_two (a b : Nat) (h : a ≠ b) : ([a, b] : List Nat).Nodup := by simp [h]

/-- Nodup for a three-element list. -/
theorem nodup_three (a b c : Nat) (h1 : a ≠ b) (h2 : a ≠ c) (h3 : b ≠ c) :
    ([a, b, c] : List Nat).Nodup := by simp [h1, h2, h3]

/-- Nodup for a four-element list. -/
theorem nodup_four (a b c d : Nat) (h1 : a ≠ b) (h2 : a ≠ c) (h3 : a ≠ d) (h4 : b ≠ c)
    (h5 : b ≠ d) (h6 : c ≠ d) : ([a, b, c, d] : List Nat).Nodup := by
  simp [h1, h2, h3, h4, h5, h6]

end NodupHelpers

section Value5ComputationRest2

/-- value5 of a triple-plus-two-kickers hand. -/
theorem value5_eq_trips (s : List Card) (t k1 k2 : Nat) (htr : t ∈ ranksDesc)
    (hk1r : k1 ∈ ranksDesc) (hk2r : k2 ∈ ranksDesc) (hne1 : t ≠ k1) (hne2 : t ≠ k2)
    (hk12 : k1 > k2)
    (hcnt : ∀ r, countByNumber s r =
      if r = t then 3 else if r = k1 then 1 else if r = k2 then 1 else 0)
    (hss : sameSuit s = false) :
    value5 s = [3, t, k1, k2] := by
  have hct : countByNumber s t = 3 := by rw [hcnt t, if_pos rfl]
  have hck1 : countByNumber s k1 = 1 := by
    rw [hcnt k1, if_neg (fun h => hne1 h.symm), if_pos rfl]
  have hck2 : countByNumber s k2 = 1 := by
    rw [hcnt k2, if_neg (fun h => hne2 h.symm), if_neg (by omega), if_pos rfl]
  have hmemp : ∀ x, x ∈ presList s ↔ x ∈ [t, k1, k2] := by
    intro x
    rw [mem_presList, hcnt x]
    constructor
    · intro ⟨h1, h2⟩
      simp only [List.mem_cons, List.not_mem_nil, or_false]
      by_contra hcon
      push_neg at hcon
      rw [if_neg hcon.1, if_neg hcon.2.1, if_neg hcon.2.2] at h2
      omega
    · intro hx
      simp only [List.mem_cons, List.not_mem_nil, or_false] at hx
      rcases hx with rfl | rfl | rfl
      · exact ⟨htr, by rw [if_pos rfl]; omega⟩
      · exact ⟨hk1r, by rw [if_neg (fun h => hne1 h.symm), if_pos rfl]; omega⟩
      · exact ⟨hk2r, by
          rw [if_neg (fun h => hne2 h.symm), if_neg (by omega), if_pos rfl]; omega⟩
  have hrh : runHigh (presList s) = none :=
    runHigh_presList_none s [t, k1, k2]
      (nodup_three t k1 k2 hne1 hne2 (by omega)) hmemp (by simp)
  have hq4 : (presList s).filter (fun r => decide (countByNumber s r = 4)) = [] := by
    apply filter_count_nil
    intro x _
    rw [hcnt x]
    by_cases h1 : x = t
    · rw [if_pos h1]; omega
    · rw [if_neg h1]
      by_cases h2 : x = k1
      · rw [if_pos h2]; omega
      · rw [if_neg h2]
        by_cases h3 : x = k2
        · rw [if_pos h3]; omega
        · rw [if_neg h3]; omega
  have h3t : (presList s).filter (fun r => decide (countByNumber s r = 3)) = [t] := by
    apply filter_count_eq
    · simp
    · intro x
      constructor
      · intro hx
        rcases List.mem_cons.mp hx with rfl | hx
        · exact ⟨htr, by omega, hct⟩
        · exact absurd hx (List.not_mem_nil x)
      · intro ⟨h1, h2, hx3⟩
        rw [hcnt x] at hx3
        by_cases hx1 : x = t
        · rw [hx1]; exact List.mem_cons_self t []
        · rw [if_neg hx1] at hx3
          by_cases hx2 : x = k1
          · rw [if_pos hx2] at hx3; omega
          · rw [if_neg hx2] at hx3
            by_cases hx4 : x = k2
            · rw [if_pos hx4] at hx3; omega
            · rw [if_neg hx4] at hx3; omega
  have h2p : (presList s).filter (fun r => decide (countByNumber s r = 2)) = [] := by
    apply filter_count_nil
    intro x _
    rw [hcnt x]
    by_cases h1 : x = t
    · rw [if_pos h1]; omega
    · rw [if_neg h1]
      by_cases h2 : x = k1
      · rw [if_pos h2]; omega
      · rw [if_neg h2]
        by_cases h3 : x = k2
        · rw [if_pos h3]; omega
        · rw [if_neg h3]; omega
  have hkick : (presList s).filter (fun r => decide (r ≠ t)) = [k1, k2] := by
    apply filter_ne_eq
    · simp [hk12]
    · intro x
      constructor
      · intro hx
        simp only [List.mem_cons, List.not_mem_nil, or_false] at hx
        rcases hx with rfl | rfl
        · exact ⟨hk1r, by omega, fun h => hne1 h.symm⟩
        · exact ⟨hk2r, by omega, fun h => hne2 h.symm⟩
      · intro ⟨h1, h2, h3⟩
        rw [hcnt x, if_neg h3] at h2
        by_cases hx2 : x = k1
        · rw [hx2]; exact List.mem_cons_self k1 [k2]
        · rw [if_neg hx2] at h2
          by_cases hx4 : x = k2
          · rw [hx4]; exact List.mem_cons_of_mem k1 (List.mem_cons_self k2 [])
          · rw [if_neg hx4] at h2; omega
  rw [value5]
  rw [show ranksDesc.filter (fun r => decide (0 < countByNumber s r)) = presList s from rfl]
  rw [if_neg (by rw [hrh]; exact fun hc => by simpa using hc.2), hq4]
  dsimp only
  rw [h3t, h2p]
  dsimp only
  rw [if_neg (by rw [hss]; exact fun hc => Bool.noConfusion hc), hrh]
  dsimp only
  rw [hkick]

end Value5ComputationRest2

section Value5ComputationRest3

/-- value5 of a two-pairs-plus-kicker hand. -/
theorem value5_eq_twopair (s : List Card) (p1 p2 k : Nat) (hp1r : p1 ∈ ranksDesc)
    (hp2r : p2 ∈ ranksDesc) (hkr : k ∈ ranksDesc) (h12 : p1 > p2) (hk1 : k ≠ p1)
    (hk2 : k ≠ p2)
    (hcnt : ∀ r, countByNumber s r =
      if r = p1 then 2 else if r = p2 then 2 else if r = k then 1 else 0)
    (hss : sameSuit s = false) :
    value5 s = [2, p1, p2, k] := by
  have hcp1 : countByNumber s p1 = 2 := by rw [hcnt p1, if_pos rfl]
  have hcp2 : countByNumber s p2 = 2 := by rw [hcnt p2, if_neg (by omega), if_pos rfl]
  have hck : countByNumber s k = 1 := by
    rw [hcnt k, if_neg hk1, if_neg hk2, if_pos rfl]
  have hmemp : ∀ x, x ∈ presList s ↔ x ∈ [p1, p2, k] := by
    intro x
    rw [mem_presList, hcnt x]
    constructor
    · intro ⟨h1, h2⟩
      simp only [List.mem_cons, List.not_mem_nil, or_false]
      by_contra hcon
      push_neg at hcon
      rw [if_neg hcon.1, if_neg hcon.2.1, if_neg hcon.2.2] at h2
      omega
    · intro hx
      simp only [List.mem_cons, List.not_mem_nil, or_false] at hx
      rcases hx with rfl | rfl | rfl
      · exact ⟨hp1r, by rw [if_pos rfl]; omega⟩
      · exact ⟨hp2r, by rw [if_neg (by omega), if_pos rfl]; omega⟩
      · exact ⟨hkr, by rw [if_neg hk1, if_neg hk2, if_pos rfl]; omega⟩
  have hrh : runHigh (presList s) = none :=
    runHigh_presList_none s [p1, p2, k]
      (nodup_three p1 p2 k (by omega) (fun h => hk1 h.symm) (fun h => hk2 h.symm))
      hmemp (by simp)
  have hq4 : (presList s).filter (fun r => decide (countByNumber s r = 4)) = [] := by
    apply filter_count_nil
    intro x _
    rw [hcnt x]
    by_cases h1 : x = p1
    · rw [if_pos h1]; omega
    · rw [if_neg h1]
      by_cases h2 : x = p2
      · rw [if_pos h2]; omega
      · rw [if_neg h2]
        by_cases h3 : x = k
        · rw [if_pos h3]; omega
        · rw [if_neg h3]; omega
  have h3t : (presList s).filter (fun r => decide (countByNumber s r = 3)) = [] := by
    apply filter_count_nil
    intro x _
    rw [hcnt x]
    by_cases h1 : x = p1
    · rw [if_pos h1]; omega
    · rw [if_neg h1]
      by_cases h2 : x = p2
      · rw [if_pos h2]; omega
      · rw [if_neg h2]
        by_cases h3 : x = k
        · rw [if_pos h3]; omega
        · rw [if_neg h3]; omega
  have h2p : (presList s).filter (fun r => decide (countByNumber s r = 2)) = [p1, p2] := by
    apply filter_count_eq
    · simp [h12]
    · intro x
      constructor
      · intro hx
        simp only [List.mem_cons, List.not_mem_nil, or_false] at hx
        rcases hx with rfl | rfl
        · exact ⟨hp1r, by omega, hcp1⟩
        · exact ⟨hp2r, by omega, hcp2⟩
      · intro ⟨h1, h2, hx3⟩
        rw [hcnt x] at hx3
        by_cases hx1 : x = p1
        · rw [hx1]; exact List.mem_cons_self p1 [p2]
        · rw [if_neg hx1] at hx3
          by_cases hx2 : x = p2
          · rw [hx2]; exact List.mem_cons_of_mem p1 (List.mem_cons_self p2 [])
          · rw [if_neg hx2] at hx3
            by_cases hx4 : x = k
            · rw [if_pos hx4] at hx3; omega
            · rw [if_neg hx4] at hx3; omega
  have hkick : (presList s).filter (fun r => decide (r ≠ p1 ∧ r ≠ p2)) = [k] := by
    apply filter_ne2_eq
    · simp
    · intro x
      constructor
      · intro hx
        rcases List.mem_cons.mp hx with rfl | hx
        · exact ⟨hkr, by omega, hk1, hk2⟩
        · exact absurd hx (List.not_mem_nil x)
      · intro ⟨h1, h2, h3, h4⟩
        rw [hcnt x, if_neg h3, if_neg h4] at h2
        by_cases hx2 : x = k
        · rw [hx2]; exact List.mem_cons_self k []
        · rw [if_neg hx2] at h2; omega
  rw [value5]
  rw [show ranksDesc.filter (fun r => decide (0 < countByNumber s r)) = presList s from rfl]
  rw [if_neg (by rw [hrh]; exact fun hc => by simpa using hc.2), hq4]
  dsimp only
  rw [h3t, h2p]
  dsimp only
  rw [if_neg (by rw [hss]; exact fun hc => Bool.noConfusion hc), hrh]
  dsimp only
  rw [hkick]
  rfl

end Value5ComputationRest3

section DescHelpers

/-- Descending pairwise order for a two-element list. -/
theorem desc_two (a b : Nat) (h : a > b) : ([a, b] : List Nat).Pairwise (fun x y => x > y) := by
  refine List.pairwise_cons.mpr ⟨?_, List.pairwise_cons.mpr ⟨?_, List.Pairwise.nil⟩⟩
  · intro y hy
    rcases List.mem_cons.mp hy with rfl | hy
    · exact h
    · exact absurd hy (List.not_mem_nil y)
  · intro y hy
    exact absurd hy (List.not_mem_nil y)

/-- Descending pairwise order for a three-element list. -/
theorem desc_three (a b c : Nat) (h1 : a > b) (h2 : b > c) :
    ([a, b, c] : List Nat).Pairwise (fun x y => x > y) := by
  refine List.pairwise_cons.mpr ⟨?_, desc_two b c h2⟩
  intro y hy
  rcases List.mem_cons.mp hy with rfl | hy
  · exact h1
  · rcases List.mem_cons.mp hy with rfl | hy
    · omega
    · exact absurd hy (List.not_mem_nil y)

end DescHelpers

section Value5ComputationRest4

/-- value5 of a pair-plus-three-kickers hand. -/
theorem value5_eq_pair (s : List Card) (p k1 k2 k3 : Nat) (hpr : p ∈ ranksDesc)
    (hk1r : k1 ∈ ranksDesc) (hk2r : k2 ∈ ranksDesc) (hk3r : k3 ∈ ranksDesc)
    (hpk1 : p ≠ k1) (hpk2 : p ≠ k2) (hpk3 : p ≠ k3) (h12 : k1 > k2) (h23 : k2 > k3)
    (hcnt : ∀ r, countByNumber s r =
      if r = p then 2 else if r = k1 then 1 else if r = k2 then 1 else
        if r = k3 then 1 else 0)
    (hss : sameSuit s = false) :
    value5 s = [1, p, k1, k2, k3] := by
  have hcp : countByNumber s p = 2 := by rw [hcnt p, if_pos rfl]
  have hck1 : countByNumber s k1 = 1 := by
    rw [hcnt k1, if_neg (fun h => hpk1 h.symm), if_pos rfl]
  have hck2 : countByNumber s k2 = 1 := by
    rw [hcnt k2, if_neg (fun h => hpk2 h.symm), if_neg (by omega), if_pos rfl]
  have hck3 : countByNumber s k3 = 1 := by
    rw [hcnt k3, if_neg (fun h => hpk3 h.symm), if_neg (by omega), if_neg (by omega),
      if_pos rfl]
  have hmemp : ∀ x, x ∈ presList s ↔ x ∈ [p, k1, k2, k3] := by
    intro x
    rw [mem_presList, hcnt x]
    constructor
    · intro ⟨h1, h2⟩
      simp only [List.mem_cons, List.not_mem_nil, or_false]
      by_contra hcon
      push_neg at hcon
      rw [if_neg hcon.1, if_neg hcon.2.1, if_neg hcon.2.2.1, if_neg hcon.2.2.2] at h2
      omega
    · intro hx
      simp only [List.mem_cons, List.not_mem_nil, or_false] at hx
      rcases hx with rfl | rfl | rfl | rfl
      · exact ⟨hpr, by rw [if_pos rfl]; omega⟩
      · exact ⟨hk1r, by rw [if_neg (fun h => hpk1 h.symm), if_pos rfl]; omega⟩
      · exact ⟨hk2r, by
          rw [if_neg (fun h => hpk2 h.symm), if_neg (by omega), if_pos rfl]; omega⟩
      · exact ⟨hk3r, by
          rw [if_neg (fun h => hpk3 h.symm), if_neg (by omega), if_neg (by omega),
            if_pos rfl]; omega⟩
  have hrh : runHigh (presList s) = none :=
    runHigh_presList_none s [p, k1, k2, k3]
      (nodup_four p k1 k2 k3 hpk1 hpk2 hpk3 (by omega) (by omega) (by omega))
      hmemp (by simp)
  have hq4 : (presList s).filter (fun r => decide (countByNumber s r = 4)) = [] := by
    apply filter_count_nil
    intro x _
    rw [hcnt x]
    by_cases h1 : x = p
    · rw [if_pos h1]; omega
    · rw [if_neg h1]
      by_cases h2 : x = k1
      · rw [if_pos h2]; omega
      · rw [if_neg h2]
        by_cases h3 : x = k2
        · rw [if_pos h3]; omega
        · rw [if_neg h3]
          by_cases h4 : x = k3
          · rw [if_pos h4]; omega
          · rw [if_neg h4]; omega
  have h3t : (presList s).filter (fun r => decide (countByNumber s r = 3)) = [] := by
    apply filter_count_nil
    intro x _
    rw [hcnt x]
    by_cases h1 : x = p
    · rw [if_pos h1]; omega
    · rw [if_neg h1]
      by_cases h2 : x = k1
      · rw [if_pos h2]; omega
      · rw [if_neg h2]
        by_cases h3 : x = k2
        · rw [if_pos h3]; omega
        · rw [if_neg h3]
          by_cases h4 : x = k3
          · rw [if_pos h4]; omega
          · rw [if_neg h4]; omega
  have h2p : (presList s).filter (fun r => decide (countByNumber s r = 2)) = [p] := by
    apply filter_count_eq
    · simp
    · intro x
      constructor
      · intro hx
        rcases List.mem_cons.mp hx with rfl | hx
        · exact ⟨hpr, by omega, hcp⟩
        · exact absurd hx (List.not_mem_nil x)
      · intro ⟨h1, h2, hx3⟩
        rw [hcnt x] at hx3
        by_cases hx1 : x = p
        · rw [hx1]; exact List.mem_cons_self p []
        · rw [if_neg hx1] at hx3
          by_cases hx2 : x = k1
          · rw [if_pos hx2] at hx3; omega
          · rw [if_neg hx2] at hx3
            by_cases hx4 : x = k2
            · rw [if_pos hx4] at hx3; omega
            · rw [if_neg hx4] at hx3
              by_cases hx5 : x = k3
              · rw [if_pos hx5] at hx3; omega
              · rw [if_neg hx5] at hx3; omega
  have hkick : (presList s).filter (fun r => decide (r ≠ p)) = [k1, k2, k3] := by
    apply filter_ne_eq
    · exact desc_three k1 k2 k3 h12 h23
    · intro x
      constructor
      · intro hx
        simp only [List.mem_cons, List.not_mem_nil, or_false] at hx
        rcases hx with rfl | rfl | rfl
        · exact ⟨hk1r, by omega, fun h => hpk1 h.symm⟩
        · exact ⟨hk2r, by omega, fun h => hpk2 h.symm⟩
        · exact ⟨hk3r, by omega, fun h => hpk3 h.symm⟩
      · intro ⟨h1, h2, h3⟩
        rw [hcnt x, if_neg h3] at h2
        by_cases hx2 : x = k1
        · rw [hx2]; exact List.mem_cons_self k1 [k2, k3]
        · rw [if_neg hx2] at h2
          by_cases hx4 : x = k2
          · rw [hx4]
            exact List.mem_cons_of_mem k1 (List.mem_cons_self k2 [k3])
          · rw [if_neg hx4] at h2
            by_cases hx5 : x = k3
            · rw [hx5]
              exact List.mem_cons_of_mem k1 (List.mem_cons_of_mem k2
                (List.mem_cons_self k3 []))
            · rw [if_neg hx5] at h2; omega
  rw [value5]
  rw [show ranksDesc.filter (fun r => decide (0 < countByNumber s r)) = presList s from rfl]
  rw [if_neg (by rw [hrh]; exact fun hc => by simpa using hc.2), hq4]
  dsimp only
  rw [h3t, h2p]
  dsimp only
  rw [if_neg (by rw [hss]; exact fun hc => Bool.noConfusion hc), hrh]
  dsimp only
  rw [hkick]

end Value5ComputationRest4

section Value5ComputationRest5

/-- value5 of an off-suit hand with one card on each rank of R: a straight
when R runs, otherwise a high card. -/
theorem value5_eq_singles_offsuit (s : List Card) (R : List Nat)
    (hRdesc : R.Pairwise (fun a b => a > b)) (hRsub : ∀ x ∈ R, x ∈ ranksDesc)
    (hcnt : ∀ r, countByNumber s r = if r ∈ R then 1 else 0)
    (hss : sameSuit s = false) :
    value5 s = match runHigh R with | some m => [4, m] | none => 0 :: R := by
  have hpres : presList s = R := presList_eq_of_ones s R hRdesc hRsub hcnt
  have hempty : ∀ m : Nat, 2 ≤ m →
      (presList s).filter (fun r => decide (countByNumber s r = m)) = [] := by
    intro m hm
    apply filter_count_nil
    intro x _
    rw [hcnt x]
    by_cases hx : x ∈ R
    · rw [if_pos hx]; omega
    · rw [if_neg hx]; omega
  rw [value5]
  rw [show ranksDesc.filter (fun r => decide (0 < countByNumber s r)) = presList s from rfl]
  rw [if_neg (by rw [hss]; exact fun hc => Bool.noConfusion hc.1)]
  rw [hempty 4 (by omega), hempty 3 (by omega), hempty 2 (by omega)]
  dsimp only
  rw [if_neg (by rw [hss]; exact fun hc => Bool.noConfusion hc), hpres]

/-- value5 of an off-suit straight hand. -/
theorem value5_eq_straight (s : List Card) (R : List Nat) (m : Nat)
    (hRdesc : R.Pairwise (fun a b => a > b)) (hRsub : ∀ x ∈ R, x ∈ ranksDesc)
    (hcnt : ∀ r, countByNumber s r = if r ∈ R then 1 else 0)
    (hss : sameSuit s = false) (hrh : runHigh R = some m) :
    value5 s = [4, m] := by
  rw [value5_eq_singles_offsuit s R hRdesc hRsub hcnt hss, hrh]

/-- value5 of an off-suit no-run hand. -/
theorem value5_eq_high (s : List Card) (R : List Nat)
    (hRdesc : R.Pairwise (fun a b => a > b)) (hRsub : ∀ x ∈ R, x ∈ ranksDesc)
    (hcnt : ∀ r, countByNumber s r = if r ∈ R then 1 else 0)
    (hss : sameSuit s = false) (hrh : runHigh R = none) :
    value5 s = 0 :: R := by
  rw [value5_eq_singles_offsuit s R hRdesc hRsub hcnt hss, hrh]

end Value5ComputationRest5

section BuildHandLemmas

/-- Subpermutations of duplicate-free lists are duplicate-free. -/
theorem nodup_of_subperm (l1 l2 : List Card) (h : l1.Subperm l2) (hnd : l2.Nodup) :
    l1.Nodup := by
  obtain ⟨t, htp, hts⟩ := h
  exact htp.nodup_iff.mp (hts.nodup hnd)

/-- Concatenating two disjoint sublists of a duplicate-free hand is a
subpermutation. -/
theorem subperm_append_of (h : List Card) (t1 t2 : List Card) (hnd : h.Nodup)
    (h1 : t1.Sublist h) (h2 : t2.Sublist h) (hdisj : ∀ c ∈ t1, c ∉ t2) :
    (t1 ++ t2).Subperm h := by
  apply List.Nodup.subperm
  · exact (h1.nodup hnd).append (h2.nodup hnd) hdisj
  · intro c hc
    rcases List.mem_append.mp hc with hc | hc
    · exact h1.subset hc
    · exact h2.subset hc

/-- A subpermutation stays one after consing a fresh member card. -/
theorem subperm_cons_of (h : List Card) (c : Card) (s : List Card) (hnd : h.Nodup)
    (hs : s.Subperm h) (hc : c ∈ h) (hcs : c ∉ s) : (c :: s).Subperm h := by
  apply List.Nodup.subperm
  · exact List.nodup_cons.mpr ⟨hcs, nodup_of_subperm s h hs hnd⟩
  · intro d hd
    rcases List.mem_cons.mp hd with rfl | hd
    · exact hc
    · exact hs.subset hd

/-- Counts of a two-rank-group concatenation. -/
theorem countByNumber_two_groups (t1 t2 : List Card) (q k : Nat)
    (h1 : ∀ c ∈ t1, c.number.toNat = q) (h2 : ∀ c ∈ t2, c.number.toNat = k)
    (hne : q ≠ k) (r : Nat) :
    countByNumber (t1 ++ t2) r =
      if r = q then t1.length else if r = k then t2.length else 0 := by
  rw [countByNumber_append, countByNumber_const t1 q h1 r, countByNumber_const t2 k h2 r]
  by_cases hq : r = q
  · subst hq
    rw [if_pos rfl, if_pos rfl, if_neg hne, Nat.add_zero]
  · rw [if_neg hq, if_neg hq, Nat.zero_add]

/-- Counts of a three-rank-group concatenation. -/
theorem countByNumber_three_groups (t1 t2 t3 : List Card) (a b c : Nat)
    (h1 : ∀ x ∈ t1, x.number.toNat = a) (h2 : ∀ x ∈ t2, x.number.toNat = b)
    (h3 : ∀ x ∈ t3, x.number.toNat = c)
    (hab : a ≠ b) (hac : a ≠ c) (hbc : b ≠ c) (r : Nat) :
    countByNumber (t1 ++ (t2 ++ t3)) r =
      if r = a then t1.length else if r = b then t2.length else
        if r = c then t3.length else 0 := by
  rw [countByNumber_append, countByNumber_const t1 a h1 r,
    countByNumber_two_groups t2 t3 b c h2 h3 hbc r]
  by_cases ha : r = a
  · subst ha
    rw [if_pos rfl, if_pos rfl, if_neg hab, if_neg hac, Nat.add_zero]
  · rw [if_neg ha, if_neg ha, Nat.zero_add]

/-- Two distinct member cards exist in a 2-element duplicate-free list. -/
theorem two_distinct_cards (t : List Card) (hnd : t.Nodup) (hlen : 2 ≤ t.length) :
    ∃ c ∈ t, ∃ d ∈ t, c ≠ d := by
  rcases t with _ | ⟨c, _ | ⟨d, rest⟩⟩
  · exact absurd hlen (by simp)
  · exact absurd hlen (by simp)
  · refine ⟨c, List.mem_cons_self c (d :: rest), d,
      List.mem_cons_of_mem c (List.mem_cons_self d rest), ?_⟩
    intro hcd
    exact (List.nodup_cons.mp hnd).1 (hcd ▸ List.mem_cons_self d rest)

/-- A hand with two cards of one rank is not one-suited. -/
theorem sameSuit_false_of_rank_group (s : List Card) (t : List Card) (q : Nat)
    (hnd : t.Nodup) (hlen : 2 ≤ t.length) (hq : ∀ c ∈ t, c.number.toNat = q)
    (hsub : ∀ c ∈ t, c ∈ s) : sameSuit s = false := by
  obtain ⟨c, hc, d, hd, hcd⟩ := two_distinct_cards t hnd hlen
  exact sameSuit_false_of_two s c d (hsub c hc) (hsub d hd) hcd
    (Number.toNat_injective ((hq c hc).trans (hq d hd).symm))

/-- One card of each rank of R can be chosen from a hand presenting them all,
optionally inside a card predicate. -/
theorem exists_sub_singles (h : List Card) (p : Card → Bool) : ∀ (R : List Nat),
    R.Nodup →
    (∀ x ∈ R, ∃ c ∈ h, p c = true ∧ c.number.toNat = x) →
    ∃ s : List Card, s.Nodup ∧ (∀ c ∈ s, c ∈ h) ∧ s.length = R.length ∧
      (∀ r, countByNumber s r = if r ∈ R then 1 else 0) ∧
      (∀ c ∈ s, p c = true ∧ c.number.toNat ∈ R) := by
  intro R
  induction R with
  | nil =>
    intro _ _
    exact ⟨[], List.nodup_nil, fun c hc => absurd hc (List.not_mem_nil c),
      rfl, fun r => by simp [countByNumber], fun c hc => absurd hc (List.not_mem_nil c)⟩
  | cons x R ih =>
    intro hRnd hR
    obtain ⟨s, hsnd, hsub, hslen, hscnt, hsprop⟩ := ih (List.nodup_cons.mp hRnd).2
      fun y hy => hR y (List.mem_cons_of_mem x hy)
    obtain ⟨c, hch, hcp, hcx⟩ := hR x (List.mem_cons_self x R)
    have hcns : c ∉ s := by
      intro hcs
      have := (hsprop c hcs).2
      rw [hcx] at this
      exact (List.nodup_cons.mp hRnd).1 this
    refine ⟨c :: s, List.nodup_cons.mpr ⟨hcns, hsnd⟩, ?_, ?_, ?_, ?_⟩
    · intro d hd
      rcases List.mem_cons.mp hd with rfl | hd
      · exact hch
      · exact hsub d hd
    · rw [List.length_cons, List.length_cons, hslen]
    · intro r
      rw [countByNumber_cons, hscnt r]
      by_cases hrx : r = x
      · subst hrx
        have hrR : r ∉ R := (List.nodup_cons.mp hRnd).1
        rw [if_neg hrR, if_pos hcx, if_pos (List.mem_cons_self r R)]
      · by_cases hrR : r ∈ R
        · rw [if_pos hrR, if_neg (by rw [hcx]; omega),
            if_pos (List.mem_cons_of_mem x hrR)]
        · rw [if_neg hrR, if_neg (by rw [hcx]; omega),
            if_neg (by
              intro hc
              rcases List.mem_cons.mp hc with hc | hc
              · exact hrx hc
              · exact hrR hc)]
    · intro d hd
      rcases List.mem_cons.mp hd with rfl | hd
      · exact ⟨hcp, by rw [hcx]; exact List.mem_cons_self x R⟩
      · exact ⟨(hsprop d hd).1, List.mem_cons_of_mem x (hsprop d hd).2⟩

end BuildHandLemmas

section UpperBoundHelpers

/-- A strictly smaller head decides the lexicographic comparison downward. -/
theorem lexCmp_ne_gt_of_head_lt (a b : Nat) (x y : List Nat) (h : a < b) :
    lexCmp (a :: x) (b :: y) ≠ .gt := by
  rw [lexCmp_head_lt a b x y h]
  exact fun hh => Ordering.noConfusion hh

/-- A short bounded list never lexicographically beats its single upper bound. -/
theorem lexCmp_le_single (X : List Nat) (k : Nat) (hlen : X.length ≤ 1)
    (hub : ∀ x ∈ X, x ≤ k) : lexCmp X [k] ≠ .gt := by
  rcases X with _ | ⟨x, _ | ⟨y, rest⟩⟩
  · rw [lexCmp]
    exact fun hh => Ordering.noConfusion hh
  · have hx := hub x (List.mem_cons_self x [])
    rcases Nat.lt_or_eq_of_le hx with hlt | heq
    · exact lexCmp_ne_gt_of_head_lt x k [] [] hlt
    · subst heq
      rw [lexCmp_head_eq, lexCmp]
      exact fun hh => Ordering.noConfusion hh
  · exact absurd hlen (by simp)

/-- Membership in a decoded mask. -/
theorem mem_decodeMask (m x : Nat) :
    x ∈ decodeMask m ↔ x ∈ ranksDesc ∧ m.testBit x = true := by
  rw [decodeMask, List.mem_filter]

/-- The decoded mask is strictly descending. -/
theorem decodeMask_desc (m : Nat) : (decodeMask m).Pairwise (fun a b => a > b) := by
  rw [decodeMask]
  exact ranksDesc_sorted.sublist (List.filter_sublist _)

/-- No subset of the hand is a straight flush when every per-suit straight
check fails. -/
theorem no_sf_subset (cards : List Card) (s : List Card)
    (hsub : ∀ c ∈ s, c ∈ cards) (c0 : Card) (hc0 : c0 ∈ s)
    (hss : sameSuit s = true) (m : Nat) (hrh : runHigh (presList s) = some m)
    (hsfnone : ∀ st ∈ suitIdxs, checkForStraight (suitBitsetOf cards st) = none) :
    False := by
  have hsuitmem : c0.suit.toNat ∈ suitIdxs := by
    cases c0.suit <;> decide
  have hbit : ∀ r ∈ presList s, (suitBitsetOf cards c0.suit.toNat).testBit r = true := by
    intro r hr
    obtain ⟨c, hc, hcn⟩ := (countByNumber_pos_iff s r).mp ((mem_presList s r).mp hr).2
    refine (testBit_suitBitsetOf cards c0.suit.toNat r).mpr ⟨c, hsub c hc, ?_, hcn⟩
    rw [(sameSuit_iff s).mp hss c hc c0 hc0]
  have hnone := hsfnone c0.suit.toNat hsuitmem
  rcases runHigh_eq_some (presList s) m hrh with ⟨hlist, hm4⟩ | ⟨hlist, hm5⟩
  · have hmr1 : m ∈ ranksDesc :=
      ((mem_presList s m).mp (by rw [hlist]; exact List.mem_cons_self m _)).1
    have hm4p : m - 4 ∈ presList s := by
      rw [hlist]
      exact List.mem_cons_of_mem _ (List.mem_cons_of_mem _ (List.mem_cons_of_mem _
        (List.mem_cons_of_mem _ (List.mem_cons_self _ _))))
    have hmr2 : m - 4 ∈ ranksDesc := ((mem_presList s (m - 4)).mp hm4p).1
    have hb2 := bounds_of_mem_ranksDesc m hmr1
    have hb3 := bounds_of_mem_ranksDesc (m - 4) hmr2
    have hwin : ∀ i, i < 5 →
        (suitBitsetOf cards c0.suit.toNat).testBit (m - 4 + i) = true := by
      intro i hi
      apply hbit
      rw [hlist]
      simp only [List.mem_cons, List.not_mem_nil, or_false]
      omega
    have hfire := checkForStraight_isSome_of_high (suitBitsetOf cards c0.suit.toNat) m
      (by omega) (by omega) hwin
    rw [hnone] at hfire
    exact Bool.noConfusion hfire
  · have hb : ∀ r ∈ ([14, 5, 4, 3, 2] : List Nat),
        (suitBitsetOf cards c0.suit.toNat).testBit r = true := by
      intro r hr
      apply hbit
      rw [hlist]
      exact hr
    have hfire := checkForStraight_isSome_of_wheel (suitBitsetOf cards c0.suit.toNat)
      (hb 2 (by decide)) (hb 3 (by decide)) (hb 4 (by decide)) (hb 5 (by decide))
      (hb 14 (by decide))
    rw [hnone] at hfire
    exact Bool.noConfusion hfire

/-- The filtered present list is bounded by the corresponding count sum. -/
theorem length_filter_presList_le (s : List Card) (p : Nat → Bool) :
    ((presList s).filter p).length ≤
      ((ranksDesc.filter p).map (countByNumber s)).sum := by
  have h1 : ((presList s).filter p).length ≤
      (((presList s).filter p).map (countByNumber s)).sum :=
    length_le_sum _ _ fun x hx => ((mem_presList s x).mp (List.mem_of_mem_filter hx)).2
  have h2 : ((presList s).filter p).Sublist (ranksDesc.filter p) := by
    rw [presList]
    exact List.Sublist.filter p (List.filter_sublist ranksDesc)
  have h3 := sum_le_sum_of_sublist _ _ (h2.map (countByNumber s))
  omega

/-- The present list is bounded by the hand size. -/
theorem presList_length_le (s : List Card) : (presList s).length ≤ s.length := by
  have h1 : (presList s).length ≤ ((presList s).map (countByNumber s)).sum :=
    length_le_sum _ _ fun x hx => ((mem_presList s x).mp hx).2
  have h2 : ((presList s).map (countByNumber s)).sum = s.length := by
    rw [presList, sum_filter_pos, sum_countByNumber]
  omega

end UpperBoundHelpers

section ClearLowestDecode

/-- Removing the minimum from a strictly descending list drops its last entry. -/
theorem desc_filter_ne_min (L : List Nat) (hL : L.Pairwise (fun a b => a > b)) (t : Nat)
    (htmem : t ∈ L) (htmin : ∀ x ∈ L, t ≤ x) :
    L.filter (fun r => decide (r ≠ t)) = L.take (L.length - 1) := by
  induction L with
  | nil => exact absurd htmem (List.not_mem_nil t)
  | cons x tail ih =>
    cases tail with
    | nil =>
      have hx : t = x := by
        rcases List.mem_cons.mp htmem with rfl | habs
        · rfl
        · exact absurd habs (List.not_mem_nil t)
      subst hx
      rw [List.filter_cons, if_neg (by simp)]
      rfl
    | cons y rest =>
      have hxy : x > y :=
        (List.pairwise_cons.mp hL).1 y (List.mem_cons_self y rest)
      have htx : t ≠ x := by
        intro h
        have := htmin y (List.mem_cons_of_mem x (List.mem_cons_self y rest))
        omega
      have htt : t ∈ y :: rest := by
        rcases List.mem_cons.mp htmem with rfl | ht
        · exact absurd rfl htx
        · exact ht
      rw [List.filter_cons, if_pos (by simpa using fun h => htx h.symm)]
      rw [ih (List.pairwise_cons.mp hL).2 htt
        (fun z hz => htmin z (List.mem_cons_of_mem x hz))]
      have h1 : (x :: y :: rest).length - 1 = rest.length + 1 := by
        rw [List.length_cons, List.length_cons]
        omega
      rw [h1, List.take_succ_cons]
      have h2 : (y :: rest).length - 1 = rest.length := by
        rw [List.length_cons]
        omega
      rw [h2]

/-- Bits survive clearLowest only if set before. -/
theorem testBit_clearLowest_mono (b i : Nat) (h : (clearLowest b).testBit i = true) :
    b.testBit i = true := by
  rw [clearLowest, Nat.testBit_and, Bool.and_eq_true] at h
  exact h.1

/-- Clearing the lowest bit drops the last entry of the decoded mask. -/
theorem decodeMask_clearLowest (b : Nat) (hb : b ≠ 0)
    (hrange : ∀ i, b.testBit i = true → 2 ≤ i ∧ i ≤ 14) :
    decodeMask (clearLowest b) = (decodeMask b).take ((decodeMask b).length - 1) := by
  obtain ⟨t, ht1, ht2, ht3⟩ := clearLowest_spec b hb
  have htr := hrange t ht1
  have hfil : decodeMask (clearLowest b) =
      (decodeMask b).filter (fun r => decide (r ≠ t)) := by
    rw [decodeMask, decodeMask, List.filter_filter]
    apply List.filter_congr
    intro x _
    rw [ht3 x]
    cases hbx : b.testBit x <;> cases hxt : Nat.decEq x t with
    | _ h =>
      first
      | (rw [decide_eq_true h]; simp [h])
      | (rw [decide_eq_false h]; simp [h])
      | simp [h]
  rw [hfil]
  apply desc_filter_ne_min (decodeMask b) (decodeMask_desc b) t
  · exact (mem_decodeMask b t).mpr ⟨mem_ranksDesc_of t htr.1 htr.2, ht1⟩
  · intro x hx
    by_contra hlt
    have := ht2 x (by omega)
    rw [((mem_decodeMask b x).mp hx).2] at this
    exact Bool.noConfusion this

end ClearLowestDecode

section ClearLowestIter

/-- Iterated lowest-bit clearing keeps the top bits: the decoded mask becomes
its own prefix. -/
theorem decodeMask_clearLowest_iter (j : Nat) : ∀ (b : Nat),
    (∀ i, b.testBit i = true → 2 ≤ i ∧ i ≤ 14) → j < (decodeMask b).length →
    decodeMask (clearLowest^[j] b) = (decodeMask b).take ((decodeMask b).length - j) := by
  induction j with
  | zero =>
    intro b _ _
    rw [Function.iterate_zero_apply, Nat.sub_zero, List.take_length]
  | succ j ih =>
    intro b hrange hlt
    have hbne : b ≠ 0 := by
      intro h
      subst h
      have : decodeMask 0 = [] := by
        rw [decodeMask, List.filter_eq_nil_iff]
        intro x _
        rw [Nat.zero_testBit]
        exact fun hh => Bool.noConfusion hh
      rw [this] at hlt
      simp at hlt
    have hstep := decodeMask_clearLowest b hbne hrange
    have hrange2 : ∀ i, (clearLowest b).testBit i = true → 2 ≤ i ∧ i ≤ 14 :=
      fun i hi => hrange i (testBit_clearLowest_mono b i hi)
    have hlen2 : (decodeMask (clearLowest b)).length = (decodeMask b).length - 1 := by
      rw [hstep, List.length_take]
      omega
    rw [Function.iterate_succ_apply]
    rw [ih (clearLowest b) hrange2 (by omega)]
    rw [hstep, List.take_take, List.length_take]
    congr 1
    omega

end ClearLowestIter

section LeafQuads

/-- The canonical 7-card value of a quads hand: no suit straight, rank q
counted four times, k the best other present rank. -/
theorem value7_eq_quads (cards : List Card) (h7 : cards.length = 7) (hnd : cards.Nodup)
    (q k : Nat) (hq4 : countByNumber cards q = 4) (hqr : q ∈ ranksDesc)
    (hkpres : 0 < countByNumber cards k) (hkr : k ∈ ranksDesc) (hkq : k ≠ q)
    (hkmax : ∀ j ∈ ranksDesc, 0 < countByNumber cards j → j ≠ q → j ≤ k)
    (hsfnone : ∀ st ∈ suitIdxs, checkForStraight (suitBitsetOf cards st) = none) :
    value7 cards = [7, q, k] := by
  apply value7_eq_of
  · obtain ⟨t1, ht1sub, ht1len, ht1p, ht1nd⟩ := extract_cards
      (fun c => decide (c.number.toNat = q)) cards 4
      (by rw [countByNumber] at hq4; omega) hnd
    obtain ⟨t2, ht2sub, ht2len, ht2p, ht2nd⟩ := extract_cards
      (fun c => decide (c.number.toNat = k)) cards 1
      (by rw [countByNumber] at hkpres; omega) hnd
    have ht1q : ∀ c ∈ t1, c.number.toNat = q := fun c hc => by simpa using ht1p c hc
    have ht2k : ∀ c ∈ t2, c.number.toNat = k := fun c hc => by simpa using ht2p c hc
    refine ⟨t1 ++ t2, subperm_append_of cards t1 t2 hnd ht1sub ht2sub ?_, ?_, ?_⟩
    · intro c hc1 hc2
      have hcq := ht1q c hc1
      have hck := ht2k c hc2
      omega
    · rw [List.length_append, ht1len, ht2len]
    · exact value5_eq_quads (t1 ++ t2) q k hqr hkr (fun h => hkq h.symm)
        fun r => by
          rw [countByNumber_two_groups t1 t2 q k ht1q ht2k (fun h => hkq h.symm) r,
            ht1len, ht2len]
  · intro s hsp hslen
    have hmono : ∀ r, countByNumber s r ≤ countByNumber cards r :=
      countByNumber_le_of_subperm s cards hsp
    have hsum5 : (ranksDesc.map (countByNumber s)).sum = 5 := by
      rw [sum_countByNumber, hslen]
    rcases value5_cases s with ⟨m, hss, hrh, hval⟩ | ⟨q', hq'4, hq'r, hval⟩ |
      ⟨t', p', _, _, _, _, hval⟩ | ⟨_, hval⟩ | ⟨m, _, hval⟩ | ⟨t', _, _, hval⟩ |
      ⟨p1, p2, _, _, _, _, _, hval⟩ | ⟨p', _, _, hval⟩ | hval
    · exfalso
      have hsne : s ≠ [] := by
        intro h
        rw [h] at hslen
        simp at hslen
      obtain ⟨c0, hc0⟩ := List.exists_mem_of_ne_nil s hsne
      exact no_sf_subset cards s (fun c hc => hsp.subset hc) c0 hc0 hss m hrh hsfnone
    · have hq'q : q' = q := by
        have h1 := hmono q'
        have h2 := countByNumber_le_four cards hnd q'
        by_contra hne
        have := two_le_sum ranksDesc (countByNumber cards) q' q hq'r hqr hne
        rw [sum_countByNumber, h7] at this
        omega
      rw [hq'q] at hq'4 hval
      rw [hval]
      rw [show ([7, q, k] : List Nat) = 7 :: q :: [k] from rfl, lexCmp_head_eq,
        lexCmp_head_eq]
      apply lexCmp_le_single
      · have hs1 := length_filter_presList_le s fun r => decide (r ≠ q)
        have hs2 := sum_split_mem ranksDesc (countByNumber s) q ranksDesc_nodup hqr
        rw [hsum5] at hs2
        omega
      · intro x hx
        have hxp := (mem_presList s x).mp (List.mem_of_mem_filter hx)
        have hxne : x ≠ q := by simpa using (List.mem_filter.mp hx).2
        exact hkmax x hxp.1 (lt_of_lt_of_le hxp.2 (hmono x)) hxne
    · rw [hval]
      exact lexCmp_ne_gt_of_head_lt 6 7 _ _ (by omega)
    · rw [hval]
      exact lexCmp_ne_gt_of_head_lt 5 7 _ _ (by omega)
    · rw [hval]
      exact lexCmp_ne_gt_of_head_lt 4 7 _ _ (by omega)
    · rw [hval]
      exact lexCmp_ne_gt_of_head_lt 3 7 _ _ (by omega)
    · rw [hval]
      exact lexCmp_ne_gt_of_head_lt 2 7 _ _ (by omega)
    · rw [hval]
      exact lexCmp_ne_gt_of_head_lt 1 7 _ _ (by omega)
    · rw [hval]
      exact lexCmp_ne_gt_of_head_lt 0 7 _ _ (by omega)

end LeafQuads

section LeafFullHouse

/-- The canonical 7-card value of a full house hand: no suit straight, no
quads, t the best triple rank, p the best other rank with two cards. -/
theorem value7_eq_fullhouse (cards : List Card) (h7 : cards.length = 7)
    (hnd : cards.Nodup) (t p : Nat)
    (ht3 : countByNumber cards t = 3) (htr : t ∈ ranksDesc)
    (htmax : ∀ j ∈ ranksDesc, countByNumber cards j = 3 → j ≤ t)
    (hp2 : 2 ≤ countByNumber cards p) (hpr : p ∈ ranksDesc) (hpt : p ≠ t)
    (hpmax : ∀ j ∈ ranksDesc, j ≠ t → 2 ≤ countByNumber cards j → j ≤ p)
    (hq4none : ∀ j ∈ ranksDesc, countByNumber cards j ≠ 4)
    (hsfnone : ∀ st ∈ suitIdxs, checkForStraight (suitBitsetOf cards st) = none) :
    value7 cards = [6, t, p] := by
  apply value7_eq_of
  · obtain ⟨t1, ht1sub, ht1len, ht1p, ht1nd⟩ := extract_cards
      (fun c => decide (c.number.toNat = t)) cards 3
      (by rw [countByNumber] at ht3; omega) hnd
    obtain ⟨t2, ht2sub, ht2len, ht2p, ht2nd⟩ := extract_cards
      (fun c => decide (c.number.toNat = p)) cards 2
      (by rw [countByNumber] at hp2; omega) hnd
    have ht1t : ∀ c ∈ t1, c.number.toNat = t := fun c hc => by simpa using ht1p c hc
    have ht2pn : ∀ c ∈ t2, c.number.toNat = p := fun c hc => by simpa using ht2p c hc
    refine ⟨t1 ++ t2, subperm_append_of cards t1 t2 hnd ht1sub ht2sub ?_, ?_, ?_⟩
    · intro c hc1 hc2
      have h1 := ht1t c hc1
      have h2 := ht2pn c hc2
      omega
    · rw [List.length_append, ht1len, ht2len]
    · exact value5_eq_fullhouse (t1 ++ t2) t p htr hpr (fun h => hpt h.symm)
        fun r => by
          rw [countByNumber_two_groups t1 t2 t p ht1t ht2pn (fun h => hpt h.symm) r,
            ht1len, ht2len]
  · intro s hsp hslen
    have hmono : ∀ r, countByNumber s r ≤ countByNumber cards r :=
      countByNumber_le_of_subperm s cards hsp
    rcases value5_cases s with ⟨m, hss, hrh, hval⟩ | ⟨q', hq'4, hq'r, hval⟩ |
      ⟨t', p', ht'3, hp'2, ht'r, hp'r, hval⟩ | ⟨_, hval⟩ | ⟨m, _, hval⟩ |
      ⟨t', _, _, hval⟩ | ⟨p1, p2, _, _, _, _, _, hval⟩ | ⟨p', _, _, hval⟩ | hval
    · exfalso
      have hsne : s ≠ [] := by
        intro h
        rw [h] at hslen
        simp at hslen
      obtain ⟨c0, hc0⟩ := List.exists_mem_of_ne_nil s hsne
      exact no_sf_subset cards s (fun c hc => hsp.subset hc) c0 hc0 hss m hrh hsfnone
    · exfalso
      have h1 := hmono q'
      have h2 := countByNumber_le_four cards hnd q'
      exact hq4none q' hq'r (by omega)
    · have ht'le : t' ≤ t := by
        apply htmax t' ht'r
        have h1 := hmono t'
        have h2 := countByNumber_le_four cards hnd t'
        have h3 := hq4none t' ht'r
        omega
      rw [hval]
      rcases Nat.lt_or_eq_of_le ht'le with hlt | heq
      · rw [show ([6, t, p] : List Nat) = 6 :: t :: [p] from rfl, lexCmp_head_eq]
        exact lexCmp_ne_gt_of_head_lt t' t _ _ hlt
      · rw [heq] at ht'3
        have hp'le : p' ≤ p := by
          apply hpmax p' hp'r
          · intro h
            rw [h] at hp'2
            omega
          · exact le_trans (le_of_eq hp'2.symm) (hmono p')
        rw [heq, show ([6, t, p] : List Nat) = 6 :: t :: [p] from rfl,
          show ([6, t, p'] : List Nat) = 6 :: t :: [p'] from rfl, lexCmp_head_eq,
          lexCmp_head_eq]
        rcases Nat.lt_or_eq_of_le hp'le with hplt | hpeq
        · exact lexCmp_ne_gt_of_head_lt p' p _ _ hplt
        · subst hpeq
          rw [lexCmp_head_eq, lexCmp]
          exact fun hh => Ordering.noConfusion hh
    · rw [hval]
      exact lexCmp_ne_gt_of_head_lt 5 6 _ _ (by omega)
    · rw [hval]
      exact lexCmp_ne_gt_of_head_lt 4 6 _ _ (by omega)
    · rw [hval]
      exact lexCmp_ne_gt_of_head_lt 3 6 _ _ (by omega)
    · rw [hval]
      exact lexCmp_ne_gt_of_head_lt 2 6 _ _ (by omega)
    · rw [hval]
      exact lexCmp_ne_gt_of_head_lt 1 6 _ _ (by omega)
    · rw [hval]
      exact lexCmp_ne_gt_of_head_lt 0 6 _ _ (by omega)

end LeafFullHouse

section MoreSubsetHelpers

/-- For 0/1-valued counts, filtering the positives counts the sum. -/
theorem length_filter_pos_eq_sum (l : List Nat) (f : Nat → Nat)
    (h1 : ∀ x ∈ l, f x ≤ 1) :
    (l.filter fun x => decide (0 < f x)).length = (l.map f).sum := by
  induction l with
  | nil => rfl
  | cons a tl ih =>
    rw [List.filter_cons, List.map_cons, List.sum_cons]
    have ha := h1 a (List.mem_cons_self a tl)
    have iht := ih fun x hx => h1 x (List.mem_cons_of_mem a hx)
    by_cases hfa : 0 < f a
    · rw [if_pos (by simpa using hfa), List.length_cons, iht]
      omega
    · rw [if_neg (by simpa using hfa), iht]
      omega

/-- No subset of the hand is a straight when the whole-hand straight check
fails. -/
theorem no_straight_subset (cards : List Card) (s : List Card)
    (hsub : ∀ c ∈ s, c ∈ cards) (m : Nat) (hrh : runHigh (presList s) = some m)
    (hstnone : checkForStraight (numberBitsetOf cards) = none) : False := by
  have hbit : ∀ r ∈ presList s, (numberBitsetOf cards).testBit r = true := by
    intro r hr
    obtain ⟨c, hc, hcn⟩ := (countByNumber_pos_iff s r).mp ((mem_presList s r).mp hr).2
    exact (testBit_numberBitsetOf cards r).mpr ⟨c, hsub c hc, hcn⟩
  rcases runHigh_eq_some (presList s) m hrh with ⟨hlist, hm4⟩ | ⟨hlist, hm5⟩
  · have hmr1 : m ∈ ranksDesc :=
      ((mem_presList s m).mp (by rw [hlist]; exact List.mem_cons_self m _)).1
    have hm4p : m - 4 ∈ presList s := by
      rw [hlist]
      exact List.mem_cons_of_mem _ (List.mem_cons_of_mem _ (List.mem_cons_of_mem _
        (List.mem_cons_of_mem _ (List.mem_cons_self _ _))))
    have hmr2 : m - 4 ∈ ranksDesc := ((mem_presList s (m - 4)).mp hm4p).1
    have hb2 := bounds_of_mem_ranksDesc m hmr1
    have hb3 := bounds_of_mem_ranksDesc (m - 4) hmr2
    have hwin : ∀ i, i < 5 → (numberBitsetOf cards).testBit (m - 4 + i) = true := by
      intro i hi
      apply hbit
      rw [hlist]
      simp only [List.mem_cons, List.not_mem_nil, or_false]
      omega
    have hfire := checkForStraight_isSome_of_high (numberBitsetOf cards) m
      (by omega) (by omega) hwin
    rw [hstnone] at hfire
    exact Bool.noConfusion hfire
  · have hb : ∀ r ∈ ([14, 5, 4, 3, 2] : List Nat),
        (numberBitsetOf cards).testBit r = true := by
      intro r hr
      apply hbit
      rw [hlist]
      exact hr
    have hfire := checkForStraight_isSome_of_wheel (numberBitsetOf cards)
      (hb 2 (by decide)) (hb 3 (by decide)) (hb 4 (by decide)) (hb 5 (by decide))
      (hb 14 (by decide))
    rw [hstnone] at hfire
    exact Bool.noConfusion hfire

/-- A one-suited 5-card subset forces five cards of that suit in the hand. -/
theorem no_flush_subset (cards : List Card) (s : List Card) (hsp : s.Subperm cards)
    (hslen : s.length = 5) (hss : sameSuit s = true)
    (hflnone : ∀ st ∈ suitIdxs, countBySuit cards st < 5) : False := by
  have hsne : s ≠ [] := by
    intro h
    rw [h] at hslen
    simp at hslen
  obtain ⟨c0, hc0⟩ := List.exists_mem_of_ne_nil s hsne
  have hsuitmem : c0.suit.toNat ∈ suitIdxs := by
    cases c0.suit <;> decide
  have hall : ∀ c ∈ s, (fun c => decide (c.suit.toNat = c0.suit.toNat)) c = true := by
    intro c hc
    simp only [decide_eq_true_eq]
    rw [(sameSuit_iff s).mp hss c hc c0 hc0]
  have h5 : s.countP (fun c => decide (c.suit.toNat = c0.suit.toNat)) = 5 := by
    rw [List.countP_eq_length.mpr hall, hslen]
  have hle := hsp.countP_le fun c => decide (c.suit.toNat = c0.suit.toNat)
  have := hflnone c0.suit.toNat hsuitmem
  rw [countBySuit] at this
  omega

end MoreSubsetHelpers

section LeafTrips

/-- The canonical 7-card value of a trips hand: no suit straight, no flush,
no whole-hand straight, rank t counted three times, every other rank at most
once; the kickers are the top two remaining ranks. -/
theorem value7_eq_trips (cards : List Card) (h7 : cards.length = 7) (hnd : cards.Nodup)
    (t : Nat) (ht3 : countByNumber cards t = 3) (htr : t ∈ ranksDesc)
    (hone : ∀ j ∈ ranksDesc, j ≠ t → countByNumber cards j ≤ 1)
    (hsfnone : ∀ st ∈ suitIdxs, checkForStraight (suitBitsetOf cards st) = none)
    (hflnone : ∀ st ∈ suitIdxs, countBySuit cards st < 5)
    (hstnone : checkForStraight (numberBitsetOf cards) = none) :
    value7 cards = 3 :: t ::
      ((decodeMask (numberBitsetOf cards)).filter fun r => decide (r ≠ t)).take 2 := by
  have hmemL : ∀ x, x ∈ ((decodeMask (numberBitsetOf cards)).filter
      fun r => decide (r ≠ t)) ↔
      (x ∈ ranksDesc ∧ 0 < countByNumber cards x ∧ x ≠ t) := by
    intro x
    rw [List.mem_filter, mem_decodeMask, testBit_numberBitsetOf_iff_count]
    simp only [decide_eq_true_eq]
    tauto
  have hdescL : ((decodeMask (numberBitsetOf cards)).filter
      fun r => decide (r ≠ t)).Pairwise (fun a b => a > b) :=
    (decodeMask_desc _).sublist (List.filter_sublist _)
  have hsum : ((ranksDesc.filter fun r => decide (r ≠ t)).map
      (countByNumber cards)).sum = 4 := by
    have hs2 := sum_split_mem ranksDesc (countByNumber cards) t ranksDesc_nodup htr
    rw [sum_countByNumber, h7, ht3] at hs2
    omega
  have hlenL : ((decodeMask (numberBitsetOf cards)).filter
      fun r => decide (r ≠ t)).length = 4 := by
    have heql : ((decodeMask (numberBitsetOf cards)).filter fun r => decide (r ≠ t)) =
        ((ranksDesc.filter fun r => decide (r ≠ t)).filter
          fun r => decide (0 < countByNumber cards r)) := by
      apply desc_lists_eq _ _ hdescL
      · exact (ranksDesc_sorted.sublist (List.filter_sublist _)).sublist
          (List.filter_sublist _)
      · intro x
        rw [hmemL, List.mem_filter, List.mem_filter]
        simp only [decide_eq_true_eq]
        tauto
    rw [heql, length_filter_pos_eq_sum _ _ (fun x hx => hone x
      (List.mem_of_mem_filter hx) (by simpa using (List.mem_filter.mp hx).2)), hsum]
  obtain ⟨k1, k2, k3, k4, hL⟩ : ∃ a b c d,
      ((decodeMask (numberBitsetOf cards)).filter fun r => decide (r ≠ t)) =
        [a, b, c, d] := by
    rcases hLs : ((decodeMask (numberBitsetOf cards)).filter fun r => decide (r ≠ t))
      with _ | ⟨a, _ | ⟨b, _ | ⟨c, _ | ⟨d, _ | ⟨e, rest⟩⟩⟩⟩⟩ <;>
      rw [hLs] at hlenL <;> simp_all
  have hk1 := (hmemL k1).mp (by rw [hL]; exact List.mem_cons_self _ _)
  have hk2 := (hmemL k2).mp (by
    rw [hL]
    exact List.mem_cons_of_mem _ (List.mem_cons_self _ _))
  have hk12 : k1 > k2 := by
    rw [hL] at hdescL
    exact (List.pairwise_cons.mp hdescL).1 k2 (List.mem_cons_self _ _)
  apply value7_eq_of
  · obtain ⟨t1, ht1sub, ht1len, ht1p, ht1nd⟩ := extract_cards
      (fun c => decide (c.number.toNat = t)) cards 3
      (by rw [countByNumber] at ht3; omega) hnd
    obtain ⟨t2, ht2sub, ht2len, ht2p, ht2nd⟩ := extract_cards
      (fun c => decide (c.number.toNat = k1)) cards 1
      (by rw [countByNumber] at hk1; omega) hnd
    obtain ⟨t3, ht3sub, ht3len, ht3p, ht3nd⟩ := extract_cards
      (fun c => decide (c.number.toNat = k2)) cards 1
      (by rw [countByNumber] at hk2; omega) hnd
    have ht1t : ∀ c ∈ t1, c.number.toNat = t := fun c hc => by simpa using ht1p c hc
    have ht2k : ∀ c ∈ t2, c.number.toNat = k1 := fun c hc => by simpa using ht2p c hc
    have ht3k : ∀ c ∈ t3, c.number.toNat = k2 := fun c hc => by simpa using ht3p c hc
    have hsub23 : (t2 ++ t3).Sublist cards → True := fun _ => trivial
    have hsp : (t1 ++ (t2 ++ t3)).Subperm cards := by
      apply List.Nodup.subperm
      · refine (ht1sub.nodup hnd).append ((ht2sub.nodup hnd).append (ht3sub.nodup hnd)
          ?_) ?_
        · intro c hc2 hc3
          have h1 := ht2k c hc2
          have h2 := ht3k c hc3
          omega
        · intro c hc1 hc23
          have h1 := ht1t c hc1
          rcases List.mem_append.mp hc23 with hc | hc
          · have := ht2k c hc
            have := hk1.2.2
            omega
          · have := ht3k c hc
            have := hk2.2.2
            omega
      · intro c hc
        rcases List.mem_append.mp hc with hc | hc
        · exact ht1sub.subset hc
        · rcases List.mem_append.mp hc with hc | hc
          · exact ht2sub.subset hc
          · exact ht3sub.subset hc
    refine ⟨t1 ++ (t2 ++ t3), hsp, ?_, ?_⟩
    · rw [List.length_append, List.length_append, ht1len, ht2len, ht3len]
    · rw [show ((decodeMask (numberBitsetOf cards)).filter
          fun r => decide (r ≠ t)).take 2 = [k1, k2] from by rw [hL]; rfl]
      refine value5_eq_trips (t1 ++ (t2 ++ t3)) t k1 k2 htr hk1.1 hk2.1
        (fun h => hk1.2.2 h.symm) (fun h => hk2.2.2 h.symm) hk12 ?_ ?_
      · intro r
        rw [countByNumber_three_groups t1 t2 t3 t k1 k2 ht1t ht2k ht3k
          (fun h => hk1.2.2 h.symm) (fun h => hk2.2.2 h.symm) (by omega) r,
          ht1len, ht2len, ht3len]
      · exact sameSuit_false_of_rank_group (t1 ++ (t2 ++ t3)) t1 t ht1nd
          (by rw [ht1len]; omega) ht1t fun c hc => List.mem_append_left _ hc
  · intro s hsp hslen
    have hmono : ∀ r, countByNumber s r ≤ countByNumber cards r :=
      countByNumber_le_of_subperm s cards hsp
    have hsum5 : (ranksDesc.map (countByNumber s)).sum = 5 := by
      rw [sum_countByNumber, hslen]
    rcases value5_cases s with ⟨m, hss, hrh, hval⟩ | ⟨q', hq'4, hq'r, hval⟩ |
      ⟨t', p', ht'3, hp'2, ht'r, hp'r, hval⟩ | ⟨hss, hval⟩ | ⟨m, hrh, hval⟩ |
      ⟨t', ht'3, ht'r, hval⟩ | ⟨p1, p2, _, _, _, _, _, hval⟩ | ⟨p', _, _, hval⟩ | hval
    · exfalso
      have hsne : s ≠ [] := by
        intro h
        rw [h] at hslen
        simp at hslen
      obtain ⟨c0, hc0⟩ := List.exists_mem_of_ne_nil s hsne
      exact no_sf_subset cards s (fun c hc => hsp.subset hc) c0 hc0 hss m hrh hsfnone
    · exfalso
      have h1 := hmono q'
      by_cases hq't : q' = t
      · rw [hq't] at h1 hq'4
        omega
      · have := hone q' hq'r hq't
        omega
    · exfalso
      have h1 := hmono t'
      have h2 := hmono p'
      have hne : t' ≠ p' := by
        intro h
        rw [h] at ht'3
        omega
      by_cases ht't : t' = t
      · have hp't : p' ≠ t := by rw [← ht't]; exact fun h => hne h.symm
        have := hone p' hp'r hp't
        omega
      · have := hone t' ht'r ht't
        omega
    · exact (no_flush_subset cards s hsp hslen hss hflnone).elim
    · exfalso
      exact no_straight_subset cards s (fun c hc => hsp.subset hc) m hrh hstnone
    · have ht't : t' = t := by
        have h1 := hmono t'
        by_cases h : t' = t
        · exact h
        · have := hone t' ht'r h
          omega
      rw [ht't] at ht'3 hval
      rw [hval, lexCmp_head_eq, lexCmp_head_eq]
      apply lexCmp_sub_take _ _ 2
      · exact (presList_desc s).sublist (List.filter_sublist _)
      · exact hdescL
      · intro x hx
        have hxp := (mem_presList s x).mp (List.mem_of_mem_filter hx)
        have hxne : x ≠ t := by simpa using (List.mem_filter.mp hx).2
        exact (hmemL x).mpr ⟨hxp.1, lt_of_lt_of_le hxp.2 (hmono x), hxne⟩
      · have hs1 := length_filter_presList_le s fun r => decide (r ≠ t)
        have hs2 := sum_split_mem ranksDesc (countByNumber s) t ranksDesc_nodup htr
        rw [hsum5, ht'3] at hs2
        omega
    · rw [hval]
      exact lexCmp_ne_gt_of_head_lt 2 3 _ _ (by omega)
    · rw [hval]
      exact lexCmp_ne_gt_of_head_lt 1 3 _ _ (by omega)
    · rw [hval]
      exact lexCmp_ne_gt_of_head_lt 0 3 _ _ (by omega)

end LeafTrips

section WindowOfRun

/-- A running present-rank list of a subset makes a 5-bit window in any bitset
holding the subset ranks. -/
theorem window_of_run (b : Nat) (s : List Card) (m : Nat)
    (hbit : ∀ r ∈ presList s, b.testBit r = true)
    (hrh : runHigh (presList s) = some m) :
    5 ≤ m ∧ m ≤ 14 ∧ ((dupAce b) >>> (m - 4)) &&& 31 = 31 := by
  rcases runHigh_eq_some (presList s) m hrh with ⟨hlist, hm4⟩ | ⟨hlist, hm5⟩
  · have hmr1 : m ∈ ranksDesc :=
      ((mem_presList s m).mp (by rw [hlist]; exact List.mem_cons_self m _)).1
    have hm4p : m - 4 ∈ presList s := by
      rw [hlist]
      exact List.mem_cons_of_mem _ (List.mem_cons_of_mem _ (List.mem_cons_of_mem _
        (List.mem_cons_of_mem _ (List.mem_cons_self _ _))))
    have hmr2 : m - 4 ∈ ranksDesc := ((mem_presList s (m - 4)).mp hm4p).1
    have hb2 := bounds_of_mem_ranksDesc m hmr1
    have hb3 := bounds_of_mem_ranksDesc (m - 4) hmr2
    refine ⟨by omega, by omega, ?_⟩
    rw [window_iff]
    intro i hi
    rw [testBit_dupAce_ge_two _ _ (by omega)]
    apply hbit
    rw [hlist]
    simp only [List.mem_cons, List.not_mem_nil, or_false]
    omega
  · have hball : ∀ r ∈ ([14, 5, 4, 3, 2] : List Nat), b.testBit r = true := by
      intro r hr
      apply hbit
      rw [hlist]
      exact hr
    refine ⟨by omega, by omega, ?_⟩
    rw [window_iff]
    intro i hi
    rw [show m - 4 = 1 from by omega, testBit_dupAce]
    interval_cases i <;>
      simp [hball 2 (by decide), hball 3 (by decide), hball 4 (by decide),
        hball 5 (by decide), hball 14 (by decide)]

end WindowOfRun

section SuitPopcount

/-- Rank partition of any card count. -/
theorem sum_countP_by_rank (cards : List Card) (p : Card → Bool) :
    (ranksDesc.map fun n =>
      cards.countP fun c => p c && decide (c.number.toNat = n)).sum = cards.countP p := by
  induction cards with
  | nil =>
    rw [List.countP_nil]
    have hz : (ranksDesc.map fun n =>
        List.countP (fun c => p c && decide (c.number.toNat = n)) []).sum =
        (ranksDesc.map fun _ => 0).sum := rfl
    rw [hz]
    simp
  | cons c t ih =>
    have hsplit : ∀ n, List.countP (fun d => p d && decide (d.number.toNat = n)) (c :: t) =
        List.countP (fun d => p d && decide (d.number.toNat = n)) t +
          if p c && decide (c.number.toNat = n) then 1 else 0 := by
      intro n
      rw [List.countP_cons]
    calc (ranksDesc.map fun n =>
          List.countP (fun d => p d && decide (d.number.toNat = n)) (c :: t)).sum
        = (ranksDesc.map fun n =>
            List.countP (fun d => p d && decide (d.number.toNat = n)) t +
              if p c && decide (c.number.toNat = n) then 1 else 0).sum := by
          congr 1
          exact List.map_congr_left fun n _ => hsplit n
      _ = (ranksDesc.map fun n =>
            List.countP (fun d => p d && decide (d.number.toNat = n)) t).sum +
            (ranksDesc.map fun n =>
              if p c && decide (c.number.toNat = n) then 1 else 0).sum :=
          sum_map_add ranksDesc _ _
      _ = t.countP p + if p c then 1 else 0 := by
          rw [ih]
          congr 1
          by_cases hpc : p c = true
          · have he : (ranksDesc.map fun n =>
                if p c && decide (c.number.toNat = n) then 1 else 0) =
                ranksDesc.map fun n => if c.number.toNat = n then 1 else 0 := by
              apply List.map_congr_left
              intro n _
              rw [hpc]
              simp
            rw [he, sum_indicator_one c.number.toNat ranksDesc (by decide)
              c.number.toNat_mem_ranksDesc, if_pos hpc]
          · have he : (ranksDesc.map fun n =>
                if p c && decide (c.number.toNat = n) then 1 else 0) =
                ranksDesc.map fun _ => 0 := by
              apply List.map_congr_left
              intro n _
              rw [Bool.not_eq_true] at hpc
              rw [hpc]
              simp
            rw [he, if_neg (by simpa using hpc)]
            simp
      _ = (c :: t).countP p := by
          rw [List.countP_cons]

/-- A duplicate-free hand has at most one card of a given suit and rank. -/
theorem countP_suit_number_le_one (cards : List Card) (hnd : cards.Nodup) (σ r : Nat) :
    cards.countP (fun c => decide (c.suit.toNat = σ) && decide (c.number.toNat = r)) ≤ 1 := by
  rw [List.countP_eq_length_filter]
  rcases hf : cards.filter
      (fun c => decide (c.suit.toNat = σ) && decide (c.number.toNat = r)) with _ | ⟨c, _ | ⟨d, rest⟩⟩
  · rw [hf]
    simp
  · rw [hf]
    simp
  · exfalso
    have hcd : c ≠ d := by
      have hnf := hnd.filter
        (fun c => decide (c.suit.toNat = σ) && decide (c.number.toNat = r))
      rw [hf] at hnf
      intro h
      exact (List.nodup_cons.mp hnf).1 (h ▸ List.mem_cons_self d rest)
    have hcm : c ∈ cards.filter
        (fun c => decide (c.suit.toNat = σ) && decide (c.number.toNat = r)) := by
      rw [hf]
      exact List.mem_cons_self _ _
    have hdm : d ∈ cards.filter
        (fun c => decide (c.suit.toNat = σ) && decide (c.number.toNat = r)) := by
      rw [hf]
      exact List.mem_cons_of_mem _ (List.mem_cons_self _ _)
    have hc2 := (List.mem_filter.mp hcm).2
    have hd2 := (List.mem_filter.mp hdm).2
    simp only [Bool.and_eq_true, decide_eq_true_eq] at hc2 hd2
    apply hcd
    have hsuit : c.suit = d.suit := Suit.toNatInjective (hc2.1.trans hd2.1.symm)
    have hnum : c.number = d.number := Number.toNat_injective (hc2.2.trans hd2.2.symm)
    cases c
    cases d
    simp_all

/-- The decoded per-suit bitset lists exactly as many ranks as the suit has
cards. -/
theorem decodeMask_suitBitset_length (cards : List Card) (σ : Nat) (hnd : cards.Nodup) :
    (decodeMask (suitBitsetOf cards σ)).length = countBySuit cards σ := by
  have hsum := sum_countP_by_rank cards fun c => decide (c.suit.toNat = σ)
  have hterm : ∀ n ∈ ranksDesc,
      cards.countP (fun c => decide (c.suit.toNat = σ) && decide (c.number.toNat = n)) =
        if (suitBitsetOf cards σ).testBit n then 1 else 0 := by
    intro n _
    have hle := countP_suit_number_le_one cards hnd σ n
    by_cases hb : (suitBitsetOf cards σ).testBit n = true
    · rw [if_pos hb]
      obtain ⟨c, hc, hcs, hcn⟩ := (testBit_suitBitsetOf cards σ n).mp hb
      have hpos : 0 < cards.countP
          (fun c => decide (c.suit.toNat = σ) && decide (c.number.toNat = n)) := by
        rw [List.countP_pos_iff]
        exact ⟨c, hc, by simp [hcs, hcn]⟩
      omega
    · rw [if_neg hb]
      by_contra hpos
      have : 0 < cards.countP
          (fun c => decide (c.suit.toNat = σ) && decide (c.number.toNat = n)) := by omega
      rw [List.countP_pos_iff] at this
      obtain ⟨c, hc, hcp⟩ := this
      simp only [Bool.and_eq_true, decide_eq_true_eq] at hcp
      exact hb ((testBit_suitBitsetOf cards σ n).mpr ⟨c, hc, hcp.1, hcp.2⟩)
  have heq : (ranksDesc.map fun n =>
      cards.countP fun c => decide (c.suit.toNat = σ) && decide (c.number.toNat = n)).sum =
      (ranksDesc.map fun n => if (suitBitsetOf cards σ).testBit n then 1 else 0).sum := by
    congr 1
    exact List.map_congr_left hterm
  have hlen : (decodeMask (suitBitsetOf cards σ)).length =
      (ranksDesc.map fun n => if (suitBitsetOf cards σ).testBit n then 1 else 0).sum := by
    rw [decodeMask]
    induction ranksDesc with
    | nil => rfl
    | cons a tl ih =>
      rw [List.filter_cons, List.map_cons, List.sum_cons]
      by_cases hb : (suitBitsetOf cards σ).testBit a = true
      · rw [if_pos hb, if_pos hb, List.length_cons, ih]
        omega
      · rw [if_neg hb, if_neg hb, ih]
        omega
  rw [hlen, ← heq, hsum, countBySuit]

end SuitPopcount

section LeafPair

/-- Counts of a four-rank-group concatenation. -/
theorem countByNumber_four_groups (t1 t2 t3 t4 : List Card) (a b c d : Nat)
    (h1 : ∀ x ∈ t1, x.number.toNat = a) (h2 : ∀ x ∈ t2, x.number.toNat = b)
    (h3 : ∀ x ∈ t3, x.number.toNat = c) (h4 : ∀ x ∈ t4, x.number.toNat = d)
    (hab : a ≠ b) (hac : a ≠ c) (had : a ≠ d) (hbc : b ≠ c) (hbd : b ≠ d)
    (hcd : c ≠ d) (r : Nat) :
    countByNumber (t1 ++ (t2 ++ (t3 ++ t4))) r =
      if r = a then t1.length else if r = b then t2.length else
        if r = c then t3.length else if r = d then t4.length else 0 := by
  rw [countByNumber_append, countByNumber_const t1 a h1 r,
    countByNumber_three_groups t2 t3 t4 b c d h2 h3 h4 hbc hbd hcd r]
  by_cases ha : r = a
  · subst ha
    rw [if_pos rfl, if_pos rfl, if_neg hab, if_neg hac, if_neg had, Nat.add_zero]
  · rw [if_neg ha, if_neg ha, Nat.zero_add]

/-- The canonical 7-card value of a pair hand: no suit straight, no flush, no
whole-hand straight, rank p counted twice, every other rank at most once; the
kickers are the top three remaining ranks. -/
theorem value7_eq_pair_leaf (cards : List Card) (h7 : cards.length = 7)
    (hnd : cards.Nodup) (p : Nat) (hp2 : countByNumber cards p = 2) (hpr : p ∈ ranksDesc)
    (hone : ∀ j ∈ ranksDesc, j ≠ p → countByNumber cards j ≤ 1)
    (hsfnone : ∀ st ∈ suitIdxs, checkForStraight (suitBitsetOf cards st) = none)
    (hflnone : ∀ st ∈ suitIdxs, countBySuit cards st < 5)
    (hstnone : checkForStraight (numberBitsetOf cards) = none) :
    value7 cards = 1 :: p ::
      ((decodeMask (numberBitsetOf cards)).filter fun r => decide (r ≠ p)).take 3 := by
  have hmemL : ∀ x, x ∈ ((decodeMask (numberBitsetOf cards)).filter
      fun r => decide (r ≠ p)) ↔
      (x ∈ ranksDesc ∧ 0 < countByNumber cards x ∧ x ≠ p) := by
    intro x
    rw [List.mem_filter, mem_decodeMask, testBit_numberBitsetOf_iff_count]
    simp only [decide_eq_true_eq]
    tauto
  have hdescL : ((decodeMask (numberBitsetOf cards)).filter
      fun r => decide (r ≠ p)).Pairwise (fun a b => a > b) :=
    (decodeMask_desc _).sublist (List.filter_sublist _)
  have hsum : ((ranksDesc.filter fun r => decide (r ≠ p)).map
      (countByNumber cards)).sum = 5 := by
    have hs2 := sum_split_mem ranksDesc (countByNumber cards) p ranksDesc_nodup hpr
    rw [sum_countByNumber, h7, hp2] at hs2
    omega
  have hlenL : ((decodeMask (numberBitsetOf cards)).filter
      fun r => decide (r ≠ p)).length = 5 := by
    have heql : ((decodeMask (numberBitsetOf cards)).filter fun r => decide (r ≠ p)) =
        ((ranksDesc.filter fun r => decide (r ≠ p)).filter
          fun r => decide (0 < countByNumber cards r)) := by
      apply desc_lists_eq _ _ hdescL
      · exact (ranksDesc_sorted.sublist (List.filter_sublist _)).sublist
          (List.filter_sublist _)
      · intro x
        rw [hmemL, List.mem_filter, List.mem_filter]
        simp only [decide_eq_true_eq]
        tauto
    rw [heql, length_filter_pos_eq_sum _ _ (fun x hx => hone x
      (List.mem_of_mem_filter hx) (by simpa using (List.mem_filter.mp hx).2)), hsum]
  obtain ⟨k1, k2, k3, k4, k5, hL⟩ : ∃ a b c d e,
      ((decodeMask (numberBitsetOf cards)).filter fun r => decide (r ≠ p)) =
        [a, b, c, d, e] := by
    rcases hLs : ((decodeMask (numberBitsetOf cards)).filter fun r => decide (r ≠ p))
      with _ | ⟨a, _ | ⟨b, _ | ⟨c, _ | ⟨d, _ | ⟨e, _ | ⟨f, rest⟩⟩⟩⟩⟩⟩ <;>
      rw [hLs] at hlenL <;> simp_all
  have hk1 := (hmemL k1).mp (by rw [hL]; exact List.mem_cons_self _ _)
  have hk2 := (hmemL k2).mp (by
    rw [hL]
    exact List.mem_cons_of_mem _ (List.mem_cons_self _ _))
  have hk3 := (hmemL k3).mp (by
    rw [hL]
    exact List.mem_cons_of_mem _ (List.mem_cons_of_mem _ (List.mem_cons_self _ _)))
  have hk12 : k1 > k2 := by
    rw [hL] at hdescL
    exact (List.pairwise_cons.mp hdescL).1 k2 (List.mem_cons_self _ _)
  have hk23 : k2 > k3 := by
    rw [hL] at hdescL
    exact (List.pairwise_cons.mp (List.pairwise_cons.mp hdescL).2).1 k3
      (List.mem_cons_self _ _)
  apply value7_eq_of
  · obtain ⟨t1, ht1sub, ht1len, ht1p, ht1nd⟩ := extract_cards
      (fun c => decide (c.number.toNat = p)) cards 2
      (by rw [countByNumber] at hp2; omega) hnd
    obtain ⟨t2, ht2sub, ht2len, ht2p, ht2nd⟩ := extract_cards
      (fun c => decide (c.number.toNat = k1)) cards 1
      (by rw [countByNumber] at hk1; omega) hnd
    obtain ⟨t3, ht3sub, ht3len, ht3p, ht3nd⟩ := extract_cards
      (fun c => decide (c.number.toNat = k2)) cards 1
      (by rw [countByNumber] at hk2; omega) hnd
    obtain ⟨t4, ht4sub, ht4len, ht4p, ht4nd⟩ := extract_cards
      (fun c => decide (c.number.toNat = k3)) cards 1
      (by rw [countByNumber] at hk3; omega) hnd
    have ht1t : ∀ c ∈ t1, c.number.toNat = p := fun c hc => by simpa using ht1p c hc
    have ht2k : ∀ c ∈ t2, c.number.toNat = k1 := fun c hc => by simpa using ht2p c hc
    have ht3k : ∀ c ∈ t3, c.number.toNat = k2 := fun c hc => by simpa using ht3p c hc
    have ht4k : ∀ c ∈ t4, c.number.toNat = k3 := fun c hc => by simpa using ht4p c hc
    have hsp : (t1 ++ (t2 ++ (t3 ++ t4))).Subperm cards := by
      apply List.Nodup.subperm
      · refine (ht1sub.nodup hnd).append
          ((ht2sub.nodup hnd).append
            ((ht3sub.nodup hnd).append (ht4sub.nodup hnd) ?_) ?_) ?_
        · intro c hc3 hc4
          have := ht3k c hc3
          have := ht4k c hc4
          omega
        · intro c hc2 hc34
          have := ht2k c hc2
          rcases List.mem_append.mp hc34 with hc | hc
          · have := ht3k c hc
            omega
          · have := ht4k c hc
            omega
        · intro c hc1 hc234
          have := ht1t c hc1
          rcases List.mem_append.mp hc234 with hc | hc
          · have := ht2k c hc
            have := hk1.2.2
            omega
          · rcases List.mem_append.mp hc with hc2 | hc2
            · have := ht3k c hc2
              have := hk2.2.2
              omega
            · have := ht4k c hc2
              have := hk3.2.2
              omega
      · intro c hc
        rcases List.mem_append.mp hc with hc | hc
        · exact ht1sub.subset hc
        · rcases List.mem_append.mp hc with hc | hc
          · exact ht2sub.subset hc
          · rcases List.mem_append.mp hc with hc | hc
            · exact ht3sub.subset hc
            · exact ht4sub.subset hc
    refine ⟨t1 ++ (t2 ++ (t3 ++ t4)), hsp, ?_, ?_⟩
    · rw [List.length_append, List.length_append, List.length_append, ht1len, ht2len,
        ht3len, ht4len]
    · rw [show ((decodeMask (numberBitsetOf cards)).filter
          fun r => decide (r ≠ p)).take 3 = [k1, k2, k3] from by rw [hL]; rfl]
      refine value5_eq_pair (t1 ++ (t2 ++ (t3 ++ t4))) p k1 k2 k3 hpr hk1.1 hk2.1 hk3.1
        (fun h => hk1.2.2 h.symm) (fun h => hk2.2.2 h.symm) (fun h => hk3.2.2 h.symm)
        hk12 hk23 ?_ ?_
      · intro r
        rw [countByNumber_four_groups t1 t2 t3 t4 p k1 k2 k3 ht1t ht2k ht3k ht4k
          (fun h => hk1.2.2 h.symm) (fun h => hk2.2.2 h.symm) (fun h => hk3.2.2 h.symm)
          (by omega) (by omega) (by omega) r, ht1len, ht2len, ht3len, ht4len]
      · exact sameSuit_false_of_rank_group (t1 ++ (t2 ++ (t3 ++ t4))) t1 p ht1nd
          (by rw [ht1len]) ht1t fun c hc => List.mem_append_left _ hc
  · intro s hsp hslen
    have hmono : ∀ r, countByNumber s r ≤ countByNumber cards r :=
      countByNumber_le_of_subperm s cards hsp
    have hsum5 : (ranksDesc.map (countByNumber s)).sum = 5 := by
      rw [sum_countByNumber, hslen]
    rcases value5_cases s with ⟨m, hss, hrh, hval⟩ | ⟨q', hq'4, hq'r, hval⟩ |
      ⟨t', p', ht'3, hp'2, ht'r, hp'r, hval⟩ | ⟨hss, hval⟩ | ⟨m, hrh, hval⟩ |
      ⟨t', ht'3, ht'r, hval⟩ | ⟨p1, p2, hp1c, hp2c, h21, hp1r, hp2r, hval⟩ |
      ⟨p', hp'c, hp'r, hval⟩ | hval
    · exfalso
      have hsne : s ≠ [] := by
        intro h
        rw [h] at hslen
        simp at hslen
      obtain ⟨c0, hc0⟩ := List.exists_mem_of_ne_nil s hsne
      exact no_sf_subset cards s (fun c hc => hsp.subset hc) c0 hc0 hss m hrh hsfnone
    · exfalso
      have h1 := hmono q'
      by_cases hq'p : q' = p
      · rw [hq'p] at h1 hq'4
        omega
      · have := hone q' hq'r hq'p
        omega
    · exfalso
      have h1 := hmono t'
      by_cases ht'p : t' = p
      · rw [ht'p] at h1 ht'3
        omega
      · have := hone t' ht'r ht'p
        omega
    · exact (no_flush_subset cards s hsp hslen hss hflnone).elim
    · exfalso
      exact no_straight_subset cards s (fun c hc => hsp.subset hc) m hrh hstnone
    · exfalso
      have h1 := hmono t'
      by_cases ht'p : t' = p
      · rw [ht'p] at h1 ht'3
        omega
      · have := hone t' ht'r ht'p
        omega
    · exfalso
      have hne : p1 ≠ p2 := by omega
      have h1 := hmono p1
      have h2 := hmono p2
      by_cases hp1p : p1 = p
      · have hp2p : p2 ≠ p := by omega
        have := hone p2 hp2r hp2p
        omega
      · have := hone p1 hp1r hp1p
        omega
    · have hp'p : p' = p := by
        have h1 := hmono p'
        by_cases h : p' = p
        · exact h
        · have := hone p' hp'r h
          omega
      rw [hp'p] at hp'c hval
      rw [hval, lexCmp_head_eq, lexCmp_head_eq]
      apply lexCmp_sub_take _ _ 3
      · exact (presList_desc s).sublist (List.filter_sublist _)
      · exact hdescL
      · intro x hx
        have hxp := (mem_presList s x).mp (List.mem_of_mem_filter hx)
        have hxne : x ≠ p := by simpa using (List.mem_filter.mp hx).2
        exact (hmemL x).mpr ⟨hxp.1, lt_of_lt_of_le hxp.2 (hmono x), hxne⟩
      · have hs1 := length_filter_presList_le s fun r => decide (r ≠ p)
        have hs2 := sum_split_mem ranksDesc (countByNumber s) p ranksDesc_nodup hpr
        rw [hsum5, hp'c] at hs2
        omega
    · rw [hval]
      exact lexCmp_ne_gt_of_head_lt 0 1 _ _ (by omega)

end LeafPair

section LeafHigh

/-- The decoded whole-hand bitset and the positive-count filter agree. -/
theorem decodeMask_numberBitset_eq (cards : List Card) :
    decodeMask (numberBitsetOf cards) =
      ranksDesc.filter fun r => decide (0 < countByNumber cards r) := by
  rw [decodeMask]
  apply List.filter_congr
  intro x _
  cases hb : (numberBitsetOf cards).testBit x with
  | true =>
    have := (testBit_numberBitsetOf_iff_count cards x).mp hb
    simp [this]
  | false =>
    have : ¬ 0 < countByNumber cards x := fun hc =>
      by rw [(testBit_numberBitsetOf_iff_count cards x).mpr hc] at hb; exact
        Bool.noConfusion hb
    simp [this]

/-- The canonical 7-card value of a no-pair hand: seven distinct ranks, no
flush, no straight; the value keeps the top five ranks. -/
theorem value7_eq_high_leaf (cards : List Card) (h7 : cards.length = 7)
    (hnd : cards.Nodup)
    (hone : ∀ j ∈ ranksDesc, countByNumber cards j ≤ 1)
    (hsfnone : ∀ st ∈ suitIdxs, checkForStraight (suitBitsetOf cards st) = none)
    (hflnone : ∀ st ∈ suitIdxs, countBySuit cards st < 5)
    (hstnone : checkForStraight (numberBitsetOf cards) = none) :
    value7 cards = 0 :: (decodeMask (numberBitsetOf cards)).take 5 := by
  have hlenL : (decodeMask (numberBitsetOf cards)).length = 7 := by
    rw [decodeMask_numberBitset_eq, length_filter_pos_eq_sum _ _ hone,
      sum_countByNumber, h7]
  have hmemL : ∀ x, x ∈ decodeMask (numberBitsetOf cards) ↔
      (x ∈ ranksDesc ∧ 0 < countByNumber cards x) := by
    intro x
    rw [mem_decodeMask, testBit_numberBitsetOf_iff_count]
  have hRdesc : ((decodeMask (numberBitsetOf cards)).take 5).Pairwise
      (fun a b => a > b) :=
    (decodeMask_desc _).sublist (List.take_sublist _ _)
  have hRlen : ((decodeMask (numberBitsetOf cards)).take 5).length = 5 := by
    rw [List.length_take, hlenL]
    omega
  have hRmem : ∀ x ∈ (decodeMask (numberBitsetOf cards)).take 5,
      x ∈ ranksDesc ∧ 0 < countByNumber cards x :=
    fun x hx => (hmemL x).mp (List.mem_of_mem_take hx)
  apply value7_eq_of
  · obtain ⟨s, hsnd, hssub, hslen, hscnt, _⟩ := exists_sub_singles cards (fun _ => true)
      ((decodeMask (numberBitsetOf cards)).take 5)
      (hRdesc.imp fun h => by omega)
      (fun x hx => by
        obtain ⟨c, hc, hcn⟩ := (countByNumber_pos_iff cards x).mp (hRmem x hx).2
        exact ⟨c, hc, rfl, hcn⟩)
    have hsp : s.Subperm cards := hsnd.subperm hssub
    have hpres : presList s = (decodeMask (numberBitsetOf cards)).take 5 :=
      presList_eq_of_ones s _ hRdesc (fun x hx => (hRmem x hx).1) hscnt
    refine ⟨s, hsp, by rw [hslen, hRlen], ?_⟩
    have hss : sameSuit s = false := by
      by_contra hc
      rw [Bool.not_eq_false] at hc
      exact no_flush_subset cards s hsp (by rw [hslen, hRlen]) hc hflnone
    have hrh : runHigh ((decodeMask (numberBitsetOf cards)).take 5) = none := by
      cases hr : runHigh ((decodeMask (numberBitsetOf cards)).take 5) with
      | none => rfl
      | some m =>
        exfalso
        apply no_straight_subset cards s hssub m _ hstnone
        rw [hpres]
        exact hr
    exact value5_eq_high s _ hRdesc (fun x hx => (hRmem x hx).1) hscnt hss hrh
  · intro s hsp hslen
    have hmono : ∀ r, countByNumber s r ≤ countByNumber cards r :=
      countByNumber_le_of_subperm s cards hsp
    rcases value5_cases s with ⟨m, hss, hrh, hval⟩ | ⟨q', hq'4, hq'r, hval⟩ |
      ⟨t', p', ht'3, hp'2, ht'r, hp'r, hval⟩ | ⟨hss, hval⟩ | ⟨m, hrh, hval⟩ |
      ⟨t', ht'3, ht'r, hval⟩ | ⟨p1, p2, hp1c, hp2c, h21, hp1r, hp2r, hval⟩ |
      ⟨p', hp'c, hp'r, hval⟩ | hval
    · exfalso
      have hsne : s ≠ [] := by
        intro h
        rw [h] at hslen
        simp at hslen
      obtain ⟨c0, hc0⟩ := List.exists_mem_of_ne_nil s hsne
      exact no_sf_subset cards s (fun c hc => hsp.subset hc) c0 hc0 hss m hrh hsfnone
    · exfalso
      have h1 := hmono q'
      have := hone q' hq'r
      omega
    · exfalso
      have h1 := hmono t'
      have := hone t' ht'r
      omega
    · exact (no_flush_subset cards s hsp hslen hss hflnone).elim
    · exfalso
      exact no_straight_subset cards s (fun c hc => hsp.subset hc) m hrh hstnone
    · exfalso
      have h1 := hmono t'
      have := hone t' ht'r
      omega
    · exfalso
      have h1 := hmono p1
      have := hone p1 hp1r
      omega
    · exfalso
      have h1 := hmono p'
      have := hone p' hp'r
      omega
    · rw [hval, lexCmp_head_eq]
      apply lexCmp_sub_take _ _ 5
      · exact presList_desc s
      · exact decodeMask_desc _
      · intro x hx
        have hxp := (mem_presList s x).mp hx
        exact (hmemL x).mpr ⟨hxp.1, lt_of_lt_of_le hxp.2 (hmono x)⟩
      · have := presList_length_le s
        omega

end LeafHigh

section DescMoreHelpers

/-- Descending pairwise order for a four-element list. -/
theorem desc_four (a b c d : Nat) (h1 : a > b) (h2 : b > c) (h3 : c > d) :
    ([a, b, c, d] : List Nat).Pairwise (fun x y => x > y) := by
  refine List.pairwise_cons.mpr ⟨?_, desc_three b c d h2 h3⟩
  intro y hy
  simp only [List.mem_cons, List.not_mem_nil, or_false] at hy
  rcases hy with rfl | rfl | rfl
  · exact h1
  · omega
  · omega

/-- Descending pairwise order for a five-element list. -/
theorem desc_five (a b c d e : Nat) (h1 : a > b) (h2 : b > c) (h3 : c > d) (h4 : d > e) :
    ([a, b, c, d, e] : List Nat).Pairwise (fun x y => x > y) := by
  refine List.pairwise_cons.mpr ⟨?_, desc_four b c d e h2 h3 h4⟩
  intro y hy
  simp only [List.mem_cons, List.not_mem_nil, or_false] at hy
  rcases hy with rfl | rfl | rfl | rfl
  · exact h1
  · omega
  · omega
  · omega

end DescMoreHelpers

section LeafStraight

/-- The canonical 7-card value of a straight hand: the whole-hand straight
check fires with high card v, no suit straight, no flush, no quads, no full
house configuration. -/
theorem value7_eq_straight_leaf (cards : List Card) (h7 : cards.length = 7)
    (hnd : cards.Nodup) (v : Number)
    (hst : checkForStraight (numberBitsetOf cards) = some v)
    (hsfnone : ∀ st ∈ suitIdxs, checkForStraight (suitBitsetOf cards st) = none)
    (hflnone : ∀ st ∈ suitIdxs, countBySuit cards st < 5)
    (hq4none : ∀ j ∈ ranksDesc, countByNumber cards j ≠ 4)
    (hnofh : ∀ a b : Nat, a ≠ b → 3 ≤ countByNumber cards a →
      2 ≤ countByNumber cards b → False) :
    value7 cards = [4, v.toNat] := by
  rw [checkForStraight] at hst
  obtain ⟨k, hk1, hk10, hw, hmax, hv⟩ :=
    checkForStraightGo_sound_max (dupAce (numberBitsetOf cards)) 10 v hst
  have hwbits := (window_iff _ k).mp hw
  obtain ⟨R, hRdesc, hRsub, hRpres, hRrh, hRnd⟩ :
      ∃ R : List Nat, R.Pairwise (fun a b => a > b) ∧ (∀ x ∈ R, x ∈ ranksDesc) ∧
        (∀ x ∈ R, 0 < countByNumber cards x) ∧ runHigh R = some v.toNat ∧ R.Nodup := by
    rcases Nat.lt_or_ge k 2 with hk2 | hk2
    · have hkk : k = 1 := by omega
      subst hkk
      have hbits : ∀ i, 1 ≤ i → i < 5 →
          (numberBitsetOf cards).testBit (1 + i) = true := by
        intro i hi1 hi5
        have := hwbits i hi5
        rwa [testBit_dupAce_ge_two _ _ (by omega)] at this
      have hace : (numberBitsetOf cards).testBit 14 = true := by
        have h0 := hwbits 0 (by omega)
        rw [testBit_dupAce] at h0
        have hb1 : (numberBitsetOf cards).testBit 1 = false := by
          by_contra hh
          rw [Bool.not_eq_false] at hh
          have := numberBitsetOf_range cards 1 hh
          omega
        simpa [hb1] using h0
      have hvt : v.toNat = 5 := by
        rw [hv, Number.toNat_fromNatD 5 (by omega) (by omega)]
      refine ⟨[14, 5, 4, 3, 2], by decide, by decide, ?_, by rw [hvt]; exact runHigh_wheel,
        by decide⟩
      intro x hx
      rw [← testBit_numberBitsetOf_iff_count]
      simp only [List.mem_cons, List.not_mem_nil, or_false] at hx
      rcases hx with rfl | rfl | rfl | rfl | rfl
      · exact hace
      · exact hbits 4 (by omega) (by omega)
      · exact hbits 3 (by omega) (by omega)
      · exact hbits 2 (by omega) (by omega)
      · exact hbits 1 (by omega) (by omega)
    · have hbits : ∀ i, i < 5 → (numberBitsetOf cards).testBit (k + i) = true := by
        intro i hi5
        have := hwbits i hi5
        rwa [testBit_dupAce_ge_two _ _ (by omega)] at this
      have hk14 : k + 4 ≤ 14 := by
        have := numberBitsetOf_range cards (k + 4) (hbits 4 (by omega))
        omega
      have hvt : v.toNat = k + 4 := by
        rw [hv, Number.toNat_fromNatD (k + 4) (by omega) (by omega)]
      have hdesc5 : ([k + 4, k + 3, k + 2, k + 1, k] : List Nat).Pairwise
          (fun x y => x > y) :=
        desc_five (k + 4) (k + 3) (k + 2) (k + 1) k (by omega) (by omega) (by omega)
          (by omega)
      refine ⟨[k + 4, k + 3, k + 2, k + 1, k], hdesc5, ?_, ?_,
        by rw [hvt]; exact runHigh_run k, hdesc5.imp fun h => by omega⟩
      · intro x hx
        simp only [List.mem_cons, List.not_mem_nil, or_false] at hx
        apply mem_ranksDesc_of <;> omega
      · intro x hx
        rw [← testBit_numberBitsetOf_iff_count]
        simp only [List.mem_cons, List.not_mem_nil, or_false] at hx
        rcases hx with rfl | rfl | rfl | rfl | rfl
        · exact hbits 4 (by omega)
        · exact hbits 3 (by omega)
        · exact hbits 2 (by omega)
        · exact hbits 1 (by omega)
        · exact hbits 0 (by omega)
  apply value7_eq_of
  · obtain ⟨s, hsnd, hssub, hslen, hscnt, _⟩ := exists_sub_singles cards (fun _ => true)
      R hRnd
      (fun x hx => by
        obtain ⟨c, hc, hcn⟩ := (countByNumber_pos_iff cards x).mp (hRpres x hx)
        exact ⟨c, hc, rfl, hcn⟩)
    have hsp : s.Subperm cards := hsnd.subperm hssub
    have hRlen : R.length = 5 := by
      rcases runHigh_eq_some R v.toNat hRrh with ⟨hl, _⟩ | ⟨hl, _⟩ <;> rw [hl] <;> rfl
    have hpres : presList s = R := presList_eq_of_ones s R hRdesc hRsub hscnt
    refine ⟨s, hsp, by rw [hslen, hRlen], ?_⟩
    have hss : sameSuit s = false := by
      by_contra hc
      rw [Bool.not_eq_false] at hc
      have hsne : s ≠ [] := by
        intro h
        rw [h, List.length_nil] at hslen
        rw [← hslen] at hRlen
        exact absurd hRlen (by omega)
      obtain ⟨c0, hc0⟩ := List.exists_mem_of_ne_nil s hsne
      have hsuitmem : c0.suit.toNat ∈ suitIdxs := by
        cases c0.suit <;> decide
      have hbitσ : ∀ r ∈ presList s,
          (suitBitsetOf cards c0.suit.toNat).testBit r = true := by
        intro r hr
        obtain ⟨c, hcs, hcn⟩ := (countByNumber_pos_iff s r).mp ((mem_presList s r).mp hr).2
        refine (testBit_suitBitsetOf cards c0.suit.toNat r).mpr ⟨c, hssub c hcs, ?_, hcn⟩
        rw [(sameSuit_iff s).mp hc c hcs c0 hc0]
      obtain ⟨hm5, hm14, hwσ⟩ := window_of_run (suitBitsetOf cards c0.suit.toNat) s
        v.toNat hbitσ (by rw [hpres]; exact hRrh)
      have hfire := checkForStraightGo_isSome (dupAce (suitBitsetOf cards c0.suit.toNat))
        10 (v.toNat - 4) (by omega) (by omega) hwσ
      rw [show checkForStraightGo (dupAce (suitBitsetOf cards c0.suit.toNat)) 10 =
        checkForStraight (suitBitsetOf cards c0.suit.toNat) from rfl,
        hsfnone c0.suit.toNat hsuitmem] at hfire
      exact Bool.noConfusion hfire
    exact value5_eq_straight s R v.toNat hRdesc hRsub hscnt hss hRrh
  · intro s hsp hslen
    have hmono : ∀ r, countByNumber s r ≤ countByNumber cards r :=
      countByNumber_le_of_subperm s cards hsp
    rcases value5_cases s with ⟨m, hss, hrh, hval⟩ | ⟨q', hq'4, hq'r, hval⟩ |
      ⟨t', p', ht'3, hp'2, ht'r, hp'r, hval⟩ | ⟨hss, hval⟩ | ⟨m, hrh, hval⟩ |
      ⟨t', ht'3, ht'r, hval⟩ | ⟨p1, p2, hp1c, hp2c, h21, hp1r, hp2r, hval⟩ |
      ⟨p', hp'c, hp'r, hval⟩ | hval
    · exfalso
      have hsne : s ≠ [] := by
        intro h
        rw [h] at hslen
        simp at hslen
      obtain ⟨c0, hc0⟩ := List.exists_mem_of_ne_nil s hsne
      exact no_sf_subset cards s (fun c hc => hsp.subset hc) c0 hc0 hss m hrh hsfnone
    · exfalso
      have h1 := hmono q'
      have h2 := countByNumber_le_four cards hnd q'
      exact hq4none q' hq'r (by omega)
    · exfalso
      have h1 := hmono t'
      have h2 := hmono p'
      refine hnofh t' p' ?_ (by omega) (by omega)
      intro h
      rw [h] at ht'3
      omega
    · exact (no_flush_subset cards s hsp hslen hss hflnone).elim
    · have hbitn : ∀ r ∈ presList s, (numberBitsetOf cards).testBit r = true := by
        intro r hr
        obtain ⟨c, hcs, hcn⟩ := (countByNumber_pos_iff s r).mp ((mem_presList s r).mp hr).2
        exact (testBit_numberBitsetOf cards r).mpr ⟨c, hsp.subset hcs, hcn⟩
      obtain ⟨hm5, hm14, hwm⟩ := window_of_run (numberBitsetOf cards) s m hbitn hrh
      have hkv : v.toNat = k + 4 := by
        rcases Nat.lt_or_ge k 2 with hk2 | hk2
        · rw [hv, show k = 1 from by omega, Number.toNat_fromNatD 5 (by omega) (by omega)]
        · have hbits4 := hwbits 4 (by omega)
          rw [testBit_dupAce_ge_two _ _ (by omega)] at hbits4
          have := numberBitsetOf_range cards (k + 4) hbits4
          rw [hv, Number.toNat_fromNatD (k + 4) (by omega) (by omega)]
      have hmle : m ≤ v.toNat := by
        by_contra hlt
        have hgt : k < m - 4 := by omega
        exact hmax (m - 4) hgt (by omega) hwm
      rw [hval, lexCmp_head_eq]
      refine lexCmp_le_single [m] v.toNat (by simp) ?_
      intro x hx
      rcases List.mem_cons.mp hx with rfl | hx
      · exact hmle
      · exact absurd hx (List.not_mem_nil x)
    · rw [hval]
      exact lexCmp_ne_gt_of_head_lt 3 4 _ _ (by omega)
    · rw [hval]
      exact lexCmp_ne_gt_of_head_lt 2 4 _ _ (by omega)
    · rw [hval]
      exact lexCmp_ne_gt_of_head_lt 1 4 _ _ (by omega)
    · rw [hval]
      exact lexCmp_ne_gt_of_head_lt 0 4 _ _ (by omega)

end LeafStraight

section LeafTwoPair

/-- The canonical 7-card value of a two-pair hand: no suit straight, no flush,
no whole-hand straight, no rank over two cards, hi and lo the two best paired
ranks and k the best remaining rank. -/
theorem value7_eq_twopair_leaf (cards : List Card) (h7 : cards.length = 7)
    (hnd : cards.Nodup) (hi lo k : Nat)
    (hhi2 : countByNumber cards hi = 2) (hhir : hi ∈ ranksDesc)
    (hhimax : ∀ j ∈ ranksDesc, countByNumber cards j = 2 → j ≤ hi)
    (hlo2 : countByNumber cards lo = 2) (hlor : lo ∈ ranksDesc) (hlohi : lo < hi)
    (hlomax : ∀ j ∈ ranksDesc, countByNumber cards j = 2 → j ≠ hi → j ≤ lo)
    (hle2 : ∀ j ∈ ranksDesc, countByNumber cards j ≤ 2)
    (hkp : 0 < countByNumber cards k) (hkr : k ∈ ranksDesc) (hkhi : k ≠ hi)
    (hklo : k ≠ lo)
    (hkmax : ∀ j ∈ ranksDesc, 0 < countByNumber cards j → j ≠ hi → j ≠ lo → j ≤ k)
    (hsfnone : ∀ st ∈ suitIdxs, checkForStraight (suitBitsetOf cards st) = none)
    (hflnone : ∀ st ∈ suitIdxs, countBySuit cards st < 5)
    (hstnone : checkForStraight (numberBitsetOf cards) = none) :
    value7 cards = [2, hi, lo, k] := by
  apply value7_eq_of
  · obtain ⟨t1, ht1sub, ht1len, ht1p, ht1nd⟩ := extract_cards
      (fun c => decide (c.number.toNat = hi)) cards 2
      (by rw [countByNumber] at hhi2; omega) hnd
    obtain ⟨t2, ht2sub, ht2len, ht2p, ht2nd⟩ := extract_cards
      (fun c => decide (c.number.toNat = lo)) cards 2
      (by rw [countByNumber] at hlo2; omega) hnd
    obtain ⟨t3, ht3sub, ht3len, ht3p, ht3nd⟩ := extract_cards
      (fun c => decide (c.number.toNat = k)) cards 1
      (by rw [countByNumber] at hkp; omega) hnd
    have ht1t : ∀ c ∈ t1, c.number.toNat = hi := fun c hc => by simpa using ht1p c hc
    have ht2k : ∀ c ∈ t2, c.number.toNat = lo := fun c hc => by simpa using ht2p c hc
    have ht3k : ∀ c ∈ t3, c.number.toNat = k := fun c hc => by simpa using ht3p c hc
    have hsp : (t1 ++ (t2 ++ t3)).Subperm cards := by
      apply List.Nodup.subperm
      · refine (ht1sub.nodup hnd).append ((ht2sub.nodup hnd).append (ht3sub.nodup hnd)
          ?_) ?_
        · intro c hc2 hc3
          have := ht2k c hc2
          have := ht3k c hc3
          omega
        · intro c hc1 hc23
          have := ht1t c hc1
          rcases List.mem_append.mp hc23 with hc | hc
          · have := ht2k c hc
            omega
          · have := ht3k c hc
            omega
      · intro c hc
        rcases List.mem_append.mp hc with hc | hc
        · exact ht1sub.subset hc
        · rcases List.mem_append.mp hc with hc | hc
          · exact ht2sub.subset hc
          · exact ht3sub.subset hc
    refine ⟨t1 ++ (t2 ++ t3), hsp, ?_, ?_⟩
    · rw [List.length_append, List.length_append, ht1len, ht2len, ht3len]
    · refine value5_eq_twopair (t1 ++ (t2 ++ t3)) hi lo k hhir hlor hkr hlohi hkhi hklo
        ?_ ?_
      · intro r
        rw [countByNumber_three_groups t1 t2 t3 hi lo k ht1t ht2k ht3k
          (by omega) (fun h => hkhi h.symm) (fun h => hklo h.symm) r,
          ht1len, ht2len, ht3len]
      · exact sameSuit_false_of_rank_group (t1 ++ (t2 ++ t3)) t1 hi ht1nd
          (by rw [ht1len]) ht1t fun c hc => List.mem_append_left _ hc
  · intro s hsp hslen
    have hmono : ∀ r, countByNumber s r ≤ countByNumber cards r :=
      countByNumber_le_of_subperm s cards hsp
    rcases value5_cases s with ⟨m, hss, hrh, hval⟩ | ⟨q', hq'4, hq'r, hval⟩ |
      ⟨t', p', ht'3, hp'2, ht'r, hp'r, hval⟩ | ⟨hss, hval⟩ | ⟨m, hrh, hval⟩ |
      ⟨t', ht'3, ht'r, hval⟩ | ⟨p1, p2, hp1c, hp2c, h21, hp1r, hp2r, hval⟩ |
      ⟨p', hp'c, hp'r, hval⟩ | hval
    · exfalso
      have hsne : s ≠ [] := by
        intro h
        rw [h] at hslen
        simp at hslen
      obtain ⟨c0, hc0⟩ := List.exists_mem_of_ne_nil s hsne
      exact no_sf_subset cards s (fun c hc => hsp.subset hc) c0 hc0 hss m hrh hsfnone
    · exfalso
      have h1 := hmono q'
      have := hle2 q' hq'r
      omega
    · exfalso
      have h1 := hmono t'
      have := hle2 t' ht'r
      omega
    · exact (no_flush_subset cards s hsp hslen hss hflnone).elim
    · exfalso
      exact no_straight_subset cards s (fun c hc => hsp.subset hc) m hrh hstnone
    · exfalso
      have h1 := hmono t'
      have := hle2 t' ht'r
      omega
    · have hp1hi : p1 ≤ hi := by
        apply hhimax p1 hp1r
        have h1 := hmono p1
        have := hle2 p1 hp1r
        omega
      rw [hval]
      rcases Nat.lt_or_eq_of_le hp1hi with hlt | heq
      · rw [show ([2, hi, lo, k] : List Nat) = 2 :: hi :: [lo, k] from rfl, lexCmp_head_eq]
        exact lexCmp_ne_gt_of_head_lt p1 hi _ _ hlt
      · have hp2lo : p2 ≤ lo := by
          apply hlomax p2 hp2r
          · have h1 := hmono p2
            have := hle2 p2 hp2r
            omega
          · omega
        rw [heq, show ([2, hi, lo, k] : List Nat) = 2 :: hi :: lo :: [k] from rfl,
          lexCmp_head_eq, lexCmp_head_eq]
        rcases Nat.lt_or_eq_of_le hp2lo with hplt | hpeq
        · exact lexCmp_ne_gt_of_head_lt p2 lo _ _ hplt
        · rw [hpeq, lexCmp_head_eq]
          refine lexCmp_le_single _ k (by rw [List.length_take]; omega) ?_
          intro x hx
          have hxf := List.mem_of_mem_take hx
          have hxp := (mem_presList s x).mp (List.mem_of_mem_filter hxf)
          have hxne : x ≠ hi ∧ x ≠ lo := by
            simpa using (List.mem_filter.mp hxf).2
          exact hkmax x hxp.1 (lt_of_lt_of_le hxp.2 (hmono x)) hxne.1 hxne.2
    · rw [hval]
      exact lexCmp_ne_gt_of_head_lt 1 2 _ _ (by omega)
    · rw [hval]
      exact lexCmp_ne_gt_of_head_lt 0 2 _ _ (by omega)

end LeafTwoPair

section SuitUnique

/-- Only one suit can hold five cards of a 7-card hand. -/
theorem suit_eq_of_both_five (cards : List Card) (h7 : cards.length = 7) (σ1 σ2 : Nat)
    (h1 : 5 ≤ countBySuit cards σ1) (h2 : 5 ≤ countBySuit cards σ2) : σ1 = σ2 := by
  by_contra hne
  have hd := countP_disjoint_le cards (fun c => decide (c.suit.toNat = σ1))
    (fun c => decide (c.suit.toNat = σ2)) ?_
  · rw [countBySuit] at h1 h2
    rw [h7] at hd
    omega
  · intro c hc
    simp only [decide_eq_true_eq] at hc
    exact hne (hc.1.symm.trans hc.2)

/-- A one-suited 5-card subset certifies five cards of its suit in the hand. -/
theorem suit_count_of_flush_subset (cards s : List Card) (hsp : s.Subperm cards)
    (hslen : s.length = 5) (hss : sameSuit s = true) (c0 : Card) (hc0 : c0 ∈ s) :
    5 ≤ countBySuit cards c0.suit.toNat := by
  have hall : ∀ c ∈ s, (fun c => decide (c.suit.toNat = c0.suit.toNat)) c = true := by
    intro c hc
    simp only [decide_eq_true_eq]
    rw [(sameSuit_iff s).mp hss c hc c0 hc0]
  have h5 : s.countP (fun c => decide (c.suit.toNat = c0.suit.toNat)) = 5 := by
    rw [List.countP_eq_length.mpr hall, hslen]
  have hle := hsp.countP_le fun c => decide (c.suit.toNat = c0.suit.toNat)
  rw [countBySuit]
  omega

end SuitUnique

section LeafFlush

/-- The canonical 7-card value of a flush hand: suit σ holds at least five
cards, no suit straight, no quads, no full house configuration; the value
keeps the top five ranks of the suit. -/
theorem value7_eq_flush_leaf (cards : List Card) (h7 : cards.length = 7)
    (hnd : cards.Nodup) (σ : Nat) (hσ : σ ∈ suitIdxs)
    (hscnt : 5 ≤ countBySuit cards σ)
    (hsfnone : ∀ st ∈ suitIdxs, checkForStraight (suitBitsetOf cards st) = none)
    (hq4none : ∀ j ∈ ranksDesc, countByNumber cards j ≠ 4)
    (hnofh : ∀ a b : Nat, a ≠ b → 3 ≤ countByNumber cards a →
      2 ≤ countByNumber cards b → False) :
    value7 cards = 5 :: (decodeMask (suitBitsetOf cards σ)).take 5 := by
  have hLlen : (decodeMask (suitBitsetOf cards σ)).length = countBySuit cards σ :=
    decodeMask_suitBitset_length cards σ hnd
  have hmemL : ∀ x, x ∈ decodeMask (suitBitsetOf cards σ) ↔
      (x ∈ ranksDesc ∧ ∃ c ∈ cards, c.suit.toNat = σ ∧ c.number.toNat = x) := by
    intro x
    rw [mem_decodeMask, testBit_suitBitsetOf]
  have hRdesc : ((decodeMask (suitBitsetOf cards σ)).take 5).Pairwise
      (fun a b => a > b) :=
    (decodeMask_desc _).sublist (List.take_sublist _ _)
  have hRlen : ((decodeMask (suitBitsetOf cards σ)).take 5).length = 5 := by
    rw [List.length_take]
    omega
  have hRmem : ∀ x ∈ (decodeMask (suitBitsetOf cards σ)).take 5,
      x ∈ ranksDesc ∧ ∃ c ∈ cards, c.suit.toNat = σ ∧ c.number.toNat = x :=
    fun x hx => (hmemL x).mp (List.mem_of_mem_take hx)
  obtain ⟨s0, hs0nd, hs0sub, hs0len, hs0cnt, hs0prop⟩ := exists_sub_singles cards
    (fun c => decide (c.suit.toNat = σ)) ((decodeMask (suitBitsetOf cards σ)).take 5)
    (hRdesc.imp fun h => by omega)
    (fun x hx => by
      obtain ⟨c, hc, hcs, hcn⟩ := (hRmem x hx).2
      exact ⟨c, hc, by simpa using hcs, hcn⟩)
  have hs0sp : s0.Subperm cards := hs0nd.subperm hs0sub
  have hs0ss : sameSuit s0 = true := by
    rw [sameSuit_iff]
    intro c hc d hd
    have hcσ : c.suit.toNat = σ := by simpa using (hs0prop c hc).1
    have hdσ : d.suit.toNat = σ := by simpa using (hs0prop d hd).1
    exact Suit.toNatInjective (hcσ.trans hdσ.symm)
  have hs0pres : presList s0 = (decodeMask (suitBitsetOf cards σ)).take 5 :=
    presList_eq_of_ones s0 _ hRdesc (fun x hx => (hRmem x hx).1) hs0cnt
  have hs0bit : ∀ r ∈ presList s0, (suitBitsetOf cards σ).testBit r = true := by
    intro r hr
    rw [hs0pres] at hr
    exact ((mem_decodeMask _ r).mp (List.mem_of_mem_take hr)).2
  have hrhnone : runHigh ((decodeMask (suitBitsetOf cards σ)).take 5) = none := by
    cases hr : runHigh ((decodeMask (suitBitsetOf cards σ)).take 5) with
    | none => rfl
    | some m =>
      exfalso
      obtain ⟨hm5, hm14, hwσ⟩ := window_of_run (suitBitsetOf cards σ) s0 m hs0bit
        (by rw [hs0pres]; exact hr)
      have hfire := checkForStraightGo_isSome (dupAce (suitBitsetOf cards σ))
        10 (m - 4) (by omega) (by omega) hwσ
      rw [show checkForStraightGo (dupAce (suitBitsetOf cards σ)) 10 =
        checkForStraight (suitBitsetOf cards σ) from rfl, hsfnone σ hσ] at hfire
      exact Bool.noConfusion hfire
  apply value7_eq_of
  · refine ⟨s0, hs0sp, by rw [hs0len, hRlen], ?_⟩
    rw [value5_eq_singles_suited s0 _ hRdesc (fun x hx => (hRmem x hx).1) hs0cnt hs0ss,
      hrhnone]
    rfl
  · intro s hsp hslen
    have hmono : ∀ r, countByNumber s r ≤ countByNumber cards r :=
      countByNumber_le_of_subperm s cards hsp
    rcases value5_cases s with ⟨m, hss, hrh, hval⟩ | ⟨q', hq'4, hq'r, hval⟩ |
      ⟨t', p', ht'3, hp'2, ht'r, hp'r, hval⟩ | ⟨hss, hval⟩ | ⟨m, hrh, hval⟩ |
      ⟨t', ht'3, ht'r, hval⟩ | ⟨p1, p2, hp1c, hp2c, h21, hp1r, hp2r, hval⟩ |
      ⟨p', hp'c, hp'r, hval⟩ | hval
    · exfalso
      have hsne : s ≠ [] := by
        intro h
        rw [h] at hslen
        simp at hslen
      obtain ⟨c0, hc0⟩ := List.exists_mem_of_ne_nil s hsne
      exact no_sf_subset cards s (fun c hc => hsp.subset hc) c0 hc0 hss m hrh hsfnone
    · exfalso
      have h1 := hmono q'
      have h2 := countByNumber_le_four cards hnd q'
      exact hq4none q' hq'r (by omega)
    · exfalso
      have h1 := hmono t'
      have h2 := hmono p'
      refine hnofh t' p' ?_ (by omega) (by omega)
      intro h
      rw [h] at ht'3
      omega
    · have hsne : s ≠ [] := by
        intro h
        rw [h] at hslen
        simp at hslen
      obtain ⟨c0, hc0⟩ := List.exists_mem_of_ne_nil s hsne
      have hσ' : c0.suit.toNat = σ :=
        suit_eq_of_both_five cards h7 c0.suit.toNat σ
          (suit_count_of_flush_subset cards s hsp hslen hss c0 hc0) hscnt
      rw [hval, lexCmp_head_eq]
      apply lexCmp_sub_take _ _ 5
      · exact presList_desc s
      · exact decodeMask_desc _
      · intro x hx
        have hxp := (mem_presList s x).mp hx
        obtain ⟨c, hcs, hcn⟩ := (countByNumber_pos_iff s x).mp hxp.2
        refine (hmemL x).mpr ⟨hxp.1, c, hsp.subset hcs, ?_, hcn⟩
        rw [(sameSuit_iff s).mp hss c hcs c0 hc0]
        exact hσ'
      · have := presList_length_le s
        omega
    · rw [hval]
      exact lexCmp_ne_gt_of_head_lt 4 5 _ _ (by omega)
    · rw [hval]
      exact lexCmp_ne_gt_of_head_lt 3 5 _ _ (by omega)
    · rw [hval]
      exact lexCmp_ne_gt_of_head_lt 2 5 _ _ (by omega)
    · rw [hval]
      exact lexCmp_ne_gt_of_head_lt 1 5 _ _ (by omega)
    · rw [hval]
      exact lexCmp_ne_gt_of_head_lt 0 5 _ _ (by omega)

end LeafFlush

section LeafSFlush

/-- The canonical 7-card value of a straight-flush hand: the per-suit straight
scan fires on suit σ with high card v, and the value is exactly [8, v]. -/
theorem value7_eq_sflush_leaf (cards : List Card) (h7 : cards.length = 7)
    (hnd : cards.Nodup) (σ : Nat) (hσ : σ ∈ suitIdxs) (v : Number)
    (hsf : checkForStraight (suitBitsetOf cards σ) = some v) :
    value7 cards = [8, v.toNat] := by
  rw [checkForStraight] at hsf
  obtain ⟨k, hk1, hk10, hw, hmax, hv⟩ :=
    checkForStraightGo_sound_max (dupAce (suitBitsetOf cards σ)) 10 v hsf
  have hwbits := (window_iff _ k).mp hw
  obtain ⟨R, hRdesc, hRsub, hRbit, hRrh, hRnd⟩ :
      ∃ R : List Nat, R.Pairwise (fun a b => a > b) ∧ (∀ x ∈ R, x ∈ ranksDesc) ∧
        (∀ x ∈ R, ∃ c ∈ cards, c.suit.toNat = σ ∧ c.number.toNat = x) ∧
        runHigh R = some v.toNat ∧ R.Nodup := by
    rcases Nat.lt_or_ge k 2 with hk2 | hk2
    · have hkk : k = 1 := by omega
      subst hkk
      have hbits : ∀ i, 1 ≤ i → i < 5 →
          (suitBitsetOf cards σ).testBit (1 + i) = true := by
        intro i hi1 hi5
        have := hwbits i hi5
        rwa [testBit_dupAce_ge_two _ _ (by omega)] at this
      have hace : (suitBitsetOf cards σ).testBit 14 = true := by
        have h0 := hwbits 0 (by omega)
        rw [testBit_dupAce] at h0
        have hb1 : (suitBitsetOf cards σ).testBit 1 = false := by
          by_contra hh
          rw [Bool.not_eq_false] at hh
          have := suitBitsetOf_range cards σ 1 hh
          omega
        simpa [hb1] using h0
      have hvt : v.toNat = 5 := by
        rw [hv, Number.toNat_fromNatD 5 (by omega) (by omega)]
      refine ⟨[14, 5, 4, 3, 2], by decide, by decide, ?_, by rw [hvt]; exact runHigh_wheel,
        by decide⟩
      intro x hx
      simp only [List.mem_cons, List.not_mem_nil, or_false] at hx
      rcases hx with rfl | rfl | rfl | rfl | rfl
      · obtain ⟨c, hc, hcσ, hcn⟩ := (testBit_suitBitsetOf cards σ 14).mp hace
        exact ⟨c, hc, hcσ, hcn⟩
      · obtain ⟨c, hc, hcσ, hcn⟩ := (testBit_suitBitsetOf cards σ 5).mp
          (hbits 4 (by omega) (by omega))
        exact ⟨c, hc, hcσ, hcn⟩
      · obtain ⟨c, hc, hcσ, hcn⟩ := (testBit_suitBitsetOf cards σ 4).mp
          (hbits 3 (by omega) (by omega))
        exact ⟨c, hc, hcσ, hcn⟩
      · obtain ⟨c, hc, hcσ, hcn⟩ := (testBit_suitBitsetOf cards σ 3).mp
          (hbits 2 (by omega) (by omega))
        exact ⟨c, hc, hcσ, hcn⟩
      · obtain ⟨c, hc, hcσ, hcn⟩ := (testBit_suitBitsetOf cards σ 2).mp
          (hbits 1 (by omega) (by omega))
        exact ⟨c, hc, hcσ, hcn⟩
    · have hbits : ∀ i, i < 5 → (suitBitsetOf cards σ).testBit (k + i) = true := by
        intro i hi5
        have := hwbits i hi5
        rwa [testBit_dupAce_ge_two _ _ (by omega)] at this
      have hk14 : k + 4 ≤ 14 := by
        have := suitBitsetOf_range cards σ (k + 4) (hbits 4 (by omega))
        omega
      have hvt : v.toNat = k + 4 := by
        rw [hv, Number.toNat_fromNatD (k + 4) (by omega) (by omega)]
      have hdesc5 : ([k + 4, k + 3, k + 2, k + 1, k] : List Nat).Pairwise
          (fun x y => x > y) :=
        desc_five (k + 4) (k + 3) (k + 2) (k + 1) k (by omega) (by omega) (by omega)
          (by omega)
      refine ⟨[k + 4, k + 3, k + 2, k + 1, k], hdesc5, ?_, ?_,
        by rw [hvt]; exact runHigh_run k, hdesc5.imp fun h => by omega⟩
      · intro x hx
        simp only [List.mem_cons, List.not_mem_nil, or_false] at hx
        apply mem_ranksDesc_of <;> omega
      · intro x hx
        simp only [List.mem_cons, List.not_mem_nil, or_false] at hx
        have hbx : (suitBitsetOf cards σ).testBit x = true := by
          rcases hx with rfl | rfl | rfl | rfl | rfl
          · exact hbits 4 (by omega)
          · exact hbits 3 (by omega)
          · exact hbits 2 (by omega)
          · exact hbits 1 (by omega)
          · exact hbits 0 (by omega)
        obtain ⟨c, hc, hcσ, hcn⟩ := (testBit_suitBitsetOf cards σ x).mp hbx
        exact ⟨c, hc, hcσ, hcn⟩
  have hRlen : R.length = 5 := by
    rcases runHigh_eq_some R v.toNat hRrh with ⟨hl, _⟩ | ⟨hl, _⟩ <;> rw [hl] <;> rfl
  obtain ⟨s0, hs0nd, hs0sub, hs0len, hs0cnt, hs0prop⟩ := exists_sub_singles cards
    (fun c => decide (c.suit.toNat = σ)) R hRnd
    (fun x hx => by
      obtain ⟨c, hc, hcσ, hcn⟩ := hRbit x hx
      exact ⟨c, hc, by simpa using hcσ, hcn⟩)
  have hs0sp : s0.Subperm cards := hs0nd.subperm hs0sub
  have hscnt : 5 ≤ countBySuit cards σ := by
    have h5 : s0.countP (fun c => decide (c.suit.toNat = σ)) = 5 := by
      rw [List.countP_eq_length.mpr (fun c hc => (hs0prop c hc).1), hs0len, hRlen]
    have hle := hs0sp.countP_le fun c => decide (c.suit.toNat = σ)
    rw [countBySuit]
    omega
  have hkv : v.toNat = k + 4 := by
    rcases Nat.lt_or_ge k 2 with hk2 | hk2
    · rw [hv, show k = 1 from by omega, Number.toNat_fromNatD 5 (by omega) (by omega)]
    · have hbits4 := hwbits 4 (by omega)
      rw [testBit_dupAce_ge_two _ _ (by omega)] at hbits4
      have := suitBitsetOf_range cards σ (k + 4) hbits4
      rw [hv, Number.toNat_fromNatD (k + 4) (by omega) (by omega)]
  apply value7_eq_of
  · refine ⟨s0, hs0sp, by rw [hs0len, hRlen], ?_⟩
    have hs0ss : sameSuit s0 = true := by
      rw [sameSuit_iff]
      intro c hc d hd
      have hcσ : c.suit.toNat = σ := by simpa using (hs0prop c hc).1
      have hdσ : d.suit.toNat = σ := by simpa using (hs0prop d hd).1
      exact Suit.toNatInjective (hcσ.trans hdσ.symm)
    rw [value5_eq_singles_suited s0 R hRdesc hRsub hs0cnt hs0ss, hRrh]
    rfl
  · intro s hsp hslen
    rcases value5_cases s with ⟨m, hss, hrh, hval⟩ | ⟨q', hq'4, hq'r, hval⟩ |
      ⟨t', p', ht'3, hp'2, ht'r, hp'r, hval⟩ | ⟨hss, hval⟩ | ⟨m, hrh, hval⟩ |
      ⟨t', ht'3, ht'r, hval⟩ | ⟨p1, p2, hp1c, hp2c, h21, hp1r, hp2r, hval⟩ |
      ⟨p', hp'c, hp'r, hval⟩ | hval
    · have hsne : s ≠ [] := by
        intro h
        rw [h] at hslen
        simp at hslen
      obtain ⟨c0, hc0⟩ := List.exists_mem_of_ne_nil s hsne
      have hσ' : c0.suit.toNat = σ :=
        suit_eq_of_both_five cards h7 c0.suit.toNat σ
          (suit_count_of_flush_subset cards s hsp hslen hss c0 hc0) hscnt
      have hbitσ : ∀ r ∈ presList s, (suitBitsetOf cards σ).testBit r = true := by
        intro r hr
        obtain ⟨c, hcs, hcn⟩ := (countByNumber_pos_iff s r).mp ((mem_presList s r).mp hr).2
        refine (testBit_suitBitsetOf cards σ r).mpr ⟨c, hsp.subset hcs, ?_, hcn⟩
        rw [(sameSuit_iff s).mp hss c hcs c0 hc0]
        exact hσ'
      obtain ⟨hm5, hm14, hwm⟩ := window_of_run (suitBitsetOf cards σ) s m hbitσ hrh
      have hmle : m ≤ v.toNat := by
        by_contra hlt
        have hgt : k < m - 4 := by omega
        exact hmax (m - 4) hgt (by omega) hwm
      rw [hval, lexCmp_head_eq]
      refine lexCmp_le_single [m] v.toNat (by simp) ?_
      intro x hx
      rcases List.mem_cons.mp hx with rfl | hx
      · exact hmle
      · exact absurd hx (List.not_mem_nil x)
    · rw [hval]
      exact lexCmp_ne_gt_of_head_lt 7 8 _ _ (by omega)
    · rw [hval]
      exact lexCmp_ne_gt_of_head_lt 6 8 _ _ (by omega)
    · rw [hval]
      exact lexCmp_ne_gt_of_head_lt 5 8 _ _ (by omega)
    · rw [hval]
      exact lexCmp_ne_gt_of_head_lt 4 8 _ _ (by omega)
    · rw [hval]
      exact lexCmp_ne_gt_of_head_lt 3 8 _ _ (by omega)
    · rw [hval]
      exact lexCmp_ne_gt_of_head_lt 2 8 _ _ (by omega)
    · rw [hval]
      exact lexCmp_ne_gt_of_head_lt 1 8 _ _ (by omega)
    · rw [hval]
      exact lexCmp_ne_gt_of_head_lt 0 8 _ _ (by omega)

end LeafSFlush

section MasterHelpers

/-- Positive sums come from a positive term. -/
theorem exists_pos_of_sum_pos (l : List Nat) (f : Nat → Nat)
    (h : 0 < (l.map f).sum) : ∃ x ∈ l, 0 < f x := by
  induction l with
  | nil => simp at h
  | cons a t ih =>
    rw [List.map_cons, List.sum_cons] at h
    by_cases ha : 0 < f a
    · exact ⟨a, List.mem_cons_self a t, ha⟩
    · obtain ⟨x, hx, hfx⟩ := ih (by omega)
      exact ⟨x, List.mem_cons_of_mem a hx, hfx⟩

/-- A rank with a card in the hand is a scan rank. -/
theorem rank_mem_of_pos (cards : List Card) (r : Nat)
    (h : 0 < countByNumber cards r) : r ∈ ranksDesc := by
  obtain ⟨c, _, hcn⟩ := (countByNumber_pos_iff cards r).mp h
  rw [← hcn]
  exact mem_ranksDesc_of _ c.number.two_le_toNat c.number.toNat_le_14

/-- Iterated lowest-bit clearing only removes bits. -/
theorem testBit_clearLowest_iter_mono (j : Nat) : ∀ (b i : Nat),
    (clearLowest^[j] b).testBit i = true → b.testBit i = true := by
  induction j with
  | zero =>
    intro b i h
    rwa [Function.iterate_zero_apply] at h
  | succ j ih =>
    intro b i h
    rw [Function.iterate_succ_apply] at h
    exact testBit_clearLowest_mono b i (ih (clearLowest b) i h)

/-- Masking out one bit position filters that rank from the decoded mask. -/
theorem decodeMask_and_notbit (b t : Nat) :
    decodeMask (b &&& not16 (1 <<< t)) =
      (decodeMask b).filter fun r => decide (r ≠ t) := by
  rw [decodeMask, decodeMask, List.filter_filter]
  apply List.filter_congr
  intro x hx
  have hxr := bounds_of_mem_ranksDesc x hx
  rw [testBit_and_not16 _ _ x (by omega), Nat.one_shiftLeft, Nat.testBit_two_pow]
  by_cases hxt : x = t
  · subst hxt
    simp
  · have htx : ¬ t = x := fun h => hxt h.symm
    simp [hxt, htx]

/-- A nonempty decoded mask has a maximal member bit. -/
theorem exists_max_bit_of_decodeMask_ne (B : Nat) (hne : decodeMask B ≠ []) :
    ∃ k, k ∈ ranksDesc ∧ B.testBit k = true ∧
      ∀ j ∈ ranksDesc, B.testBit j = true → j ≤ k := by
  rcases hD : decodeMask B with _ | ⟨x, xs⟩
  · exact absurd hD hne
  · have hxmem : x ∈ decodeMask B := by
      rw [hD]
      exact List.mem_cons_self x xs
    have hx := (mem_decodeMask B x).mp hxmem
    refine ⟨x, hx.1, hx.2, ?_⟩
    intro j hj hjb
    have hjmem : j ∈ decodeMask B := (mem_decodeMask B j).mpr ⟨hj, hjb⟩
    rw [hD] at hjmem
    rcases List.mem_cons.mp hjmem with rfl | hjxs
    · exact Nat.le_refl j
    · have hdesc := decodeMask_desc B
      rw [hD] at hdesc
      exact Nat.le_of_lt (List.rel_of_pairwise_cons hdesc hjxs)

/-- Length of the decoded rank bitset with one rank dropped, when every
other rank holds at most one card. -/
theorem length_decode_filter_ne (cards : List Card) (t : Nat) (htr : t ∈ ranksDesc)
    (hone : ∀ j ∈ ranksDesc, j ≠ t → countByNumber cards j ≤ 1) :
    ((decodeMask (numberBitsetOf cards)).filter fun r => decide (r ≠ t)).length =
      cards.length - countByNumber cards t := by
  have hfe : ((decodeMask (numberBitsetOf cards)).filter fun r => decide (r ≠ t)) =
      ranksDesc.filter fun r =>
        decide (0 < (fun r => if r = t then 0 else countByNumber cards r) r) := by
    rw [decodeMask_numberBitset_eq, List.filter_filter]
    apply List.filter_congr
    intro x _
    by_cases hxt : x = t
    · subst hxt
      simp
    · simp [hxt]
  rw [hfe, length_filter_pos_eq_sum _ _ ?_]
  · have hsplit := sum_split_mem ranksDesc
      (fun r => if r = t then 0 else countByNumber cards r) t ranksDesc_nodup htr
    have hsplit2 := sum_split_mem ranksDesc (countByNumber cards) t ranksDesc_nodup htr
    have hcong : ((ranksDesc.filter fun r => decide (r ≠ t)).map
        fun r => if r = t then 0 else countByNumber cards r) =
        ((ranksDesc.filter fun r => decide (r ≠ t)).map (countByNumber cards)) := by
      apply List.map_congr_left
      intro x hxf
      have hxt : x ≠ t := by simpa using (List.mem_filter.mp hxf).2
      rw [if_neg hxt]
    have hred : (fun r => if r = t then 0 else countByNumber cards r) t = 0 := by simp
    rw [hcong, hred] at hsplit
    rw [sum_countByNumber] at hsplit2
    omega
  · intro x hx
    by_cases hxt : x = t
    · subst hxt
      simp
    · rw [if_neg hxt]
      exact hone x hx hxt

/-- With no triple and no quad, every rank count is at most two. -/
theorem counts_le_two (cards : List Card) (hnd : cards.Nodup)
    (hq4none : ∀ j ∈ ranksDesc, countByNumber cards j ≠ 4)
    (h3none : ∀ j ∈ ranksDesc, countByNumber cards j ≠ 3) :
    ∀ j ∈ ranksDesc, countByNumber cards j ≤ 2 := by
  intro j hj
  have h4 := countByNumber_le_four cards hnd j
  have := hq4none j hj
  have := h3none j hj
  omega

end MasterHelpers

section ToKeyUnfold

/-- findSome? hits give a member witness. -/
theorem exists_mem_of_findSome?_some {α β : Type} (l : List α) (f : α → Option β)
    (b : β) (h : l.findSome? f = some b) : ∃ a ∈ l, f a = some b := by
  induction l with
  | nil =>
    rw [List.findSome?_nil] at h
    exact absurd h (fun hh => Option.noConfusion hh)
  | cons x t ih =>
    rw [List.findSome?_cons] at h
    cases hfx : f x with
    | some y =>
      rw [hfx] at h
      exact ⟨x, List.mem_cons_self x t, hfx.trans h⟩
    | none =>
      rw [hfx] at h
      obtain ⟨a, ha, hfa⟩ := ih h
      exact ⟨a, List.mem_cons_of_mem x ha, hfa⟩

theorem toKey_flush (m : Nat) : toKey (HandEvaluation.new_flush m) =
    5 :: decodeMask ((m >>> 8) * 256 + (m &&& 255)) := rfl

theorem toKey_straight (v : Number) :
    toKey (HandEvaluation.new_straight v) = [4, v.toNat] := rfl

theorem toKey_three (hc : Number) (k : Nat) :
    toKey (HandEvaluation.new_three_of_a_kind hc k) =
      3 :: hc.toNat :: decodeMask ((k >>> 8) * 256 + (k &&& 255)) := rfl

theorem toKey_pair_eval (hc : Number) (k : Nat) :
    toKey (HandEvaluation.new_pair hc k) =
      1 :: hc.toNat :: decodeMask ((k >>> 8) * 256 + (k &&& 255)) := rfl

theorem toKey_high (m : Nat) : toKey (HandEvaluation.new_high_card m) =
    0 :: decodeMask ((m >>> 8) * 256 + (m &&& 255)) := rfl

theorem toKey_twopair (hc lc kc : Number) :
    toKey (HandEvaluation.new_two_pair hc lc kc) =
      [2, hc.toNat, lc.toNat, kc.toNat] := rfl

theorem toKey_sflush (v : Number) :
    toKey (HandEvaluation.new_straight_flush v) = [8, v.toNat] := rfl

theorem toKey_quads (hc kc : Number) :
    toKey (HandEvaluation.new_four_of_a_kind hc kc) = [7, hc.toNat, kc.toNat] := rfl

theorem toKey_fullhouse (hc lc : Number) :
    toKey (HandEvaluation.new_full_house hc lc) = [6, hc.toNat, lc.toNat] := rfl

end ToKeyUnfold

section AfterFullHouseMaster

/-- The tail of the decision chain computes the canonical 7-card value when no
straight flush, no quads and no full house exists, given the exact outcome of
the preceding triple scan. -/
theorem afterFullHouse_toKey (cards : List Card) (h7 : cards.length = 7)
    (hnd : cards.Nodup) (tk : Option Number)
    (hsfnone : ∀ st ∈ suitIdxs, checkForStraight (suitBitsetOf cards st) = none)
    (hq4none : ∀ j ∈ ranksDesc, countByNumber cards j ≠ 4)
    (htk : (tk = none ∧ ∀ j ∈ ranksDesc, countByNumber cards j ≠ 3) ∨
      (∃ t3, tk = some (Number.fromNatD t3) ∧ t3 ∈ ranksDesc ∧
        countByNumber cards t3 = 3 ∧
        ∀ j ∈ ranksDesc, j ≠ t3 → countByNumber cards j ≤ 1)) :
    evalShape (evaluateAfterFullHouse (countBySuit cards) (countByNumber cards)
      (numberBitsetOf cards) (suitBitsetOf cards) tk) ∧
    toKey (evaluateAfterFullHouse (countBySuit cards) (countByNumber cards)
      (numberBitsetOf cards) (suitBitsetOf cards) tk) = value7 cards := by
  have hnofh : ∀ a b : Nat, a ≠ b → 3 ≤ countByNumber cards a →
      2 ≤ countByNumber cards b → False := by
    intro a b hab ha hb
    have har : a ∈ ranksDesc := rank_mem_of_pos cards a (by omega)
    have hbr : b ∈ ranksDesc := rank_mem_of_pos cards b (by omega)
    have ha4 := countByNumber_le_four cards hnd a
    rcases htk with ⟨_, h3none⟩ | ⟨t3, _, ht3r, ht3c, hone⟩
    · have := h3none a har
      have := hq4none a har
      omega
    · by_cases hat : a = t3
      · have hbne : b ≠ t3 := by rw [← hat]; exact fun h => hab h.symm
        have := hone b hbr hbne
        omega
      · have := hone a har hat
        omega
  unfold evaluateAfterFullHouse
  cases hfl : suitIdxs.findSome? (fun s => if 5 ≤ countBySuit cards s
      then some (flushStrip (countBySuit cards s) (suitBitsetOf cards s)) else none) with
  | some suited =>
    dsimp only
    obtain ⟨σ, hσmem, hc5, hσeq⟩ := findSome?_if_sound (fun s => 5 ≤ countBySuit cards s)
      (fun s => flushStrip (countBySuit cards s) (suitBitsetOf cards s)) suitIdxs suited hfl
    have hlen := decodeMask_suitBitset_length cards σ hnd
    have hdecs : decodeMask suited = (decodeMask (suitBitsetOf cards σ)).take 5 := by
      rw [hσeq, flushStrip,
        decodeMask_clearLowest_iter (countBySuit cards σ - 5) (suitBitsetOf cards σ)
          (suitBitsetOf_range cards σ) (by rw [hlen]; omega), hlen]
      congr 1
      omega
    have hrange : ∀ i, suited.testBit i = true → 2 ≤ i ∧ i ≤ 14 := by
      intro i hi
      rw [hσeq, flushStrip] at hi
      exact suitBitsetOf_range cards σ i (testBit_clearLowest_iter_mono _ _ _ hi)
    refine ⟨⟨suited, hrange, rfl, rfl, rfl⟩, ?_⟩
    rw [toKey_flush, byte_recompose, hdecs,
      value7_eq_flush_leaf cards h7 hnd σ hσmem hc5 hsfnone hq4none hnofh]
  | none =>
    dsimp only
    have hflnone : ∀ st ∈ suitIdxs, countBySuit cards st < 5 := by
      intro st hst
      have hnone := (List.findSome?_eq_none_iff).mp hfl st hst
      by_contra hge
      rw [if_pos (by omega)] at hnone
      exact Option.noConfusion hnone
    cases hstr : checkForStraight (numberBitsetOf cards) with
    | some v =>
      dsimp only
      refine ⟨⟨rfl, rfl⟩, ?_⟩
      rw [toKey_straight,
        value7_eq_straight_leaf cards h7 hnd v hstr hsfnone hflnone hq4none hnofh]
    | none =>
      dsimp only
      rcases htk with ⟨htknone, h3none⟩ | ⟨t3, htksome, ht3r, ht3c, hone⟩
      · subst htknone
        dsimp only
        have hle2 := counts_le_two cards hnd hq4none h3none
        cases hp : checkForPair (countByNumber cards) with
        | some hc =>
          rw [checkForPair] at hp
          obtain ⟨praw, hpr_eq, hpc_eq⟩ := Option.map_eq_some'.mp hp
          obtain ⟨hpmem, hpc, hpmax⟩ := findRankWithCount_sound_max _ 2 praw hpr_eq
          obtain ⟨hp2b, hp14⟩ := bounds_of_mem_ranksDesc praw hpmem
          have hpnat : hc.toNat = praw := by
            rw [← hpc_eq, Number.toNat_fromNatD praw hp2b hp14]
          dsimp only
          cases h2p : (ranksDesc.filter fun n => decide (n < hc.toNat)).findSome?
              (fun n => if countByNumber cards n = 2 then some n else none) with
          | some lo =>
            dsimp only
            obtain ⟨hlof, hlo2, hlomaxf⟩ := findSome?_if_sound_max
              (fun n => countByNumber cards n = 2) _
              (ranksDesc_sorted.sublist (List.filter_sublist _)) lo h2p
            have hlor : lo ∈ ranksDesc := (List.mem_filter.mp hlof).1
            have hlop : lo < praw := by
              have := (List.mem_filter.mp hlof).2
              rw [hpnat] at this
              simpa using this
            obtain ⟨hlo2b, hlo14⟩ := bounds_of_mem_ranksDesc lo hlor
            have hlonat : (Number.fromNatD lo).toNat = lo :=
              Number.toNat_fromNatD lo hlo2b hlo14
            have hAeq : hc.asBit = 1 <<< praw := by rw [Number.asBit, hpnat]
            have hLeq : (Number.fromNatD lo).asBit = 1 <<< lo := by
              rw [Number.asBit, hlonat]
            have hdecB : decodeMask (numberBitsetOf cards &&& not16 hc.asBit &&&
                not16 (Number.fromNatD lo).asBit) =
                (((decodeMask (numberBitsetOf cards)).filter fun r => decide (r ≠ praw)).filter
                  fun r => decide (r ≠ lo)) := by
              rw [hAeq, hLeq, decodeMask_and_notbit, decodeMask_and_notbit]
            have hsum1 := sum_split_mem ranksDesc (countByNumber cards) praw
              ranksDesc_nodup hpmem
            have hlof2 : lo ∈ ranksDesc.filter fun r => decide (r ≠ praw) :=
              List.mem_filter.mpr ⟨hlor, by simp; omega⟩
            have hsum2 := sum_split_mem (ranksDesc.filter fun r => decide (r ≠ praw))
              (countByNumber cards) lo (ranksDesc_nodup.filter _) hlof2
            rw [sum_countByNumber, h7, hpc] at hsum1
            rw [hlo2] at hsum2
            obtain ⟨x, hxmem, hxpos⟩ := exists_pos_of_sum_pos
              ((ranksDesc.filter fun r => decide (r ≠ praw)).filter fun r => decide (r ≠ lo))
              (countByNumber cards) (by omega)
            have hxr : x ∈ ranksDesc := (List.mem_filter.mp (List.mem_filter.mp hxmem).1).1
            have hxp : x ≠ praw := by
              have := (List.mem_filter.mp (List.mem_filter.mp hxmem).1).2
              simpa using this
            have hxl : x ≠ lo := by
              have := (List.mem_filter.mp hxmem).2
              simpa using this
            have hbitof : ∀ j ∈ ranksDesc, 0 < countByNumber cards j → j ≠ praw → j ≠ lo →
                (numberBitsetOf cards &&& not16 hc.asBit &&&
                  not16 (Number.fromNatD lo).asBit).testBit j = true := by
              intro j hj hjpos hjp hjl
              obtain ⟨hj2, hj14⟩ := bounds_of_mem_ranksDesc j hj
              rw [testBit_and_not16 _ _ j (by omega), testBit_and_not16 _ _ j (by omega)]
              rw [Number.testBit_asBit, Number.testBit_asBit, hpnat, hlonat]
              have h1 : ¬ (praw = j) := fun h => hjp h.symm
              have h2 : ¬ (lo = j) := fun h => hjl h.symm
              simp [h1, h2, (testBit_numberBitsetOf_iff_count cards j).mpr hjpos]
            obtain ⟨k, hkr, hkbit, hkmaxr⟩ := exists_max_bit_of_decodeMask_ne
              (numberBitsetOf cards &&& not16 hc.asBit &&& not16 (Number.fromNatD lo).asBit)
              (by
                intro hemp
                have hxin : x ∈ decodeMask (numberBitsetOf cards &&& not16 hc.asBit &&&
                    not16 (Number.fromNatD lo).asBit) :=
                  (mem_decodeMask _ x).mpr ⟨hxr, hbitof x hxr hxpos hxp hxl⟩
                rw [hemp] at hxin
                exact absurd hxin (List.not_mem_nil x))
            obtain ⟨hk2, hk14⟩ := bounds_of_mem_ranksDesc k hkr
            have hkunpack : 0 < countByNumber cards k ∧ k ≠ praw ∧ k ≠ lo := by
              have hb := hkbit
              rw [testBit_and_not16 _ _ k (by omega), testBit_and_not16 _ _ k (by omega),
                Number.testBit_asBit, Number.testBit_asBit, hpnat, hlonat] at hb
              simp only [Bool.and_eq_true, Bool.not_eq_true'] at hb
              refine ⟨(testBit_numberBitsetOf_iff_count cards k).mp hb.1.1, ?_, ?_⟩
              · intro h
                rw [h] at hb
                simp at hb
              · intro h
                rw [h] at hb
                simp at hb
            have hkmaxall : ∀ j, (numberBitsetOf cards &&& not16 hc.asBit &&&
                not16 (Number.fromNatD lo).asBit).testBit j = true → j ≤ k := by
              intro j hj
              have hjn : (numberBitsetOf cards).testBit j = true := by
                rw [Nat.testBit_and, Bool.and_eq_true] at hj
                rcases hj with ⟨hj1, _⟩
                rw [Nat.testBit_and, Bool.and_eq_true] at hj1
                exact hj1.1
              have := numberBitsetOf_range cards j hjn
              exact hkmaxr j (mem_ranksDesc_of j this.1 this.2) hj
            have hkick : highestCardInSet (numberBitsetOf cards &&& not16 hc.asBit &&&
                not16 (Number.fromNatD lo).asBit) = Number.fromNatD k :=
              highestCardInSet_eq _ k hk2 hk14 hkbit hkmaxall
            have hlomax : ∀ j ∈ ranksDesc, countByNumber cards j = 2 → j ≠ praw → j ≤ lo := by
              intro j hj hj2 hjp
              have hjle := hpmax j hj hj2
              have hjlt : j < praw := by omega
              refine hlomaxf j ?_ hj2
              refine List.mem_filter.mpr ⟨hj, ?_⟩
              rw [hpnat]
              simpa using hjlt
            have hkmax : ∀ j ∈ ranksDesc, 0 < countByNumber cards j → j ≠ praw → j ≠ lo →
                j ≤ k := fun j hj hjpos hjp hjl =>
              hkmaxr j hj (hbitof j hj hjpos hjp hjl)
            refine ⟨trivial, ?_⟩
            rw [toKey_twopair, hpnat, hlonat, hkick,
              Number.toNat_fromNatD k hk2 hk14,
              value7_eq_twopair_leaf cards h7 hnd praw lo k hpc hpmem hpmax hlo2 hlor
                hlop hlomax hle2 hkunpack.1 hkr hkunpack.2.1 hkunpack.2.2 hkmax
                hsfnone hflnone hstr]
          | none =>
            dsimp only
            have h2none := findSome?_if_none (fun n => countByNumber cards n = 2)
              (fun n => n) _ h2p
            have hone : ∀ j ∈ ranksDesc, j ≠ praw → countByNumber cards j ≤ 1 := by
              intro j hj hjp
              by_contra hgt
              have hj2 : countByNumber cards j = 2 := by
                have := hle2 j hj
                omega
              have hjle := hpmax j hj hj2
              have hjlt : j < praw := by omega
              refine h2none j ?_ hj2
              refine List.mem_filter.mpr ⟨hj, ?_⟩
              rw [hpnat]
              simpa using hjlt
            have hAeq : hc.asBit = 1 <<< praw := by rw [Number.asBit, hpnat]
            have hBrange : ∀ i, (numberBitsetOf cards &&& not16 hc.asBit).testBit i = true →
                2 ≤ i ∧ i ≤ 14 := by
              intro i hi
              rw [Nat.testBit_and, Bool.and_eq_true] at hi
              exact numberBitsetOf_range cards i hi.1
            have hdecB : decodeMask (numberBitsetOf cards &&& not16 hc.asBit) =
                (decodeMask (numberBitsetOf cards)).filter fun r => decide (r ≠ praw) := by
              rw [hAeq, decodeMask_and_notbit]
            have hlenB : (decodeMask (numberBitsetOf cards &&& not16 hc.asBit)).length = 5 := by
              rw [hdecB, length_decode_filter_ne cards praw hpmem hone, h7, hpc]
            have hkick : decodeMask (clearLowest (clearLowest
                (numberBitsetOf cards &&& not16 hc.asBit))) =
                (decodeMask (numberBitsetOf cards &&& not16 hc.asBit)).take 3 := by
              have hit := decodeMask_clearLowest_iter 2
                (numberBitsetOf cards &&& not16 hc.asBit) hBrange (by rw [hlenB]; omega)
              rw [show clearLowest (clearLowest (numberBitsetOf cards &&& not16 hc.asBit)) =
                clearLowest^[2] (numberBitsetOf cards &&& not16 hc.asBit) from rfl, hit,
                hlenB]
            refine ⟨⟨clearLowest (clearLowest (numberBitsetOf cards &&& not16 hc.asBit)),
              ?_, rfl, rfl⟩, ?_⟩
            · intro i hi
              exact hBrange i (testBit_clearLowest_iter_mono 2 _ i hi)
            · rw [toKey_pair_eval, byte_recompose, hpnat, hkick, hdecB,
                value7_eq_pair_leaf cards h7 hnd praw hpc hpmem hone hsfnone hflnone hstr]
        | none =>
          dsimp only
          have h2none : ∀ j ∈ ranksDesc, countByNumber cards j ≠ 2 := by
            rw [checkForPair, Option.map_eq_none'] at hp
            exact count_ne_of_findRank_none _ 2 hp
          have hone : ∀ j ∈ ranksDesc, countByNumber cards j ≤ 1 := by
            intro j hj
            have := hle2 j hj
            have := h2none j hj
            omega
          have hlen7 : (decodeMask (numberBitsetOf cards)).length = 7 := by
            rw [decodeMask_numberBitset_eq, length_filter_pos_eq_sum _ _ hone,
              sum_countByNumber, h7]
          have hkick : decodeMask (clearLowest (clearLowest (numberBitsetOf cards))) =
              (decodeMask (numberBitsetOf cards)).take 5 := by
            have hit := decodeMask_clearLowest_iter 2 (numberBitsetOf cards)
              (numberBitsetOf_range cards) (by rw [hlen7]; omega)
            rw [show clearLowest (clearLowest (numberBitsetOf cards)) =
              clearLowest^[2] (numberBitsetOf cards) from rfl, hit, hlen7]
          refine ⟨⟨clearLowest (clearLowest (numberBitsetOf cards)), ?_, rfl, rfl, rfl⟩, ?_⟩
          · intro i hi
            exact numberBitsetOf_range cards i (testBit_clearLowest_iter_mono 2 _ i hi)
          · rw [toKey_high, byte_recompose, hkick,
              value7_eq_high_leaf cards h7 hnd hone hsfnone hflnone hstr]
      · subst htksome
        dsimp only
        obtain ⟨ht2b, ht14⟩ := bounds_of_mem_ranksDesc t3 ht3r
        have htnat : (Number.fromNatD t3).toNat = t3 := Number.toNat_fromNatD t3 ht2b ht14
        have hAeq : (Number.fromNatD t3).asBit = 1 <<< t3 := by rw [Number.asBit, htnat]
        have hBrange : ∀ i, (numberBitsetOf cards &&&
            not16 (Number.fromNatD t3).asBit).testBit i = true → 2 ≤ i ∧ i ≤ 14 := by
          intro i hi
          rw [Nat.testBit_and, Bool.and_eq_true] at hi
          exact numberBitsetOf_range cards i hi.1
        have hdecB : decodeMask (numberBitsetOf cards &&& not16 (Number.fromNatD t3).asBit) =
            (decodeMask (numberBitsetOf cards)).filter fun r => decide (r ≠ t3) := by
          rw [hAeq, decodeMask_and_notbit]
        have hlenB : (decodeMask (numberBitsetOf cards &&&
            not16 (Number.fromNatD t3).asBit)).length = 4 := by
          rw [hdecB, length_decode_filter_ne cards t3 ht3r hone, h7, ht3c]
        have hkick : decodeMask (clearLowest (clearLowest
            (numberBitsetOf cards &&& not16 (Number.fromNatD t3).asBit))) =
            (decodeMask (numberBitsetOf cards &&& not16 (Number.fromNatD t3).asBit)).take 2 := by
          have hit := decodeMask_clearLowest_iter 2
            (numberBitsetOf cards &&& not16 (Number.fromNatD t3).asBit) hBrange
            (by rw [hlenB]; omega)
          rw [show clearLowest (clearLowest (numberBitsetOf cards &&&
            not16 (Number.fromNatD t3).asBit)) =
            clearLowest^[2] (numberBitsetOf cards &&& not16 (Number.fromNatD t3).asBit)
            from rfl, hit, hlenB]
        refine ⟨⟨clearLowest (clearLowest (numberBitsetOf cards &&&
          not16 (Number.fromNatD t3).asBit)), ?_, rfl, rfl⟩, ?_⟩
        · intro i hi
          exact hBrange i (testBit_clearLowest_iter_mono 2 _ i hi)
        · rw [toKey_three, byte_recompose, htnat, hkick, hdecB,
            value7_eq_trips cards h7 hnd t3 ht3c ht3r hone hsfnone hflnone hstr]

end AfterFullHouseMaster

section EvaluateMaster

/-- evaluate_hand produces a well-shaped evaluation whose canonical key is the
canonical 7-card value of the hand. -/
theorem evaluateHand_toKey (cards : List Card) (h7 : cards.length = 7)
    (hnd : cards.Nodup) :
    evalShape (evaluateHand cards) ∧ toKey (evaluateHand cards) = value7 cards := by
  unfold evaluateHand evaluateCore
  cases hsf : suitIdxs.findSome? (fun s => checkForStraight (suitBitsetOf cards s)) with
  | some v =>
    dsimp only
    obtain ⟨σ, hσmem, hσeq⟩ := exists_mem_of_findSome?_some suitIdxs _ v hsf
    refine ⟨⟨rfl, rfl⟩, ?_⟩
    rw [toKey_sflush, value7_eq_sflush_leaf cards h7 hnd σ hσmem v hσeq]
  | none =>
    dsimp only
    have hsfnone : ∀ st ∈ suitIdxs, checkForStraight (suitBitsetOf cards st) = none :=
      fun st hst => (List.findSome?_eq_none_iff).mp hsf st hst
    cases hq : findRankWithCount (countByNumber cards) 4 with
    | some q =>
      dsimp only
      obtain ⟨hqmem, hqc, hqmax⟩ := findRankWithCount_sound_max _ 4 q hq
      obtain ⟨hq2, hq14⟩ := bounds_of_mem_ranksDesc q hqmem
      have hqnat : (Number.fromNatD q).toNat = q := Number.toNat_fromNatD q hq2 hq14
      have hAeq : (Number.fromNatD q).asBit = 1 <<< q := by rw [Number.asBit, hqnat]
      have hsum := sum_split_mem ranksDesc (countByNumber cards) q ranksDesc_nodup hqmem
      rw [sum_countByNumber, h7, hqc] at hsum
      obtain ⟨x, hxmem, hxpos⟩ := exists_pos_of_sum_pos
        (ranksDesc.filter fun r => decide (r ≠ q)) (countByNumber cards) (by omega)
      have hxr : x ∈ ranksDesc := (List.mem_filter.mp hxmem).1
      have hxq : x ≠ q := by
        have := (List.mem_filter.mp hxmem).2
        simpa using this
      have hbitof : ∀ j ∈ ranksDesc, 0 < countByNumber cards j → j ≠ q →
          (numberBitsetOf cards &&& not16 (Number.fromNatD q).asBit).testBit j = true := by
        intro j hj hjpos hjq
        obtain ⟨hj2, hj14⟩ := bounds_of_mem_ranksDesc j hj
        rw [testBit_and_not16 _ _ j (by omega), Number.testBit_asBit, hqnat]
        have h1 : ¬ (q = j) := fun h => hjq h.symm
        simp [h1, (testBit_numberBitsetOf_iff_count cards j).mpr hjpos]
      obtain ⟨k, hkr, hkbit, hkmaxr⟩ := exists_max_bit_of_decodeMask_ne
        (numberBitsetOf cards &&& not16 (Number.fromNatD q).asBit)
        (by
          intro hemp
          have hxin : x ∈ decodeMask (numberBitsetOf cards &&&
              not16 (Number.fromNatD q).asBit) :=
            (mem_decodeMask _ x).mpr ⟨hxr, hbitof x hxr hxpos hxq⟩
          rw [hemp] at hxin
          exact absurd hxin (List.not_mem_nil x))
      obtain ⟨hk2, hk14⟩ := bounds_of_mem_ranksDesc k hkr
      have hkunpack : 0 < countByNumber cards k ∧ k ≠ q := by
        have hb := hkbit
        rw [testBit_and_not16 _ _ k (by omega), Number.testBit_asBit, hqnat] at hb
        simp only [Bool.and_eq_true, Bool.not_eq_true'] at hb
        refine ⟨(testBit_numberBitsetOf_iff_count cards k).mp hb.1, ?_⟩
        intro h
        rw [h] at hb
        simp at hb
      have hkmaxall : ∀ j, (numberBitsetOf cards &&&
          not16 (Number.fromNatD q).asBit).testBit j = true → j ≤ k := by
        intro j hj
        have hjn : (numberBitsetOf cards).testBit j = true := by
          rw [Nat.testBit_and, Bool.and_eq_true] at hj
          exact hj.1
        have := numberBitsetOf_range cards j hjn
        exact hkmaxr j (mem_ranksDesc_of j this.1 this.2) hj
      have hkick : highestCardInSet (numberBitsetOf cards &&&
          not16 (Number.fromNatD q).asBit) = Number.fromNatD k :=
        highestCardInSet_eq _ k hk2 hk14 hkbit hkmaxall
      have hkmax : ∀ j ∈ ranksDesc, 0 < countByNumber cards j → j ≠ q → j ≤ k :=
        fun j hj hjpos hjq => hkmaxr j hj (hbitof j hj hjpos hjq)
      refine ⟨rfl, ?_⟩
      rw [toKey_quads, hqnat, hkick, Number.toNat_fromNatD k hk2 hk14,
        value7_eq_quads cards h7 hnd q k hqc hqmem hkunpack.1 hkr hkunpack.2 hkmax hsfnone]
    | none =>
      dsimp only
      have hq4none : ∀ j ∈ ranksDesc, countByNumber cards j ≠ 4 :=
        count_ne_of_findRank_none _ 4 hq
      cases hto : checkForThreeOfAKind (countByNumber cards) with
      | some t =>
        dsimp only
        have hto2 := hto
        rw [checkForThreeOfAKind] at hto2
        obtain ⟨t3, ht_eq, htc_eq⟩ := Option.map_eq_some'.mp hto2
        obtain ⟨htmem, htc, htmax⟩ := findRankWithCount_sound_max _ 3 t3 ht_eq
        obtain ⟨ht2, ht14⟩ := bounds_of_mem_ranksDesc t3 htmem
        have htnat : t.toNat = t3 := by
          rw [← htc_eq, Number.toNat_fromNatD t3 ht2 ht14]
        cases hfh : ranksDesc.findSome? (fun n =>
            if n ≠ t.toNat ∧ 2 ≤ countByNumber cards n then some n else none) with
        | some p =>
          dsimp only
          obtain ⟨hpmemf, hpprop, hpmaxf⟩ := findSome?_if_sound_max
            (fun n => n ≠ t.toNat ∧ 2 ≤ countByNumber cards n) ranksDesc
            ranksDesc_sorted p hfh
          obtain ⟨hp2, hp14⟩ := bounds_of_mem_ranksDesc p hpmemf
          have hppt : p ≠ t3 := by
            rw [← htnat]
            exact hpprop.1
          have hpmax : ∀ j ∈ ranksDesc, j ≠ t3 → 2 ≤ countByNumber cards j → j ≤ p :=
            fun j hj hjt hj2 => hpmaxf j hj ⟨by rw [htnat]; exact hjt, hj2⟩
          refine ⟨rfl, ?_⟩
          rw [toKey_fullhouse, htnat, Number.toNat_fromNatD p hp2 hp14,
            value7_eq_fullhouse cards h7 hnd t3 p htc htmem htmax hpprop.2 hpmemf hppt
              hpmax hq4none hsfnone]
        | none =>
          dsimp only
          have hfhnone := findSome?_if_none
            (fun n => n ≠ t.toNat ∧ 2 ≤ countByNumber cards n) (fun n => n) ranksDesc hfh
          have hone : ∀ j ∈ ranksDesc, j ≠ t3 → countByNumber cards j ≤ 1 := by
            intro j hj hjt
            by_contra hgt
            exact hfhnone j hj ⟨by rw [htnat]; exact hjt, by omega⟩
          exact afterFullHouse_toKey cards h7 hnd (some t) hsfnone hq4none
            (Or.inr ⟨t3, by rw [← htc_eq], htmem, htc, hone⟩)
      | none =>
        dsimp only
        have h3none : ∀ j ∈ ranksDesc, countByNumber cards j ≠ 3 := by
          rw [checkForThreeOfAKind, Option.map_eq_none'] at hto
          exact count_ne_of_findRank_none _ 3 hto
        exact afterFullHouse_toKey cards h7 hnd none hsfnone hq4none (Or.inl ⟨rfl, h3none⟩)

end EvaluateMaster

section ClaimC1

/-- C1: For any two valid 7-card hands (7 distinct cards each), the derived
order on the evaluations of evaluate_hand coincides with the standard poker
comparison of the hands: evaluate_hand a beats, ties or loses to
evaluate_hand b exactly as the canonical poker value of a (the
lexicographically best category-then-tiebreak vector over all 5-card
subhands) compares to that of b; in particular evaluate_hand a >
evaluate_hand b iff a beats b, and the evaluations are equal iff the hands
tie exactly, kickers included. -/
theorem evaluateHand_order_C1 (a b : List Card) (ha7 : a.length = 7) (hand : a.Nodup)
    (hb7 : b.length = 7) (hbnd : b.Nodup) :
    (evaluateHand a).cmp (evaluateHand b) = lexCmp (value7 a) (value7 b) := by
  obtain ⟨hsa, hka⟩ := evaluateHand_toKey a ha7 hand
  obtain ⟨hsb, hkb⟩ := evaluateHand_toKey b hb7 hbnd
  rw [cmp_eq_lexCmp_toKey (evaluateHand a) (evaluateHand b) hsa hsb, hka, hkb]

/-- Witness for C1: a straight-flush hand against a two-pair hand. -/
theorem evaluateHand_order_C1_witness :
    (royalFlushHand.length = 7 ∧ royalFlushHand.Nodup ∧
      ([⟨.clubs, .ace⟩, ⟨.diamonds, .ace⟩, ⟨.spades, .king⟩, ⟨.hearts, .king⟩,
        ⟨.clubs, .nine⟩, ⟨.hearts, .eight⟩, ⟨.hearts, .five⟩] : List Card).length = 7 ∧
      ([⟨.clubs, .ace⟩, ⟨.diamonds, .ace⟩, ⟨.spades, .king⟩, ⟨.hearts, .king⟩,
        ⟨.clubs, .nine⟩, ⟨.hearts, .eight⟩, ⟨.hearts, .five⟩] : List Card).Nodup) ∧
    (evaluateHand royalFlushHand).cmp (evaluateHand
      [⟨.clubs, .ace⟩, ⟨.diamonds, .ace⟩, ⟨.spades, .king⟩, ⟨.hearts, .king⟩,
       ⟨.clubs, .nine⟩, ⟨.hearts, .eight⟩, ⟨.hearts, .five⟩]) =
      lexCmp (value7 royalFlushHand) (value7
        [⟨.clubs, .ace⟩, ⟨.diamonds, .ace⟩, ⟨.spades, .king⟩, ⟨.hearts, .king⟩,
         ⟨.clubs, .nine⟩, ⟨.hearts, .eight⟩, ⟨.hearts, .five⟩]) :=
  ⟨⟨by decide, by decide, by decide, by decide⟩,
    evaluateHand_order_C1 royalFlushHand
      [⟨.clubs, .ace⟩, ⟨.diamonds, .ace⟩, ⟨.spades, .king⟩, ⟨.hearts, .king⟩,
       ⟨.clubs, .nine⟩, ⟨.hearts, .eight⟩, ⟨.hearts, .five⟩]
      (by decide) (by decide) (by decide) (by decide)⟩

end ClaimC1
